import Mathlib

/-! The request logger of `test-server.go`.

A shallow embedding of `handle` from `test-server.go` together with the parts of the Go
standard library that decide what it prints: `encoding/json` (`Unmarshal` into an empty
interface, `Marshal` of the `LogOutput` struct), `unicode/utf8`, `unicode/utf16`, the
correctly rounded `strconv.ParseFloat` and the shortest `strconv.AppendFloat`, the single
`Write` calls made by `fmt.Println` / `fmt.Fprintln`, and what `net/http` and `net/url` make
of the request line.

`encoding/json` is the implementation on top of `encoding/json/v2` and `jsontext` with the
options of `DefaultOptionsV1`: the encoder writes a byte that is not valid UTF-8 as the three
bytes of U+FFFD, and it refuses, as the decoder does, to open an array or a map below 10000
open ones.

Go strings and byte slices are lists of bytes; a byte is a natural number below 256.
-/

namespace TestServer

/-! ## Bytes -/

/-- A Go `string` or `[]byte`: the list of its bytes. -/
abbrev Bytes := List Nat

/-- The bytes of an ASCII string literal. -/
def ascii (s : String) : Bytes := s.data.map Char.toNat

/-! ## unicode/utf8 -/

/-- Go `utf8.RuneError`, U+FFFD. -/
def RuneError : Nat := 0xFFFD

/-- Continuation byte test: `locb <= b && b <= hicb`. -/
def isCont (b : Nat) : Bool := 0x80 ≤ b && b ≤ 0xBF

/-- Go `utf8.DecodeRune`: the first rune of `p` and its width in bytes. Invalid or short
encodings give `(RuneError, 1)`, the empty input `(RuneError, 0)`. The second byte is checked
against the accept range of the leading byte (`first` / `acceptRanges` tables), which is what
rules out overlong forms, surrogates and values above U+10FFFF. Masking and shifting are
written as `%` and `*`. -/
def decodeRune (p : Bytes) : Nat × Nat :=
  match p with
  | [] => (RuneError, 0)
  | p0 :: t =>
    if p0 < 0x80 then (p0, 1)
    else if p0 < 0xC2 then (RuneError, 1)
    else if p0 < 0xE0 then
      match t with
      | b1 :: _ =>
        if isCont b1 then ((p0 % 32) * 64 + b1 % 64, 2) else (RuneError, 1)
      | _ => (RuneError, 1)
    else if p0 < 0xF0 then
      match t with
      | b1 :: b2 :: _ =>
        if b1 < (if p0 = 0xE0 then 0xA0 else 0x80) || (if p0 = 0xED then 0x9F else 0xBF) < b1 then
          (RuneError, 1)
        else if !isCont b2 then (RuneError, 1)
        else ((p0 % 16) * 4096 + (b1 % 64) * 64 + b2 % 64, 3)
      | _ => (RuneError, 1)
    else if p0 < 0xF5 then
      match t with
      | b1 :: b2 :: b3 :: _ =>
        if b1 < (if p0 = 0xF0 then 0x90 else 0x80) || (if p0 = 0xF4 then 0x8F else 0xBF) < b1 then
          (RuneError, 1)
        else if !isCont b2 then (RuneError, 1)
        else if !isCont b3 then (RuneError, 1)
        else ((p0 % 8) * 262144 + (b1 % 64) * 4096 + (b2 % 64) * 64 + b3 % 64, 4)
      | _ => (RuneError, 1)
    else (RuneError, 1)

/-- Go `utf8.EncodeRune`: the UTF-8 bytes of a rune; surrogates and values above U+10FFFF are
written as U+FFFD. -/
def encodeRune (r : Nat) : Bytes :=
  if r ≤ 0x7F then [r]
  else if r ≤ 0x7FF then [0xC0 + r / 64, 0x80 + r % 64]
  else if 0x10FFFF < r || (0xD800 ≤ r && r ≤ 0xDFFF) then [0xEF, 0xBF, 0xBD]
  else if r ≤ 0xFFFF then [0xE0 + r / 4096, 0x80 + r / 64 % 64, 0x80 + r % 64]
  else [0xF0 + r / 262144, 0x80 + r / 4096 % 64, 0x80 + r / 64 % 64, 0x80 + r % 64]

/-! ## encoding/json: string encoding

`Marshal` runs on `encoding/json/v2` with the options of `DefaultOptionsV1`; a string is
written by `jsonwire.AppendQuote` with `EscapeForHTML`, `EscapeForJS` and `AllowInvalidUTF8`
set. -/

/-- The lower-case hexadecimal digit of `n < 16` (Go `hex[n]`). -/
def hexDigit (n : Nat) : Nat := if n < 10 then 0x30 + n else 0x61 + (n - 10)

/-- The ASCII bytes written as they are (`escapeASCII[b] == 0`): printable ASCII except the
quote, the backslash and the HTML characters `<`, `>`, `&`. -/
def htmlSafe (b : Nat) : Bool :=
  0x20 ≤ b && b < 0x80 && b != 0x22 && b != 0x5C && b != 0x3C && b != 0x3E && b != 0x26

/-- Go `appendEscapedASCII`: what is written for an ASCII byte that is escaped. -/
def escapeByte (b : Nat) : Bytes :=
  if b = 0x5C || b = 0x22 then [0x5C, b]
  else if b = 0x08 then [0x5C, 0x62]
  else if b = 0x0C then [0x5C, 0x66]
  else if b = 0x0A then [0x5C, 0x6E]
  else if b = 0x0D then [0x5C, 0x72]
  else if b = 0x09 then [0x5C, 0x74]
  else [0x5C, 0x75, 0x30, 0x30, hexDigit (b / 16), hexDigit (b % 16)]

/-- The loop of `AppendQuote`. `skip` is the number of bytes of the current rune still to pass
over (`n += rn`); `keep` says whether they are copied (an ordinary multi-byte rune) or were
replaced (U+2028, U+2029). A byte that starts no valid UTF-8 encoding is replaced by the three
bytes of U+FFFD (`append(dst, "\ufffd"...)`, a Go string literal). -/
def appendStringLoop : Bytes → Nat → Bool → Bytes
  | [], _, _ => []
  | b :: t, skip + 1, keep => (if keep then [b] else []) ++ appendStringLoop t skip keep
  | b :: t, 0, _ =>
    if b < 0x80 then
      (if htmlSafe b then [b] else escapeByte b) ++ appendStringLoop t 0 true
    else
      let cs := decodeRune (b :: t)
      if cs.1 = RuneError ∧ cs.2 = 1 then
        [0xEF, 0xBF, 0xBD] ++ appendStringLoop t 0 true
      else if cs.1 = 0x2028 ∨ cs.1 = 0x2029 then
        [0x5C, 0x75, 0x32, 0x30, 0x32, hexDigit (cs.1 % 16)] ++ appendStringLoop t (cs.2 - 1) false
      else
        b :: appendStringLoop t (cs.2 - 1) true

/-- The quoted JSON string literal that `Marshal` writes for the string `src`. -/
def appendString (src : Bytes) : Bytes :=
  0x22 :: (appendStringLoop src 0 true ++ [0x22])

/-! ## encoding/json: string decoding (`unquote`) -/

/-- The value of one hexadecimal digit, as in `getu4`. -/
def hexVal (c : Nat) : Option Nat :=
  if 0x30 ≤ c ∧ c ≤ 0x39 then some (c - 0x30)
  else if 0x61 ≤ c ∧ c ≤ 0x66 then some (c - 0x61 + 10)
  else if 0x41 ≤ c ∧ c ≤ 0x46 then some (c - 0x41 + 10)
  else none

/-- Go `getu4`: the rune of a leading `\uXXXX`, or `none` (Go returns -1). -/
def getu4 (s : Bytes) : Option Nat :=
  match s with
  | 0x5C :: 0x75 :: a :: b :: c :: d :: _ =>
    match hexVal a, hexVal b, hexVal c, hexVal d with
    | some x, some y, some z, some w => some (((x * 16 + y) * 16 + z) * 16 + w)
    | _, _, _, _ => none
  | _ => none

/-- Go `utf16.IsSurrogate`. -/
def isSurrogate (r : Nat) : Bool := 0xD800 ≤ r && r < 0xE000

/-- Go `utf16.DecodeRune`, with the second half possibly missing (`getu4` gave -1). -/
def utf16DecodeRune (r1 : Nat) (r2 : Option Nat) : Nat :=
  match r2 with
  | some r2 =>
    if 0xD800 ≤ r1 ∧ r1 < 0xDC00 ∧ 0xDC00 ≤ r2 ∧ r2 < 0xE000 then
      (r1 - 0xD800) * 1024 + (r2 - 0xDC00) + 0x10000
    else RuneError
  | none => RuneError

/-- The second loop of `unquoteBytes` over the text between the quotes; `skip` is the number of
bytes already consumed by the previous step (`r += size`, `r += 6`). `none` is Go `ok == false`.
The first loop of `unquoteBytes` only returns early inputs that this loop copies unchanged. -/
def unquoteLoop : Bytes → Nat → Option Bytes
  | [], _ => some []
  | _ :: t, skip + 1 => unquoteLoop t skip
  | c :: t, 0 =>
    if c = 0x5C then
      match t with
      | [] => none
      | e :: _ =>
        if e = 0x22 ∨ e = 0x5C ∨ e = 0x2F ∨ e = 0x27 then (unquoteLoop t 1).map (e :: ·)
        else if e = 0x62 then (unquoteLoop t 1).map (0x08 :: ·)
        else if e = 0x66 then (unquoteLoop t 1).map (0x0C :: ·)
        else if e = 0x6E then (unquoteLoop t 1).map (0x0A :: ·)
        else if e = 0x72 then (unquoteLoop t 1).map (0x0D :: ·)
        else if e = 0x74 then (unquoteLoop t 1).map (0x09 :: ·)
        else if e = 0x75 then
          match getu4 (c :: t) with
          | none => none
          | some rr =>
            if isSurrogate rr then
              let dec := utf16DecodeRune rr (getu4 (t.drop 5))
              if dec ≠ RuneError then (unquoteLoop t 11).map (encodeRune dec ++ ·)
              else (unquoteLoop t 5).map (encodeRune RuneError ++ ·)
            else (unquoteLoop t 5).map (encodeRune rr ++ ·)
        else none
    else if c = 0x22 ∨ c < 0x20 then none
    else if c < 0x80 then (unquoteLoop t 0).map (c :: ·)
    else
      let rs := decodeRune (c :: t)
      (unquoteLoop t (rs.2 - 1)).map (encodeRune rs.1 ++ ·)

/-- Go `unquote` applied to the text between the quotes of a string literal. -/
def unquote (raw : Bytes) : Option Bytes := unquoteLoop raw 0

/-- The string with every byte that does not start a valid UTF-8 encoding replaced by the
encoding of U+FFFD (Go `strings.ToValidUTF8`-style coercion, one replacement per byte). -/
def toValidUTF8 : Bytes → Nat → Bytes
  | [], _ => []
  | b :: t, skip + 1 => b :: toValidUTF8 t skip
  | b :: t, 0 =>
    let cs := decodeRune (b :: t)
    if cs.1 = RuneError ∧ cs.2 = 1 then [0xEF, 0xBF, 0xBD] ++ toValidUTF8 t 0
    else b :: toValidUTF8 t (cs.2 - 1)

/-! ## float64 and strconv

A finite float64 is identified by its sign and by `ord`, the 63 low bits of its IEEE 754 bit
pattern (biased exponent times 2^52 plus fraction); `ord` enumerates the non-negative finite
floats in increasing order and the finite ones are those below `infOrd`. All arithmetic is
exact integer arithmetic; no floating-point operation is used. -/

/-- A Go `float64`. -/
inductive Float64 where
  | finite (neg : Bool) (ord : Nat)
  | inf (neg : Bool)
  | nan
deriving DecidableEq, Repr

/-- The bit pattern of +Inf without its sign: biased exponent 2047, fraction 0. -/
def infOrd : Nat := 2047 * 2 ^ 52

/-- The magnitude of the float with pattern `k`, multiplied by 2^1074: subnormals (biased
exponent 0) are `fraction * 2^-1074`, the others `(2^52 + fraction) * 2^(exponent - 1075)`. -/
def floatScaled (k : Nat) : Nat :=
  if k / 2 ^ 52 = 0 then k % 2 ^ 52 else (2 ^ 52 + k % 2 ^ 52) * 2 ^ (k / 2 ^ 52 - 1)

/-- The midpoint between the floats `k - 1` and `k`, multiplied by 2^1075. -/
def midScaled (k : Nat) : Nat := floatScaled (k - 1) + floatScaled k

/-- IEEE 754 round-to-nearest-even, one comparison: the rational `num / den` rounds to the
float `k` or to a larger one iff it lies above the midpoint below `k`, or on it with `k` even. -/
def roundsAtLeast (num den k : Nat) : Bool :=
  midScaled k * den < num * 2 ^ 1075 || (midScaled k * den == num * 2 ^ 1075 && k % 2 == 0)

/-- The largest pattern `acc + j`, `j < 2^i`, that `num / den` rounds at least to, found bit
by bit from the top. -/
def searchOrd (num den : Nat) : Nat → Nat → Nat
  | 0, acc => acc
  | i + 1, acc =>
    searchOrd num den i (if roundsAtLeast num den (acc + 2 ^ i) then acc + 2 ^ i else acc)

/-- The pattern of the float nearest to `num / den` (ties to even); values that round past
the largest finite float give a pattern at or above `infOrd`. -/
def roundOrd (num den : Nat) : Nat := searchOrd num den 63 0

/-- Whether `num / den` rounds to exactly the float `k`. -/
def roundsTo (k num den : Nat) : Bool :=
  (k = 0 || roundsAtLeast num den k) && !roundsAtLeast num den (k + 1)

/-- ASCII digit test. -/
def isDigit (c : Nat) : Bool := 0x30 ≤ c && c ≤ 0x39

/-- Reads a run of decimal digits: the accumulated value, the number of digits read and the
rest of the input. -/
def readDigits : Bytes → Nat → Nat → Nat × Nat × Bytes
  | [], acc, n => (acc, n, [])
  | c :: t, acc, n =>
    if isDigit c then readDigits t (acc * 10 + (c - 0x30)) (n + 1) else (acc, n, c :: t)

/-- The exponent loop of `strconv`: `if e < 10000 { e = e*10 + int(s[i]) - '0' }`. -/
def readExp : Bytes → Nat → Nat
  | [], e => e
  | c :: t, e =>
    if isDigit c then readExp t (if e < 10000 then e * 10 + (c - 0x30) else e) else e

/-- A decimal literal read exactly: sign and the value `num / den`. -/
structure Decimal where
  neg : Bool
  num : Nat
  den : Nat
deriving DecidableEq, Repr

/-- The exact value `m * 10^e` as a fraction. -/
def scale10 (m : Nat) (e : Int) : Nat × Nat :=
  (m * 10 ^ e.toNat, 10 ^ (-e).toNat)

/-- The exponent part of a number literal, `e` or `E` with an optional sign, or nothing. -/
def readExpPart (s : Bytes) : Int :=
  match s with
  | c :: t =>
    if c = 0x65 ∨ c = 0x45 then
      match t with
      | 0x2D :: u => - (readExp u 0 : Int)
      | 0x2B :: u => (readExp u 0 : Int)
      | _ => (readExp t 0 : Int)
    else 0
  | [] => 0

/-- The fraction part of a number literal, if there is one: the digits go on accumulating
and are counted. -/
def readFrac (acc : Nat) (s : Bytes) : Nat × Nat × Bytes :=
  match s with
  | 0x2E :: t => readDigits t acc 0
  | _ => (acc, 0, s)

/-- The digits of a number literal after its sign, read exactly: integer digits, optional
fraction, optional exponent; the value as a fraction. -/
def readUnsigned (s : Bytes) : Nat × Nat :=
  let i := readDigits s 0 0
  let f := readFrac i.1 i.2.2
  scale10 f.1 (readExpPart f.2.2 - (f.2.1 : Int))

/-- The reading of a number literal done by `strconv.ParseFloat` (`readFloat` / `decimal.set`)
on a literal of JSON number syntax: the sign and the exact value. -/
def readFloat (lit : Bytes) : Decimal :=
  match lit with
  | 0x2D :: t => ⟨true, (readUnsigned t).1, (readUnsigned t).2⟩
  | _ => ⟨false, (readUnsigned lit).1, (readUnsigned lit).2⟩

/-- Go `strconv.ParseFloat(s, 64)` on a literal of JSON number syntax: the nearest float64,
or `none` for the range error returned when the value rounds to an infinity. -/
def ParseFloat (lit : Bytes) : Option Float64 :=
  let d := readFloat lit
  let k := roundOrd d.num d.den
  if k < infOrd then some (Float64.finite d.neg k) else none

/-- The decimal digits of `n`, most significant first (`[0]` for zero); `fuel` bounds the
number of digits. -/
def decDigitsAux : Nat → Nat → List Nat → List Nat
  | 0, _, acc => acc
  | fuel + 1, n, acc =>
    if n < 10 then n :: acc else decDigitsAux fuel (n / 10) (n % 10 :: acc)

/-- The decimal digits of `n`, most significant first. -/
def decDigits (n : Nat) : List Nat := decDigitsAux (n + 1) n []

/-- Drops trailing decimal zeros of `d * 10^e` (`trim` of `strconv`'s decimal). -/
def trimZeros : Nat → Nat → Nat → Nat × Nat
  | 0, d, e => (d, e)
  | fuel + 1, d, e => if d ≠ 0 ∧ d % 10 = 0 then trimZeros fuel (d / 10) (e + 1) else (d, e)

/-- The digit walk of `strconv`'s `roundShortest` for the exact decimal `N * 10^-1074` of the
float `k`, which has `nd` digits. At `n` digits the candidates are the truncation `down` and
`up = down + 1`; each is acceptable when it still rounds to `k`. If both are, the nearer one
is taken (`decimal.Round`: half goes to the even digit); the walk stops at the first `n` with an
acceptable candidate. The result is `(D, s)`, standing for `D * 10^(s - 1074)`. -/
def shortestLoop (k N nd : Nat) : Nat → Nat → Nat × Nat
  | 0, _ => (N, 0)
  | fuel + 1, n =>
    let s := nd - n
    let down := N / 10 ^ s
    let up := down + 1
    let cd := scale10 down ((s : Int) - 1074)
    let cu := scale10 up ((s : Int) - 1074)
    let okdown := roundsTo k cd.1 cd.2
    let okup := roundsTo k cu.1 cu.2
    let rem := N % 10 ^ s
    let half := 5 * 10 ^ (s - 1)
    let roundUp := decide (0 < s) && (half < rem || (rem == half && down % 2 == 1))
    if okdown && okup then (if roundUp then up else down, s)
    else if okdown then (down, s)
    else if okup then (up, s)
    else shortestLoop k N nd fuel (n + 1)

/-- The shortest decimal that rounds to the float `k > 0`: digits (most significant first,
no trailing zero) and the position `dp` of the decimal point, the value being
`0.d1d2... * 10^dp`. -/
def roundShortest (k : Nat) : List Nat × Int :=
  let N := floatScaled k * 5 ^ 1074
  let nd := (decDigits N).length
  let r := shortestLoop k N nd nd 1
  let t := trimZeros nd r.1 r.2
  let ds := decDigits t.1
  (ds, (ds.length : Int) + (t.2 : Int) - 1074)

/-- ASCII of a list of digit values. -/
def digitChars (ds : List Nat) : Bytes := ds.map (0x30 + ·)

/-- Go `%e` with the shortest digits (`fmtE`): `d.ddde±dd`. -/
def fmtE (ds : List Nat) (dp : Int) : Bytes :=
  let exp := dp - 1
  let a := exp.natAbs
  digitChars (ds.take 1) ++ (if 1 < ds.length then 0x2E :: digitChars (ds.drop 1) else []) ++
    [0x65, if exp < 0 then 0x2D else 0x2B] ++
    (if a < 10 then [0x30, 0x30 + a]
     else if a < 100 then [0x30 + a / 10, 0x30 + a % 10]
     else [0x30 + a / 100, 0x30 + a / 10 % 10, 0x30 + a % 10])

/-- Go `%f` with the shortest digits (`fmtF`). -/
def fmtF (ds : List Nat) (dp : Int) : Bytes :=
  (if 0 < dp then digitChars (ds.take dp.toNat) ++ List.replicate (dp.toNat - ds.length) 0x30
   else [0x30]) ++
  (if dp < (ds.length : Int) then
     0x2E :: (List.replicate (-dp).toNat 0x30 ++ digitChars (ds.drop dp.toNat))
   else [])

/-- The clean-up of `jsonwire.AppendFloat`: `e-09` becomes `e-9`. -/
def cleanExp (b : Bytes) : Bytes :=
  match b.reverse with
  | d :: z :: sg :: e :: r =>
    if e = 0x65 ∧ (sg = 0x2D ∨ sg = 0x2B) ∧ z = 0x30 then (d :: sg :: e :: r).reverse else b
  | _ => b

/-- The float64 constant `1e-6` of `jsonwire.AppendFloat`. -/
def ord1em6 : Nat := roundOrd 1 (10 ^ 6)

/-- The float64 constant `1e21` of `jsonwire.AppendFloat`. -/
def ord1e21 : Nat := roundOrd (10 ^ 21) 1

/-- The digits written by `jsonwire.AppendFloat` for a finite float64 ("as if by ES6 number to
string conversion"): `%f` unless the magnitude is non-zero and below 1e-6 or at least 1e21. -/
def formatFloat (neg : Bool) (k : Nat) : Bytes :=
  (if neg then [0x2D] else []) ++
  (if k = 0 then [0x30]
   else
     let r := roundShortest k
     if k < ord1em6 ∨ ord1e21 ≤ k then cleanExp (fmtE r.1 r.2) else fmtF r.1 r.2)

/-- Go `utf8.Valid`: every byte belongs to a valid encoding of a rune. `skip` counts the
bytes of the current rune still to pass over. -/
def validLoop : Bytes → Nat → Bool
  | [], _ => true
  | _ :: t, skip + 1 => validLoop t skip
  | b :: t, 0 =>
    let cs := decodeRune (b :: t)
    if cs.1 = RuneError ∧ cs.2 = 1 then false else validLoop t (cs.2 - 1)

/-- Go `utf8.Valid`. -/
def utf8Valid (s : Bytes) : Bool := validLoop s 0

/-! ## encoding/json: values -/

/-- What `Unmarshal` stores into an empty interface, and what `LogOutput.Data` can hold:
`nil`, `bool`, `float64`, `string`, `[]interface{}`, `map[string]interface{}`. A Go map is
represented by its entries in increasing key order, the order in which `Marshal` writes them. -/
inductive Value where
  | null
  | bool (b : Bool)
  | number (f : Float64)
  | string (s : Bytes)
  | array (xs : List Value)
  | object (m : List (Bytes × Value))

/-- Go `<` on strings: lexicographic order of the bytes. -/
def bytesLt : Bytes → Bytes → Bool
  | [], [] => false
  | [], _ :: _ => true
  | _ :: _, [] => false
  | a :: s, b :: t => a < b || (a == b && bytesLt s t)

/-- Go `m[key] = v` on a map given by its key-ordered entries. -/
def mapInsert (k : Bytes) (v : Value) : List (Bytes × Value) → List (Bytes × Value)
  | [] => [(k, v)]
  | e :: m =>
    if bytesLt k e.1 then (k, v) :: e :: m
    else if k = e.1 then (k, v) :: m
    else e :: mapInsert k v m

/-! ## encoding/json: the scanner and the decoder

`Unmarshal` reads the input against the grammar of JSON and builds the value as it goes. The
embedding is one machine that takes the input byte by byte: its states are those of the
scanner of `encoding/json`, and each state carries what the decoder builds at that point:
the text of the literal being read and, on the parse stack, the array or map under
construction. Invalid UTF-8 inside a string and repeated keys are accepted
(`AllowInvalidUTF8`, `AllowDuplicateNames`); nesting is limited to `maxNestingDepth`. -/

/-- The scanner's `step` function, with the literal read so far. -/
inductive Mode where
  | beginValueOrEmpty
  | beginValue
  | beginStringOrEmpty
  | beginString
  | endValue
  | inString (raw : Bytes)
  | inStringEsc (raw : Bytes)
  | inStringEscU (raw : Bytes) (left : Nat)
  | neg (raw : Bytes)
  | s0 (raw : Bytes)
  | s1 (raw : Bytes)
  | dot (raw : Bytes)
  | dot0 (raw : Bytes)
  | e (raw : Bytes)
  | eSign (raw : Bytes)
  | e0 (raw : Bytes)
  | literal (rest : Bytes) (v : Value)

/-- An entry of the scanner's `parseState` stack with the container being decoded:
`parseArrayValue`, `parseObjectKey` (with the key once it is read) and `parseObjectValue`
(with the key until its value is stored). -/
inductive Frame where
  | arr (xs : List Value)
  | objKey (m : List (Bytes × Value)) (key : Option Bytes)
  | objVal (m : List (Bytes × Value)) (key : Option Bytes)

/-- The state of a decode: scanner state, parse stack, the top-level value once complete, and
whether an error was saved (`d.savedError`). -/
structure Decoder where
  mode : Mode
  stack : List Frame
  result : Option Value
  saved : Bool

/-- Go `isSpace`. -/
def isSpace (c : Nat) : Bool := c = 0x20 || c = 0x09 || c = 0x0D || c = 0x0A

/-- Hexadecimal digit test of `stateInStringEscU`. -/
def isHex (c : Nat) : Bool :=
  (0x30 ≤ c && c ≤ 0x39) || (0x61 ≤ c && c ≤ 0x66) || (0x41 ≤ c && c ≤ 0x46)

/-- A value is complete: it is appended to the array on top of the stack, stored under the
pending key of the map on top of the stack, or is the top-level value. -/
def complete (v : Value) (d : Decoder) : Option Decoder :=
  match d.stack with
  | [] => some { d with mode := .endValue, result := some v }
  | .arr xs :: s => some { d with mode := .endValue, stack := .arr (xs ++ [v]) :: s }
  | .objVal m (some k) :: s =>
    some { d with mode := .endValue, stack := .objVal (mapInsert k v m) none :: s }
  | _ => none

/-- The closing quote of a string literal: the literal is unquoted; in key position it
becomes the pending key, otherwise it is a complete value. -/
def endString (raw : Bytes) (d : Decoder) : Option Decoder :=
  match unquote raw with
  | none => none
  | some s =>
    match d.stack with
    | .objKey m none :: st => some { d with mode := .endValue, stack := .objKey m (some s) :: st }
    | _ => complete (.string s) d

/-- The end of a number literal (`convertNumber`): the float64 it denotes is the value; when
`ParseFloat` reports a range error the error is saved and decoding goes on with `nil`. -/
def endNumber (raw : Bytes) (d : Decoder) : Option Decoder :=
  match ParseFloat raw with
  | some f => complete (.number f) d
  | none => complete .null { d with saved := true }

/-- Go `stateEndValue` (and `stateEndTop` when the stack is empty). -/
def stepEndValue (d : Decoder) (c : Nat) : Option Decoder :=
  match d.stack with
  | [] => if isSpace c then some { d with mode := .endValue } else none
  | top :: s =>
    if isSpace c then some { d with mode := .endValue }
    else
      match top with
      | .objKey m (some k) =>
        if c = 0x3A then some { d with mode := .beginValue, stack := .objVal m (some k) :: s }
        else none
      | .objVal m none =>
        if c = 0x2C then some { d with mode := .beginString, stack := .objKey m none :: s }
        else if c = 0x7D then complete (.object m) { d with stack := s }
        else none
      | .arr xs =>
        if c = 0x2C then some { d with mode := .beginValue }
        else if c = 0x5D then complete (.array xs) { d with stack := s }
        else none
      | _ => none

/-- Go `pushParseState`: refuses to nest deeper than the limit, if there is one. -/
def push (limit : Option Nat) (f : Frame) (m : Mode) (d : Decoder) : Option Decoder :=
  match limit with
  | some l =>
    if d.stack.length + 1 ≤ l then some { d with mode := m, stack := f :: d.stack } else none
  | none => some { d with mode := m, stack := f :: d.stack }

/-- Go `stateBeginValue`. -/
def stepBeginValue (limit : Option Nat) (d : Decoder) (c : Nat) : Option Decoder :=
  if isSpace c then some d
  else if c = 0x7B then push limit (.objKey [] none) .beginStringOrEmpty d
  else if c = 0x5B then push limit (.arr []) .beginValueOrEmpty d
  else if c = 0x22 then some { d with mode := .inString [] }
  else if c = 0x2D then some { d with mode := .neg [c] }
  else if c = 0x30 then some { d with mode := .s0 [c] }
  else if c = 0x74 then some { d with mode := .literal [0x72, 0x75, 0x65] (.bool true) }
  else if c = 0x66 then some { d with mode := .literal [0x61, 0x6C, 0x73, 0x65] (.bool false) }
  else if c = 0x6E then some { d with mode := .literal [0x75, 0x6C, 0x6C] .null }
  else if 0x31 ≤ c ∧ c ≤ 0x39 then some { d with mode := .s1 [c] }
  else none

/-- Go `stateBeginString`. -/
def stepBeginString (d : Decoder) (c : Nat) : Option Decoder :=
  if isSpace c then some d
  else if c = 0x22 then some { d with mode := .inString [] }
  else none

/-- Go `state0`: after the integer part of a number. -/
def step0 (raw : Bytes) (d : Decoder) (c : Nat) : Option Decoder :=
  if c = 0x2E then some { d with mode := .dot (raw ++ [c]) }
  else if c = 0x65 ∨ c = 0x45 then some { d with mode := .e (raw ++ [c]) }
  else (endNumber raw d).bind (stepEndValue · c)

/-- Go `stateESign`. -/
def stepESign (raw : Bytes) (d : Decoder) (c : Nat) : Option Decoder :=
  if isDigit c then some { d with mode := .e0 (raw ++ [c]) } else none

/-- One byte through the scanner (`s.step(s, c)`); `none` is a syntax error. -/
def step (limit : Option Nat) (d : Decoder) (c : Nat) : Option Decoder :=
  match d.mode with
  | .beginValueOrEmpty =>
    if isSpace c then some d
    else if c = 0x5D then stepEndValue d c
    else stepBeginValue limit d c
  | .beginValue => stepBeginValue limit d c
  | .beginStringOrEmpty =>
    if isSpace c then some d
    else if c = 0x7D then
      match d.stack with
      | .objKey m none :: s => stepEndValue { d with stack := .objVal m none :: s } c
      | _ => none
    else stepBeginString d c
  | .beginString => stepBeginString d c
  | .endValue => stepEndValue d c
  | .inString raw =>
    if c = 0x22 then endString raw d
    else if c = 0x5C then some { d with mode := .inStringEsc (raw ++ [c]) }
    else if c < 0x20 then none
    else some { d with mode := .inString (raw ++ [c]) }
  | .inStringEsc raw =>
    if c = 0x62 ∨ c = 0x66 ∨ c = 0x6E ∨ c = 0x72 ∨ c = 0x74 ∨ c = 0x5C ∨ c = 0x2F ∨ c = 0x22 then
      some { d with mode := .inString (raw ++ [c]) }
    else if c = 0x75 then some { d with mode := .inStringEscU (raw ++ [c]) 4 }
    else none
  | .inStringEscU raw left =>
    if isHex c then
      some { d with mode := if left ≤ 1 then .inString (raw ++ [c])
                            else .inStringEscU (raw ++ [c]) (left - 1) }
    else none
  | .neg raw =>
    if c = 0x30 then some { d with mode := .s0 (raw ++ [c]) }
    else if 0x31 ≤ c ∧ c ≤ 0x39 then some { d with mode := .s1 (raw ++ [c]) }
    else none
  | .s1 raw => if isDigit c then some { d with mode := .s1 (raw ++ [c]) } else step0 raw d c
  | .s0 raw => step0 raw d c
  | .dot raw => if isDigit c then some { d with mode := .dot0 (raw ++ [c]) } else none
  | .dot0 raw =>
    if isDigit c then some { d with mode := .dot0 (raw ++ [c]) }
    else if c = 0x65 ∨ c = 0x45 then some { d with mode := .e (raw ++ [c]) }
    else (endNumber raw d).bind (stepEndValue · c)
  | .e raw =>
    if c = 0x2B ∨ c = 0x2D then some { d with mode := .eSign (raw ++ [c]) }
    else stepESign raw d c
  | .eSign raw => stepESign raw d c
  | .e0 raw =>
    if isDigit c then some { d with mode := .e0 (raw ++ [c]) }
    else (endNumber raw d).bind (stepEndValue · c)
  | .literal rest v =>
    match rest with
    | [] => none
    | x :: r => if c = x then (if r = [] then complete v d else some { d with mode := .literal r v })
                else none

/-- The scanner run over the input, one byte at a time. -/
def run (limit : Option Nat) : Decoder → Bytes → Option Decoder
  | d, [] => some d
  | d, c :: t => (step limit d c).bind (run limit · t)

/-- The state `scan.reset()` leaves: looking for the beginning of a value. -/
def Decoder.init : Decoder := ⟨.beginValue, [], none, false⟩

/-- Whether the top-level value is complete (`s.endTop`, also just after the closing byte). -/
def Decoder.atEnd (d : Decoder) : Bool :=
  match d.mode, d.stack with
  | .endValue, [] => true
  | _, _ => false

/-- Go `scanner.eof`: an unfinished number is ended by a space; anything else unfinished is
"unexpected end of JSON input". -/
def eof (limit : Option Nat) (d : Decoder) : Option Decoder :=
  if d.atEnd then some d
  else (step limit d 0x20).bind (fun d => if d.atEnd then some d else none)

/-- The errors `Unmarshal` returns into an empty interface: a `SyntaxError` from the scanner,
or the saved `UnmarshalTypeError` of a number that does not fit a float64. -/
inductive UnmarshalError where
  | invalid
  | numberRange
deriving DecidableEq, Repr

/-- The decode with a given nesting limit. -/
def unmarshalWith (limit : Option Nat) (data : Bytes) : Except UnmarshalError Value :=
  match (run limit Decoder.init data).bind (eof limit) with
  | none => .error .invalid
  | some d =>
    match d.result with
    | none => .error .invalid
    | some v => if d.saved then .error .numberRange else .ok v

/-- Go `maxNestingDepth`. -/
def maxNestingDepth : Nat := 10000

/-- Go `json.Unmarshal(data, &v)` for `var v interface{}`: the decoded value or the error. -/
def Unmarshal (data : Bytes) : Except UnmarshalError Value :=
  unmarshalWith (some maxNestingDepth) data

/-- Whether the bytes are a JSON text: the scanner accepts them, with no limit on nesting
(the grammar of RFC 8259 sets none). -/
def validJSON (data : Bytes) : Bool :=
  ((run none Decoder.init data).bind (eof none)).isSome

/-! ## encoding/json: Marshal -/

mutual
/-- The encoder for a value held in an interface, written below `depth` open objects and
arrays. `none` is the error on which `Marshal` returns no bytes: the unsupported value NaN or
an infinity, or "exceeded max depth" when an array or a map is to be opened below
`maxNestingDepth` open ones. -/
def marshalValue : Nat → Value → Option Bytes
  | _, .null => some [0x6E, 0x75, 0x6C, 0x6C]
  | _, .bool true => some [0x74, 0x72, 0x75, 0x65]
  | _, .bool false => some [0x66, 0x61, 0x6C, 0x73, 0x65]
  | _, .number (.finite neg k) => some (formatFloat neg k)
  | _, .number _ => none
  | _, .string s => some (appendString s)
  | depth, .array xs =>
    if depth < maxNestingDepth then
      (marshalList (depth + 1) xs false).map (fun b => 0x5B :: (b ++ [0x5D]))
    else none
  | depth, .object m =>
    if depth < maxNestingDepth then
      (marshalFields (depth + 1) m false).map (fun b => 0x7B :: (b ++ [0x7D]))
    else none
/-- The elements of an array, a comma before each but the first. -/
def marshalList : Nat → List Value → Bool → Option Bytes
  | _, [], _ => some []
  | depth, v :: vs, sep =>
    match marshalValue depth v, marshalList depth vs true with
    | some a, some b => some ((if sep then [0x2C] else []) ++ a ++ b)
    | _, _ => none
/-- The entries of a map in key order, a comma before each but the first. -/
def marshalFields : Nat → List (Bytes × Value) → Bool → Option Bytes
  | _, [], _ => some []
  | depth, (k, v) :: m, sep =>
    match marshalValue depth v, marshalFields depth m true with
    | some a, some b => some ((if sep then [0x2C] else []) ++ appendString k ++ [0x3A] ++ a ++ b)
    | _, _ => none
end

mutual
/-- The text of a value with the nesting check left out; `marshalValue` gives this text
whenever it gives one. -/
def encodeValue : Value → Option Bytes
  | .null => some [0x6E, 0x75, 0x6C, 0x6C]
  | .bool true => some [0x74, 0x72, 0x75, 0x65]
  | .bool false => some [0x66, 0x61, 0x6C, 0x73, 0x65]
  | .number (.finite neg k) => some (formatFloat neg k)
  | .number _ => none
  | .string s => some (appendString s)
  | .array xs => (encodeList xs false).map (fun b => 0x5B :: (b ++ [0x5D]))
  | .object m => (encodeFields m false).map (fun b => 0x7B :: (b ++ [0x7D]))
/-- The elements of an array, a comma before each but the first. -/
def encodeList : List Value → Bool → Option Bytes
  | [], _ => some []
  | v :: vs, sep =>
    match encodeValue v, encodeList vs true with
    | some a, some b => some ((if sep then [0x2C] else []) ++ a ++ b)
    | _, _ => none
/-- The entries of a map in key order, a comma before each but the first. -/
def encodeFields : List (Bytes × Value) → Bool → Option Bytes
  | [], _ => some []
  | (k, v) :: m, sep =>
    match encodeValue v, encodeFields m true with
    | some a, some b => some ((if sep then [0x2C] else []) ++ appendString k ++ [0x3A] ++ a ++ b)
    | _, _ => none
end

/-! ## Values that a decode produces -/

/-- The entries are in strictly increasing key order. -/
def keysSorted : List (Bytes × Value) → Bool
  | [] => true
  | a :: m =>
    (match m with
     | [] => true
     | b :: _ => bytesLt a.1 b.1) && keysSorted m

mutual
/-- The nesting depth of a value: 0 for a scalar, one more than its deepest member for an
array or a map. -/
def Value.depth : Value → Nat
  | .array xs => Value.depthList xs + 1
  | .object m => Value.depthFields m + 1
  | _ => 0
/-- The largest depth among the elements. -/
def Value.depthList : List Value → Nat
  | [] => 0
  | v :: vs => max (Value.depth v) (Value.depthList vs)
/-- The largest depth among the entries' values. -/
def Value.depthFields : List (Bytes × Value) → Nat
  | [] => 0
  | (_, v) :: m => max (Value.depth v) (Value.depthFields m)
end

mutual
/-- The shape of every value `Unmarshal` stores: numbers are finite float64s, strings and keys
are valid UTF-8, and maps have distinct keys (held in increasing order). -/
def Value.decoded : Value → Bool
  | .null => true
  | .bool _ => true
  | .number (.finite _ k) => decide (k < infOrd)
  | .number _ => false
  | .string s => utf8Valid s
  | .array xs => Value.decodedList xs
  | .object m => keysSorted m && Value.decodedFields m
/-- Every element is of the decoded shape. -/
def Value.decodedList : List Value → Bool
  | [] => true
  | v :: vs => Value.decoded v && Value.decodedList vs
/-- Every entry has a valid UTF-8 key and a value of the decoded shape. -/
def Value.decodedFields : List (Bytes × Value) → Bool
  | [] => true
  | (k, v) :: m => utf8Valid k && Value.decoded v && Value.decodedFields m
end

/-! ## Deciding equality of values -/

mutual
/-- Structural equality test on values. -/
def Value.beq : Value → Value → Bool
  | .null, .null => true
  | .bool a, .bool b => a == b
  | .number a, .number b => a == b
  | .string a, .string b => a == b
  | .array a, .array b => Value.beqList a b
  | .object a, .object b => Value.beqFields a b
  | _, _ => false
/-- Structural equality test on lists of values. -/
def Value.beqList : List Value → List Value → Bool
  | [], [] => true
  | a :: as, b :: bs => Value.beq a b && Value.beqList as bs
  | _, _ => false
/-- Structural equality test on map entries. -/
def Value.beqFields : List (Bytes × Value) → List (Bytes × Value) → Bool
  | [], [] => true
  | (k, a) :: as, (l, b) :: bs => k == l && Value.beq a b && Value.beqFields as bs
  | _, _ => false
end

/-! ## test-server.go -/

/-- The record `LogOutput` of `test-server.go`. -/
structure LogOutput where
  Method : Bytes
  URL : Bytes
  Data : Value

/-- What `Marshal` writes for a `LogOutput` before the value of its last field: the opening
brace and the fields `method` and `url` under their tags, then the tag `data`. -/
def logPrefix (method url : Bytes) : Bytes :=
  ascii "\x7b\"method\":" ++ appendString method ++ ascii ",\"url\":" ++ appendString url ++
    ascii ",\"data\":"

/-- Go `json.Marshal(out)` for the struct `LogOutput`: the fields in declaration order under
their tags `method`, `url`, `data`, the value of `Data` one level down, inside the object of
the struct; `none` when the encoder fails. -/
def Marshal (out : LogOutput) : Option Bytes :=
  (marshalValue 1 out.Data).map (fun b => logPrefix out.Method out.URL ++ b ++ ascii "\x7d")

/-- What `handle` is given: the method, `request.URL.String()`, and the outcome of
`ioutil.ReadAll(request.Body)`, that is the bytes read and the text of the error, if any. -/
structure Request where
  Method : Bytes
  URL : Bytes
  Body : Bytes
  ReadErr : Option Bytes

/-- A call on the `http.ResponseWriter`. -/
inductive ResponseCall where
  | WriteHeader (code : Nat)
  | Write (b : Bytes)
deriving DecidableEq, Repr

/-- What `handle` does: the calls on the response writer and the writes to standard output
and to standard error, each in order. -/
structure Effects where
  response : List ResponseCall
  stdout : List Bytes
  stderr : List Bytes
deriving DecidableEq, Repr

/-- The record built by `handle` (lines 26 to 36): `Data` is the body as a string, replaced by
the decoded value when `json.Unmarshal` returns no error. -/
def logRecord (r : Request) : LogOutput :=
  { Method := r.Method
    URL := r.URL
    Data := match Unmarshal r.Body with
      | .ok parsedBody => parsedBody
      | .error _ => .string r.Body }

/-- Lines 38 and 39: `jsonOut, _ := json.Marshal(out); fmt.Println(string(jsonOut))`. The error
is dropped, `jsonOut` is nil when there is one, and `Println` makes one write. -/
def printLog (out : LogOutput) : List Bytes :=
  [(Marshal out).getD [] ++ [0x0A]]

/-- The handler `handle` of `test-server.go`. -/
def handle (r : Request) : Effects :=
  { response := [ResponseCall.WriteHeader 200]
    stdout := printLog (logRecord r)
    stderr := match r.ReadErr with
      | some err => [ascii "Error: While reading requiest: %v" ++ [0x20] ++ err ++ [0x0A]]
      | none => [] }

/-- The port constant `_port`. -/
def _port : Nat := 8888

/-! ## encoding/json: Valid -/

/-- Whether the bytes are a JSON text nested at most `l` deep: the scanner accepts them with
`l` as its limit on nesting. -/
def validWithin (l : Nat) (data : Bytes) : Bool :=
  ((run (some l) Decoder.init data).bind (eof (some l))).isSome

/-- Go `json.Valid`: a JSON text within the nesting limit of the decoder. -/
def Valid (data : Bytes) : Bool := validWithin maxNestingDepth data

/-! ## The number literals of a JSON text

A scan of the bytes that only tells strings, number literals and the rest apart, and checks
each number literal against the range of float64. -/

/-- Where the scan stands: outside strings and numbers, inside a string, just after a
backslash inside a string, or inside a number literal whose bytes so far are `raw`. -/
inductive NumScan where
  | outside
  | inString
  | inEscape
  | inNumber (raw : Bytes)
deriving DecidableEq, Repr

/-- The bytes a number literal is made of: digits, signs, the point and the exponent mark. -/
def isNumberByte (c : Nat) : Bool :=
  isDigit c || c = 0x2D || c = 0x2B || c = 0x2E || c = 0x65 || c = 0x45

/-- Whether a number literal denotes a finite float64 (`strconv.ParseFloat` returns no range
error). -/
def fitsFloat64 (lit : Bytes) : Bool := (ParseFloat lit).isSome

/-- The scan after one more byte. -/
def NumScan.next : NumScan → Nat → NumScan
  | .outside, c =>
    if c = 0x22 then .inString
    else if isDigit c || c = 0x2D then .inNumber [c]
    else .outside
  | .inString, c => if c = 0x22 then .outside else if c = 0x5C then .inEscape else .inString
  | .inEscape, _ => .inString
  | .inNumber raw, c =>
    if isNumberByte c then .inNumber (raw ++ [c]) else if c = 0x22 then .inString else .outside

/-- The number literal that the byte `c` ends, if it ends one. -/
def NumScan.ended : NumScan → Nat → Option Bytes
  | .inNumber raw, c => if isNumberByte c then none else some raw
  | _, _ => none

/-- Whether every number literal met from here on is within the range of float64; the end of
the input ends a literal as a space does. -/
def numbersFitFrom : NumScan → Bytes → Bool
  | s, [] =>
    match s.ended 0x20 with
    | some raw => fitsFloat64 raw
    | none => true
  | s, c :: t =>
    (match s.ended c with
     | some raw => fitsFloat64 raw
     | none => true) && numbersFitFrom (s.next c) t

/-- Whether every number literal of the text is within the range of float64. -/
def numbersFit (data : Bytes) : Bool := numbersFitFrom .outside data

/-! ## Compact JSON text -/

/-- The scan of a JSON text for white space between its tokens: `inStr` says whether the scan
is inside a string literal, `esc` whether it is just after a backslash there. Outside string
literals no byte may be a space, a tab, a carriage return or a newline. -/
def compactFrom : Bool → Bool → Bytes → Bool
  | _, _, [] => true
  | false, _, c :: t => !isSpace c && compactFrom (decide (c = 0x22)) false t
  | true, true, _ :: t => compactFrom true false t
  | true, false, c :: t =>
    if c = 0x22 then compactFrom false false t else compactFrom true (decide (c = 0x5C)) t

/-- Whether a JSON text is compact: it has no white space between its tokens. -/
def compact (b : Bytes) : Bool := compactFrom false false b

/-! ## net/http and net/url: the method and the URL of a request

The server reads the request line, refuses a method that is not a token, and parses the
request target with `url.ParseRequestURI`; `handle` logs `request.URL.String()`. The target
is modelled in origin form (a path starting with `/`, then an optional `?` and query), the
form of a request to a server. -/

/-- The token characters of HTTP (`httpguts.IsTokenRune`). -/
def isTokenByte (c : Nat) : Bool :=
  (0x30 ≤ c && c ≤ 0x39) || (0x41 ≤ c && c ≤ 0x5A) || (0x61 ≤ c && c ≤ 0x7A) ||
    c = 0x21 || c = 0x23 || c = 0x24 || c = 0x25 || c = 0x26 || c = 0x27 || c = 0x2A ||
    c = 0x2B || c = 0x2D || c = 0x2E || c = 0x5E || c = 0x5F || c = 0x60 || c = 0x7C || c = 0x7E

/-- Go `validMethod` of `net/http`: a non-empty token. -/
def validMethod (method : Bytes) : Bool := method ≠ [] && method.all isTokenByte

/-- Go `shouldEscape(c, encodePath)`: letters, digits, `-_.~` and `$&+,/:;=@` stay. -/
def shouldEscapePath (c : Nat) : Bool :=
  !((0x30 ≤ c && c ≤ 0x39) || (0x41 ≤ c && c ≤ 0x5A) || (0x61 ≤ c && c ≤ 0x7A) ||
    c = 0x2D || c = 0x5F || c = 0x2E || c = 0x7E ||
    c = 0x24 || c = 0x26 || c = 0x2B || c = 0x2C || c = 0x2F || c = 0x3A || c = 0x3B ||
    c = 0x3D || c = 0x40)

/-- Go `validEncoded(s, encodePath)`: the sub-delimiters, `:`, `@`, the brackets and `%` are
accepted, any other byte if it needs no escape. -/
def validEncodedPath (s : Bytes) : Bool :=
  s.all (fun c =>
    c = 0x21 || c = 0x24 || c = 0x26 || c = 0x27 || c = 0x28 || c = 0x29 || c = 0x2A ||
    c = 0x2B || c = 0x2C || c = 0x3B || c = 0x3D || c = 0x3A || c = 0x40 ||
    c = 0x5B || c = 0x5D || c = 0x25 || !shouldEscapePath c)

/-- Go `unescape(s, encodePath)`: every `%XX` becomes its byte; `none` is the `EscapeError`
for a `%` not followed by two hexadecimal digits. -/
def unescapePath : Bytes → Option Bytes
  | [] => some []
  | c :: t =>
    if c = 0x25 then
      match t with
      | a :: b :: u =>
        match hexVal a, hexVal b with
        | some x, some y => (unescapePath u).map ((x * 16 + y) :: ·)
        | _, _ => none
      | _ => none
    else (unescapePath t).map (c :: ·)

/-- The upper-case hexadecimal digit of `n < 16` (Go `upperhex[n]`). -/
def upperHexDigit (n : Nat) : Nat := if n < 10 then 0x30 + n else 0x41 + (n - 10)

/-- Go `escape(s, encodePath)`: `%XX` for every byte that `shouldEscape`. -/
def escapePath : Bytes → Bytes
  | [] => []
  | c :: t =>
    (if shouldEscapePath c then [0x25, upperHexDigit (c / 16), upperHexDigit (c % 16)] else [c]) ++
      escapePath t

/-- Go `URL.EscapedPath()` after `URL.setPath(p)`: `setPath` stores the unescaped path and
keeps `p` as `RawPath` unless `p` is the default encoding of the path; `EscapedPath` returns
`RawPath` when it is a valid encoding of the path, and the default encoding otherwise. `none`
is the error of `setPath`. -/
def escapedPath (p : Bytes) : Option Bytes :=
  match unescapePath p with
  | none => none
  | some path =>
    let rawPath := if escapePath path = p then [] else p
    if rawPath ≠ [] ∧ validEncodedPath rawPath = true ∧ unescapePath rawPath = some path then
      some rawPath
    else if path = [0x2A] then some [0x2A]
    else some (escapePath path)

/-- What `request.URL.String()` is for a request whose target is `target`, in origin form:
the escaped path, then the query as received, from its `?` on. `none` when the server
refuses the target (a control byte, a malformed `%` escape) or the target is not in origin
form. -/
def requestURL (target : Bytes) : Option Bytes :=
  if target.any (fun b => b < 0x20 || b = 0x7F) then none
  else
    match target with
    | 0x2F :: _ =>
      (escapedPath (target.takeWhile (· ≠ 0x3F))).map (· ++ target.dropWhile (· ≠ 0x3F))
    | _ => none

/-! ## Requests used in the statements -/

/-- The text of `n` arrays nested around `inner`: `n` opening brackets, `inner`, `n` closing
brackets. -/
def nestedArrays (n : Nat) (inner : Bytes) : Bytes :=
  List.replicate n 0x5B ++ inner ++ List.replicate n 0x5D

/-- The value of `n` arrays nested around `v`. -/
def nestedValue : Nat → Value → Value
  | 0, v => v
  | n + 1, v => .array [nestedValue n v]

/-- A request whose body is the number `0` inside `maxNestingDepth` arrays. -/
def deepRequest : Request :=
  { Method := ascii "POST", URL := ascii "/", Body := nestedArrays maxNestingDepth (ascii "0"),
    ReadErr := none }

/-- The value that the data member of the log line of a request denotes: the decoded body,
or the body as a string with every byte that is not part of a valid UTF-8 encoding replaced
by U+FFFD. -/
def loggedData (r : Request) : Value :=
  match Unmarshal r.Body with
  | .ok v => v
  | .error _ => .string (toValidUTF8 r.Body 0)

/-- Scenario 1 of the specification: `POST /hello` with body `{"a":1}`. -/
def postHello : Request :=
  { Method := ascii "POST", URL := ascii "/hello", Body := ascii "\x7b\"a\":1\x7d",
    ReadErr := none }

/-- Scenario 2 of the specification: `GET /` with an empty body. -/
def getRoot : Request :=
  { Method := ascii "GET", URL := ascii "/", Body := [], ReadErr := none }

/-- Scenario 3 of the specification: `PUT /x?y=1` with body `not json`. -/
def putNotJson : Request :=
  { Method := ascii "PUT", URL := ascii "/x?y=1", Body := ascii "not json", ReadErr := none }

/-- Scenario 4 of the specification: `POST /arr` with body `[1,2,3]`. -/
def postArr : Request :=
  { Method := ascii "POST", URL := ascii "/arr", Body := ascii "[1,2,3]", ReadErr := none }

/-- The float64 `1.0`. -/
def one64 : Float64 := .finite false 0x3FF0000000000000

/-- The float64 `2.0`. -/
def two64 : Float64 := .finite false 0x4000000000000000

/-- The float64 `3.0`. -/
def three64 : Float64 := .finite false 0x4008000000000000

/-! ## Predicates and functions of the statements -/

/-- The byte sequences that encode one rune. -/
def RuneBytes (c : Bytes) : Prop :=
  (∃ x, c = [x] ∧ x < 0x80) ∨
  (∃ b b1, c = [b, b1] ∧ 0xC2 ≤ b ∧ b < 0xE0 ∧ 0x80 ≤ b1 ∧ b1 ≤ 0xBF) ∨
  (∃ b b1 b2, c = [b, b1, b2] ∧ 0xE0 ≤ b ∧ b < 0xF0 ∧
    (if b = 0xE0 then 0xA0 else 0x80) ≤ b1 ∧ b1 ≤ (if b = 0xED then 0x9F else 0xBF) ∧
    0x80 ≤ b2 ∧ b2 ≤ 0xBF) ∨
  (∃ b b1 b2 b3, c = [b, b1, b2, b3] ∧ 0xF0 ≤ b ∧ b < 0xF5 ∧
    (if b = 0xF0 then 0x90 else 0x80) ≤ b1 ∧ b1 ≤ (if b = 0xF4 then 0x8F else 0xBF) ∧
    0x80 ≤ b2 ∧ b2 ≤ 0xBF ∧ 0x80 ≤ b3 ∧ b3 ≤ 0xBF)

/-- Text between quotes that the scanner accepts: bytes other than the quote, the backslash
and controls, and well-formed escapes. -/
inductive Encoded : Bytes → Prop where
  | nil : Encoded []
  | plain (c : Nat) (e : Bytes) : 0x20 ≤ c → c ≠ 0x22 → c ≠ 0x5C → Encoded e → Encoded (c :: e)
  | esc (x : Nat) (e : Bytes) :
      (x = 0x62 ∨ x = 0x66 ∨ x = 0x6E ∨ x = 0x72 ∨ x = 0x74 ∨ x = 0x5C ∨ x = 0x2F ∨ x = 0x22) →
      Encoded e → Encoded (0x5C :: x :: e)
  | escU (a b c d : Nat) (e : Bytes) : isHex a = true → isHex b = true → isHex c = true →
      isHex d = true → Encoded e → Encoded (0x5C :: 0x75 :: a :: b :: c :: d :: e)

/-- Every key of the entries is above `k`. -/
def allAbove (k : Bytes) (m : List (Bytes × Value)) : Prop := ∀ e ∈ m, bytesLt k e.1 = true

/-- The nesting `n` is within the limit, if there is one. -/
def fits (limit : Option Nat) (n : Nat) : Prop :=
  match limit with
  | none => True
  | some l => n ≤ l

/-- The container of a stack entry at nesting `level` holds decoded values that fit. -/
def Frame.ok (limit : Option Nat) (level : Nat) : Frame → Prop
  | .arr xs => Value.decodedList xs = true ∧ fits limit (Value.depthList xs + level)
  | .objKey m k => keysSorted m = true ∧ Value.decodedFields m = true ∧
      fits limit (Value.depthFields m + level) ∧ ∀ key, k = some key → utf8Valid key = true
  | .objVal m k => keysSorted m = true ∧ Value.decodedFields m = true ∧
      fits limit (Value.depthFields m + level) ∧ ∀ key, k = some key → utf8Valid key = true

/-- Every entry of the parse stack is in order. -/
def stackOK (limit : Option Nat) : List Frame → Prop
  | [] => True
  | f :: s => f.ok limit (s.length + 1) ∧ stackOK limit s

/-- The value a literal state carries is a scalar. -/
def modeOK : Mode → Prop
  | .literal _ v => v.decoded = true ∧ v.depth = 0
  | _ => True

/-- The invariant of a decode. -/
def Inv (limit : Option Nat) (d : Decoder) : Prop :=
  stackOK limit d.stack ∧ fits limit d.stack.length ∧ modeOK d.mode ∧
    ∀ v, d.result = some v → v.decoded = true ∧ fits limit v.depth

/-- The number written by a list of digits, most significant first. -/
def digitsVal (ds : List Nat) : Nat := ds.foldl (fun a d => a * 10 + d) 0

/-- The input does not go on with a digit. -/
def noDigitHead (rest : Bytes) : Prop := ∀ c t, rest = c :: t → isDigit c = false

/-- The parts of a number literal: sign, integer digits, fraction digits, and the exponent
with its sign. -/
structure NumParts where
  neg : Bool
  int : List Nat
  frac : List Nat
  exp : Option (Bool × List Nat)

/-- The exponent text of a literal. -/
def renderExp : Option (Bool × List Nat) → Bytes
  | none => []
  | some (en, ds) => 0x65 :: (if en then 0x2D else 0x2B) :: digitChars ds

/-- The text of a literal without its sign. -/
def renderUnsigned (p : NumParts) : Bytes :=
  digitChars p.int ++ ((if p.frac = [] then [] else 0x2E :: digitChars p.frac) ++ renderExp p.exp)

/-- The text of a literal. -/
def renderNum (p : NumParts) : Bytes :=
  (if p.neg then [0x2D] else []) ++ renderUnsigned p

/-- The exponent an exponent text denotes. -/
def expIntOf : Option (Bool × List Nat) → Int
  | none => 0
  | some (en, ds) => if en then - (digitsVal ds : Int) else (digitsVal ds : Int)

/-- The exponent a literal denotes. -/
def NumParts.expInt (p : NumParts) : Int := expIntOf p.exp

/-- The parts are those of a JSON number: digits throughout, an integer part that is `0` or
starts with a non-zero digit, and an exponent of one to three digits. -/
def NumParts.wf (p : NumParts) : Prop :=
  p.int ≠ [] ∧ (∀ d ∈ p.int, d < 10) ∧ (p.int = [0] ∨ p.int.head? ≠ some 0) ∧
    (∀ d ∈ p.frac, d < 10) ∧
    (∀ en ds, p.exp = some (en, ds) → ds ≠ [] ∧ ds.length ≤ 3 ∧ ∀ d ∈ ds, d < 10)

/-- The value the parts of a literal denote, as a fraction. -/
def NumParts.value (p : NumParts) : Nat × Nat :=
  scale10 (digitsVal (p.int ++ p.frac)) (p.expInt - (p.frac.length : Int))

/-- The digits of an exponent below 1000, as `%e` and the clean-up leave them. -/
def expDigits (a : Nat) : List Nat :=
  if a < 10 then [a] else if a < 100 then [a / 10, a % 10] else [a / 100, a / 10 % 10, a % 10]

/-- The parts of the `%e` text. -/
def partsE (neg : Bool) (ds : List Nat) (dp : Int) : NumParts :=
  ⟨neg, ds.take 1, ds.drop 1, some (decide (dp - 1 < 0), expDigits (dp - 1).natAbs)⟩

/-- The parts of the `%f` text. -/
def partsF (neg : Bool) (ds : List Nat) (dp : Int) : NumParts :=
  if 0 < dp then
    ⟨neg, ds.take dp.toNat ++ List.replicate (dp.toNat - ds.length) 0, ds.drop dp.toNat, none⟩
  else ⟨neg, [0], List.replicate (-dp).toNat 0 ++ ds, none⟩

/-- A byte that ends a number literal. -/
def endsNumber (c : Nat) : Prop := isDigit c = false ∧ c ≠ 0x2E ∧ c ≠ 0x65 ∧ c ≠ 0x45

/-- The scanner state is past the mantissa of a number: `state0`, `state1` or `stateDot0`. -/
def pastMantissa (m : Mode) (raw : Bytes) : Prop := m = .s0 raw ∨ m = .s1 raw ∨ m = .dot0 raw

/-- The first byte of a value is read in either of the two states that look for a value. -/
def beginsValue (m : Mode) : Prop := m = .beginValue ∨ m = .beginValueOrEmpty

/-- The stack is not waiting for an object key. -/
def notKeyPos (st : List Frame) : Prop := ∀ m s, st ≠ Frame.objKey m none :: s

/-- The bytes `d` are read by the scanner as the value `v`, wherever a value is expected. -/
def ReadsAs (d : Bytes) (v : Value) : Prop :=
  ∀ (st : List Frame) (res : Option Value) (sv : Bool) (c : Nat) (rest : Bytes),
    endsNumber c → notKeyPos st →
    run none ⟨.beginValue, st, res, sv⟩ (d ++ c :: rest) =
      (complete v ⟨.endValue, st, res, sv⟩).bind (run none · (c :: rest))

/-- The stand of the scan for number literals that goes with a scanner state. -/
def scanOf : Mode → NumScan
  | .inString _ => .inString
  | .inStringEscU _ _ => .inString
  | .inStringEsc _ => .inEscape
  | .neg raw => .inNumber raw
  | .s0 raw => .inNumber raw
  | .s1 raw => .inNumber raw
  | .dot raw => .inNumber raw
  | .dot0 raw => .inNumber raw
  | .e raw => .inNumber raw
  | .eSign raw => .inNumber raw
  | .e0 raw => .inNumber raw
  | _ => .outside

/-- Whether the byte `c` ends a number literal that is out of range. -/
def rangeError (s : NumScan) (c : Nat) : Bool :=
  match s.ended c with
  | some raw => !fitsFloat64 raw
  | none => false

/-- Two facts about a decode in progress: once the stack is empty after a value, the
top-level value is there; and the rest of a literal name is made of lower-case letters. -/
abbrev Settled (d : Decoder) : Prop :=
  (d.mode = .endValue → d.stack = [] → d.result.isSome = true) ∧
  (∀ rest v, d.mode = .literal rest v → ∀ x ∈ rest, 0x61 ≤ x ∧ x ≤ 0x7A)

/-- What one step of the decoder does to the scan and to the saved error. -/
abbrev Follows (d : Decoder) (c : Nat) (d1 : Decoder) : Prop :=
  scanOf d1.mode = (scanOf d.mode).next c ∧
  d1.saved = (d.saved || rangeError (scanOf d.mode) c) ∧ Settled d1

/-- Text that the scan for white space passes over from outside a string literal back to
outside a string literal, finding none between the tokens. -/
def Tok (a : Bytes) : Prop :=
  ∀ rest : Bytes, compactFrom false false (a ++ rest) = compactFrom false false rest

/-! ## Deciding equality of values: soundness -/

mutual
theorem Value.eq_of_beq : ∀ a b : Value, Value.beq a b = true → a = b
  | .null, .null, _ => rfl
  | .bool a, .bool b, h => by simp [Value.beq] at h; simp [h]
  | .number a, .number b, h => by simp [Value.beq] at h; simp [h]
  | .string a, .string b, h => by simp [Value.beq] at h; simp [h]
  | .array a, .array b, h => by
    simp only [Value.beq] at h; rw [Value.eq_of_beqList a b h]
  | .object a, .object b, h => by
    simp only [Value.beq] at h; rw [Value.eq_of_beqFields a b h]
  | .null, .bool _, h | .null, .number _, h | .null, .string _, h | .null, .array _, h
  | .null, .object _, h => by simp [Value.beq] at h
  | .bool _, .null, h | .bool _, .number _, h | .bool _, .string _, h | .bool _, .array _, h
  | .bool _, .object _, h => by simp [Value.beq] at h
  | .number _, .null, h | .number _, .bool _, h | .number _, .string _, h
  | .number _, .array _, h | .number _, .object _, h => by simp [Value.beq] at h
  | .string _, .null, h | .string _, .bool _, h | .string _, .number _, h
  | .string _, .array _, h | .string _, .object _, h => by simp [Value.beq] at h
  | .array _, .null, h | .array _, .bool _, h | .array _, .number _, h | .array _, .string _, h
  | .array _, .object _, h => by simp [Value.beq] at h
  | .object _, .null, h | .object _, .bool _, h | .object _, .number _, h
  | .object _, .string _, h | .object _, .array _, h => by simp [Value.beq] at h
theorem Value.eq_of_beqList : ∀ a b : List Value, Value.beqList a b = true → a = b
  | [], [], _ => rfl
  | a :: as, b :: bs, h => by
    simp only [Value.beqList, Bool.and_eq_true] at h
    rw [Value.eq_of_beq a b h.1, Value.eq_of_beqList as bs h.2]
  | [], _ :: _, h => by simp [Value.beqList] at h
  | _ :: _, [], h => by simp [Value.beqList] at h
theorem Value.eq_of_beqFields :
    ∀ a b : List (Bytes × Value), Value.beqFields a b = true → a = b
  | [], [], _ => rfl
  | (k, a) :: as, (l, b) :: bs, h => by
    simp only [Value.beqFields, Bool.and_eq_true, beq_iff_eq] at h
    rw [h.1.1, Value.eq_of_beq a b h.1.2, Value.eq_of_beqFields as bs h.2]
  | [], _ :: _, h => by simp [Value.beqFields] at h
  | _ :: _, [], h => by simp [Value.beqFields] at h
end

mutual
theorem Value.beq_self : ∀ a : Value, Value.beq a a = true
  | .null => rfl
  | .bool a => by simp [Value.beq]
  | .number a => by simp [Value.beq]
  | .string a => by simp [Value.beq]
  | .array a => by simp only [Value.beq]; exact Value.beqList_self a
  | .object a => by simp only [Value.beq]; exact Value.beqFields_self a
theorem Value.beqList_self : ∀ a : List Value, Value.beqList a a = true
  | [] => rfl
  | a :: as => by simp only [Value.beqList, Value.beq_self a, Value.beqList_self as, Bool.and_self]
theorem Value.beqFields_self : ∀ a : List (Bytes × Value), Value.beqFields a a = true
  | [] => rfl
  | (k, a) :: as => by
    simp only [Value.beqFields, Value.beq_self a, Value.beqFields_self as, Bool.and_self,
      beq_self_eq_true]
end

instance : DecidableEq Value := fun a b =>
  if h : Value.beq a b = true then isTrue (Value.eq_of_beq a b h)
  else isFalse (fun e => h (e ▸ Value.beq_self a))

instance : DecidableEq (Except UnmarshalError Value) := fun x y =>
  match x, y with
  | .ok a, .ok b => if h : a = b then isTrue (by rw [h]) else isFalse (by simp [h])
  | .error a, .error b => if h : a = b then isTrue (by rw [h]) else isFalse (by simp [h])
  | .ok _, .error _ => isFalse (by simp)
  | .error _, .ok _ => isFalse (by simp)

/-! ## UTF-8 lemmas -/

theorem decodeRune_ascii (b : Nat) (t : Bytes) (hb : b < 0x80) : decodeRune (b :: t) = (b, 1) := by
  simp [decodeRune, hb]

theorem decodeRune_two (b b1 : Nat) (t : Bytes) (h1 : 0xC2 ≤ b) (h2 : b < 0xE0)
    (h3 : 0x80 ≤ b1) (h4 : b1 ≤ 0xBF) :
    decodeRune (b :: b1 :: t) = ((b % 32) * 64 + b1 % 64, 2) := by
  have a1 : ¬ b < 0x80 := by omega
  have a2 : ¬ b < 0xC2 := by omega
  simp [decodeRune, a1, a2, h2, isCont, h3, h4]

theorem decodeRune_three (b b1 b2 : Nat) (t : Bytes) (h1 : 0xE0 ≤ b) (h2 : b < 0xF0)
    (h3 : (if b = 0xE0 then 0xA0 else 0x80) ≤ b1) (h4 : b1 ≤ (if b = 0xED then 0x9F else 0xBF))
    (h5 : 0x80 ≤ b2) (h6 : b2 ≤ 0xBF) :
    decodeRune (b :: b1 :: b2 :: t) = ((b % 16) * 4096 + (b1 % 64) * 64 + b2 % 64, 3) := by
  have a1 : ¬ b < 0x80 := by omega
  have a2 : ¬ b < 0xC2 := by omega
  have a3 : ¬ b < 0xE0 := by omega
  have a4 : ¬ (b1 < (if b = 0xE0 then 0xA0 else 0x80)) := by omega
  have a5 : ¬ ((if b = 0xED then 0x9F else 0xBF) < b1) := by omega
  simp [decodeRune, a1, a2, a3, h2, isCont, a4, a5, h5, h6]

theorem decodeRune_four (b b1 b2 b3 : Nat) (t : Bytes) (h1 : 0xF0 ≤ b) (h2 : b < 0xF5)
    (h3 : (if b = 0xF0 then 0x90 else 0x80) ≤ b1) (h4 : b1 ≤ (if b = 0xF4 then 0x8F else 0xBF))
    (h5 : 0x80 ≤ b2) (h6 : b2 ≤ 0xBF) (h7 : 0x80 ≤ b3) (h8 : b3 ≤ 0xBF) :
    decodeRune (b :: b1 :: b2 :: b3 :: t) =
      ((b % 8) * 262144 + (b1 % 64) * 4096 + (b2 % 64) * 64 + b3 % 64, 4) := by
  have a1 : ¬ b < 0x80 := by omega
  have a2 : ¬ b < 0xC2 := by omega
  have a3 : ¬ b < 0xE0 := by omega
  have a3' : ¬ b < 0xF0 := by omega
  have a4 : ¬ (b1 < (if b = 0xF0 then 0x90 else 0x80)) := by omega
  have a5 : ¬ ((if b = 0xF4 then 0x8F else 0xBF) < b1) := by omega
  simp [decodeRune, a1, a2, a3, a3', h2, isCont, a4, a5, h5, h6, h7, h8]

/-- The shapes of a decoding whose leading byte is not ASCII. -/
theorem decodeRune_cases (b : Nat) (t : Bytes) (hb : 0x80 ≤ b) :
    decodeRune (b :: t) = (RuneError, 1) ∨
    (∃ b1 t1, t = b1 :: t1 ∧ 0xC2 ≤ b ∧ b < 0xE0 ∧ 0x80 ≤ b1 ∧ b1 ≤ 0xBF) ∨
    (∃ b1 b2 t1, t = b1 :: b2 :: t1 ∧ 0xE0 ≤ b ∧ b < 0xF0 ∧
      (if b = 0xE0 then 0xA0 else 0x80) ≤ b1 ∧ b1 ≤ (if b = 0xED then 0x9F else 0xBF) ∧
      0x80 ≤ b2 ∧ b2 ≤ 0xBF) ∨
    (∃ b1 b2 b3 t1, t = b1 :: b2 :: b3 :: t1 ∧ 0xF0 ≤ b ∧ b < 0xF5 ∧
      (if b = 0xF0 then 0x90 else 0x80) ≤ b1 ∧ b1 ≤ (if b = 0xF4 then 0x8F else 0xBF) ∧
      0x80 ≤ b2 ∧ b2 ≤ 0xBF ∧ 0x80 ≤ b3 ∧ b3 ≤ 0xBF) := by
  by_cases c1 : b < 0xC2
  · left; have a1 : ¬ b < 0x80 := by omega
    simp [decodeRune, a1, c1]
  by_cases c2 : b < 0xE0
  · rcases t with _ | ⟨b1, t1⟩
    · left; have a1 : ¬ b < 0x80 := by omega
      simp [decodeRune, a1, c1, c2]
    · by_cases c3 : 0x80 ≤ b1 ∧ b1 ≤ 0xBF
      · right; left; exact ⟨b1, t1, rfl, by omega, c2, c3.1, c3.2⟩
      · left; have a1 : ¬ b < 0x80 := by omega
        have : isCont b1 = false := by simp [isCont]; omega
        simp [decodeRune, a1, c1, c2, this]
  by_cases c3 : b < 0xF0
  · have a1 : ¬ b < 0x80 := by omega
    rcases t with _ | ⟨b1, _ | ⟨b2, t1⟩⟩
    · left; simp [decodeRune, a1, c1, c2, c3]
    · left; simp [decodeRune, a1, c1, c2, c3]
    · by_cases c4 : (if b = 0xE0 then 0xA0 else 0x80) ≤ b1 ∧ b1 ≤ (if b = 0xED then 0x9F else 0xBF)
      · by_cases c5 : 0x80 ≤ b2 ∧ b2 ≤ 0xBF
        · right; right; left
          exact ⟨b1, b2, t1, rfl, by omega, c3, c4.1, c4.2, c5.1, c5.2⟩
        · left
          have : isCont b2 = false := by simp [isCont]; omega
          simp [decodeRune, a1, c1, c2, c3, this]
      · left
        have : (b1 < (if b = 0xE0 then 0xA0 else 0x80) ∨ (if b = 0xED then 0x9F else 0xBF) < b1) := by
          omega
        simp [decodeRune, a1, c1, c2, c3, this]
  by_cases c4 : b < 0xF5
  · have a1 : ¬ b < 0x80 := by omega
    rcases t with _ | ⟨b1, _ | ⟨b2, _ | ⟨b3, t1⟩⟩⟩
    · left; simp [decodeRune, a1, c1, c2, c3, c4]
    · left; simp [decodeRune, a1, c1, c2, c3, c4]
    · left; simp [decodeRune, a1, c1, c2, c3, c4]
    · by_cases c5 : (if b = 0xF0 then 0x90 else 0x80) ≤ b1 ∧ b1 ≤ (if b = 0xF4 then 0x8F else 0xBF)
      · by_cases c6 : 0x80 ≤ b2 ∧ b2 ≤ 0xBF
        · by_cases c7 : 0x80 ≤ b3 ∧ b3 ≤ 0xBF
          · right; right; right
            exact ⟨b1, b2, b3, t1, rfl, by omega, c4, c5.1, c5.2, c6.1, c6.2, c7.1, c7.2⟩
          · left
            have : isCont b3 = false := by simp [isCont]; omega
            simp [decodeRune, a1, c1, c2, c3, c4, this]
        · left
          have : isCont b2 = false := by simp [isCont]; omega
          simp [decodeRune, a1, c1, c2, c3, c4, this]
      · left
        have : (b1 < (if b = 0xF0 then 0x90 else 0x80) ∨ (if b = 0xF4 then 0x8F else 0xBF) < b1) := by
          omega
        simp [decodeRune, a1, c1, c2, c3, c4, this]
  · left; have a1 : ¬ b < 0x80 := by omega
    simp [decodeRune, a1, c1, c2, c3, c4]

theorem encodeRune_two (b b1 : Nat) (h1 : 0xC2 ≤ b) (h2 : b < 0xE0)
    (h3 : 0x80 ≤ b1) (h4 : b1 ≤ 0xBF) :
    encodeRune ((b % 32) * 64 + b1 % 64) = [b, b1] := by
  have a1 : ¬ ((b % 32) * 64 + b1 % 64 ≤ 0x7F) := by omega
  have a2 : (b % 32) * 64 + b1 % 64 ≤ 0x7FF := by omega
  have a3 : 0xC0 + ((b % 32) * 64 + b1 % 64) / 64 = b := by omega
  have a4 : 0x80 + ((b % 32) * 64 + b1 % 64) % 64 = b1 := by omega
  simp only [encodeRune, a1, a2, if_true, if_false, a3, a4]

theorem encodeRune_three (b b1 b2 : Nat) (h1 : 0xE0 ≤ b) (h2 : b < 0xF0)
    (h3 : (if b = 0xE0 then 0xA0 else 0x80) ≤ b1) (h4 : b1 ≤ (if b = 0xED then 0x9F else 0xBF))
    (h5 : 0x80 ≤ b2) (h6 : b2 ≤ 0xBF) :
    encodeRune ((b % 16) * 4096 + (b1 % 64) * 64 + b2 % 64) = [b, b1, b2] := by
  have hb1 : 0x80 ≤ b1 ∧ b1 ≤ 0xBF := by split_ifs at h3 h4 <;> omega
  generalize hr : (b % 16) * 4096 + (b1 % 64) * 64 + b2 % 64 = r
  have a1 : ¬ (r ≤ 0x7F) := by split_ifs at h3 h4 <;> omega
  have a2 : ¬ (r ≤ 0x7FF) := by split_ifs at h3 h4 <;> omega
  have a3 : ¬ (0x10FFFF < r) := by omega
  have a4 : ¬ (0xD800 ≤ r ∧ r ≤ 0xDFFF) := by split_ifs at h3 h4 <;> omega
  have a5 : r ≤ 0xFFFF := by omega
  have a6 : 0xE0 + r / 4096 = b := by omega
  have a7 : 0x80 + r / 64 % 64 = b1 := by omega
  have a8 : 0x80 + r % 64 = b2 := by omega
  simp [encodeRune, a1, a2, a3, a4, a5, a6, a7, a8]

theorem encodeRune_four (b b1 b2 b3 : Nat) (h1 : 0xF0 ≤ b) (h2 : b < 0xF5)
    (h3 : (if b = 0xF0 then 0x90 else 0x80) ≤ b1) (h4 : b1 ≤ (if b = 0xF4 then 0x8F else 0xBF))
    (h5 : 0x80 ≤ b2) (h6 : b2 ≤ 0xBF) (h7 : 0x80 ≤ b3) (h8 : b3 ≤ 0xBF) :
    encodeRune ((b % 8) * 262144 + (b1 % 64) * 4096 + (b2 % 64) * 64 + b3 % 64) =
      [b, b1, b2, b3] := by
  have hb1 : 0x80 ≤ b1 ∧ b1 ≤ 0xBF := by split_ifs at h3 h4 <;> omega
  generalize hr : (b % 8) * 262144 + (b1 % 64) * 4096 + (b2 % 64) * 64 + b3 % 64 = r
  have a1 : ¬ (r ≤ 0x7F) := by split_ifs at h3 h4 <;> omega
  have a2 : ¬ (r ≤ 0x7FF) := by split_ifs at h3 h4 <;> omega
  have a3 : ¬ (0x10FFFF < r) := by split_ifs at h3 h4 <;> omega
  have a4 : ¬ (0xD800 ≤ r ∧ r ≤ 0xDFFF) := by split_ifs at h3 h4 <;> omega
  have a5 : ¬ (r ≤ 0xFFFF) := by split_ifs at h3 h4 <;> omega
  have a6 : 0xF0 + r / 262144 = b := by omega
  have a7 : 0x80 + r / 4096 % 64 = b1 := by omega
  have a8 : 0x80 + r / 64 % 64 = b2 := by omega
  have a9 : 0x80 + r % 64 = b3 := by omega
  simp [encodeRune, a1, a2, a3, a4, a5, a6, a7, a8, a9]

/-! ## String encoding and decoding -/

theorem appendStringLoop_zero (s : Bytes) (keep : Bool) :
    appendStringLoop s 0 keep = appendStringLoop s 0 true := by
  cases s <;> simp [appendStringLoop]

theorem appendStringLoop_keep (k : Nat) : ∀ t : Bytes,
    appendStringLoop t k true = t.take k ++ appendStringLoop (t.drop k) 0 true := by
  induction k with
  | zero => intro t; simp
  | succ k ih =>
    intro t
    cases t with
    | nil => simp [appendStringLoop]
    | cons b t => simp [appendStringLoop, ih t]

theorem appendStringLoop_drop (k : Nat) : ∀ t : Bytes,
    appendStringLoop t k false = appendStringLoop (t.drop k) 0 true := by
  induction k with
  | zero => intro t; simp [appendStringLoop_zero]
  | succ k ih =>
    intro t
    cases t with
    | nil => simp [appendStringLoop]
    | cons b t => simp [appendStringLoop, ih t]

theorem toValidUTF8_skip (k : Nat) : ∀ t : Bytes,
    toValidUTF8 t k = t.take k ++ toValidUTF8 (t.drop k) 0 := by
  induction k with
  | zero => intro t; simp
  | succ k ih =>
    intro t
    cases t with
    | nil => simp [toValidUTF8]
    | cons b t => simp [toValidUTF8, ih t]

theorem unquoteLoop_skip (k : Nat) : ∀ t : Bytes,
    unquoteLoop t k = unquoteLoop (t.drop k) 0 := by
  induction k with
  | zero => intro t; simp
  | succ k ih =>
    intro t
    cases t with
    | nil => simp [unquoteLoop]
    | cons b t => simp [unquoteLoop, ih t]

theorem unquoteLoop_plain (c : Nat) (t : Bytes) (h1 : c ≠ 0x5C) (h2 : c ≠ 0x22) (h3 : 0x20 ≤ c)
    (h4 : c < 0x80) : unquoteLoop (c :: t) 0 = (unquoteLoop t 0).map (c :: ·) := by
  have : ¬ c < 0x20 := by omega
  simp [unquoteLoop, h1, h2, this, h4]

theorem unquoteLoop_multi (c : Nat) (t : Bytes) (h : 0x80 ≤ c) :
    unquoteLoop (c :: t) 0 =
      (unquoteLoop t ((decodeRune (c :: t)).2 - 1)).map (encodeRune (decodeRune (c :: t)).1 ++ ·) := by
  have a1 : c ≠ 0x5C := by omega
  have a2 : c ≠ 0x22 := by omega
  have a3 : ¬ c < 0x20 := by omega
  have a4 : ¬ c < 0x80 := by omega
  simp [unquoteLoop, a1, a2, a3, a4]

theorem hexVal_hexDigit (n : Nat) (h : n < 16) : hexVal (hexDigit n) = some n := by
  unfold hexDigit hexVal
  split_ifs <;> first | omega | (simp <;> omega)

/-- Unquoting `\u` followed by four hex digits that do not spell a surrogate. -/
theorem unquoteLoop_u (a b c d x y z w : Nat) (t : Bytes)
    (ha : hexVal a = some x) (hb : hexVal b = some y) (hc : hexVal c = some z)
    (hd : hexVal d = some w) (hs : isSurrogate (((x * 16 + y) * 16 + z) * 16 + w) = false) :
    unquoteLoop (0x5C :: 0x75 :: a :: b :: c :: d :: t) 0 =
      (unquoteLoop t 0).map (encodeRune (((x * 16 + y) * 16 + z) * 16 + w) ++ ·) := by
  simp [unquoteLoop, getu4, ha, hb, hc, hd, hs]

theorem unquoteLoop_escapeByte (b : Nat) (t : Bytes) (h1 : b < 0x80) (h2 : htmlSafe b = false) :
    unquoteLoop (escapeByte b ++ t) 0 = (unquoteLoop t 0).map (b :: ·) := by
  unfold escapeByte
  split_ifs with c1 c2 c3 c4 c5 c6
  · rcases (by simpa using c1 : b = 0x5C ∨ b = 0x22) with h | h <;> subst h <;> simp [unquoteLoop]
  · subst c2; simp [unquoteLoop]
  · subst c3; simp [unquoteLoop]
  · subst c4; simp [unquoteLoop]
  · subst c5; simp [unquoteLoop]
  · subst c6; simp [unquoteLoop]
  · have e1 := hexVal_hexDigit (b / 16) (by omega)
    have e2 := hexVal_hexDigit (b % 16) (by omega)
    have e0 : hexVal 0x30 = some 0 := by decide
    have hs : isSurrogate (((0 * 16 + 0) * 16 + b / 16) * 16 + b % 16) = false := by
      simp [isSurrogate]; omega
    have := unquoteLoop_u 0x30 0x30 (hexDigit (b / 16)) (hexDigit (b % 16)) 0 0 (b / 16) (b % 16) t
      e0 e0 e1 e2 hs
    simp only [List.cons_append, List.nil_append]
    rw [this]
    have e3 : ((0 * 16 + 0) * 16 + b / 16) * 16 + b % 16 = b := by omega
    rw [e3]
    have : encodeRune b = [b] := by simp [encodeRune]; omega
    simp [this]

/-- Unquoting what `appendString` wrote between the quotes gives the string back, with each
byte that is not part of a valid UTF-8 encoding replaced by U+FFFD. -/
theorem unquote_appendStringLoop (n : Nat) : ∀ s : Bytes, s.length ≤ n →
    unquoteLoop (appendStringLoop s 0 true) 0 = some (toValidUTF8 s 0) := by
  induction n with
  | zero =>
    intro s hs
    have : s = [] := by cases s <;> simp_all
    subst this; simp [appendStringLoop, unquoteLoop, toValidUTF8]
  | succ n ih =>
    intro s hs
    cases s with
    | nil => simp [appendStringLoop, unquoteLoop, toValidUTF8]
    | cons b t =>
      have ht : t.length ≤ n := by simpa using hs
      by_cases hb : b < 0x80
      · have hv : toValidUTF8 (b :: t) 0 = b :: toValidUTF8 t 0 := by
          have : b ≠ RuneError := by simp [RuneError]; omega
          simp [toValidUTF8, decodeRune_ascii b t hb, this]
        rw [hv]
        by_cases hsafe : htmlSafe b = true
        · have e : appendStringLoop (b :: t) 0 true = b :: appendStringLoop t 0 true := by
            simp [appendStringLoop, hb, hsafe]
          rw [e]
          simp only [htmlSafe, Bool.and_eq_true, decide_eq_true_eq, bne_iff_ne, ne_eq] at hsafe
          rw [unquoteLoop_plain b _ (by tauto) (by tauto) (by tauto) hb, ih t ht]; rfl
        · have hsafe' : htmlSafe b = false := by simpa using hsafe
          have e : appendStringLoop (b :: t) 0 true = escapeByte b ++ appendStringLoop t 0 true := by
            simp [appendStringLoop, hb, hsafe']
          rw [e, unquoteLoop_escapeByte b _ hb hsafe', ih t ht]; rfl
      · have hb' : 0x80 ≤ b := by omega
        rcases decodeRune_cases b t hb' with h | ⟨b1, t1, rfl, h1, h2, h3, h4⟩ |
            ⟨b1, b2, t1, rfl, h1, h2, h3, h4, h5, h6⟩ |
            ⟨b1, b2, b3, t1, rfl, h1, h2, h3, h4, h5, h6, h7, h8⟩
        · have e : appendStringLoop (b :: t) 0 true =
              0xEF :: 0xBF :: 0xBD :: appendStringLoop t 0 true := by
            simp [appendStringLoop, hb, h]
          have hv : toValidUTF8 (b :: t) 0 = [0xEF, 0xBF, 0xBD] ++ toValidUTF8 t 0 := by
            simp [toValidUTF8, h]
          have hd' := decodeRune_three 0xEF 0xBF 0xBD (appendStringLoop t 0 true)
            (by decide) (by decide) (by decide) (by decide) (by decide) (by decide)
          have hen : encodeRune (0xEF % 16 * 4096 + 0xBF % 64 * 64 + 0xBD % 64) =
              [0xEF, 0xBF, 0xBD] := by decide
          rw [e, hv, unquoteLoop_multi 0xEF _ (by decide), hd', hen]
          simp only [Nat.add_one_sub_one, unquoteLoop]
          rw [ih t ht]; rfl
        · have hd := decodeRune_two b b1 t1 h1 h2 h3 h4
          have hne : ¬ ((b % 32) * 64 + b1 % 64 = RuneError ∧ 2 = 1) := by simp
          have hls : ¬ ((b % 32) * 64 + b1 % 64 = 0x2028 ∨ (b % 32) * 64 + b1 % 64 = 0x2029) := by
            omega
          have e : appendStringLoop (b :: b1 :: t1) 0 true = b :: b1 :: appendStringLoop t1 0 true := by
            simp only [appendStringLoop, hb, if_false, hd, hls]
            simp [appendStringLoop]
          have hv : toValidUTF8 (b :: b1 :: t1) 0 = b :: b1 :: toValidUTF8 t1 0 := by
            simp only [toValidUTF8, hd]
            simp [toValidUTF8]
          have hd' := decodeRune_two b b1 (appendStringLoop t1 0 true) h1 h2 h3 h4
          rw [e, hv, unquoteLoop_multi b _ hb', hd', encodeRune_two b b1 h1 h2 h3 h4]
          simp only [Nat.add_one_sub_one, unquoteLoop]
          rw [ih t1 (by simp at ht; omega)]; rfl
        · have hd := decodeRune_three b b1 b2 t1 h1 h2 h3 h4 h5 h6
          have hv : toValidUTF8 (b :: b1 :: b2 :: t1) 0 = b :: b1 :: b2 :: toValidUTF8 t1 0 := by
            simp only [toValidUTF8, hd]
            simp [toValidUTF8]
          have hen := encodeRune_three b b1 b2 h1 h2 h3 h4 h5 h6
          have ih1 := ih t1 (by simp at ht; omega)
          rw [hv]
          by_cases hls : ((b % 16) * 4096 + (b1 % 64) * 64 + b2 % 64 = 0x2028 ∨
              (b % 16) * 4096 + (b1 % 64) * 64 + b2 % 64 = 0x2029)
          · have e : appendStringLoop (b :: b1 :: b2 :: t1) 0 true =
                [0x5C, 0x75, 0x32, 0x30, 0x32,
                  hexDigit (((b % 16) * 4096 + (b1 % 64) * 64 + b2 % 64) % 16)] ++
                  appendStringLoop t1 0 true := by
              simp only [appendStringLoop, hb, if_false, hd, hls]
              simp [appendStringLoop, appendStringLoop_zero t1 false]
            rw [e]
            have e2 := hexVal_hexDigit (((b % 16) * 4096 + (b1 % 64) * 64 + b2 % 64) % 16)
              (by omega)
            have hs : isSurrogate (((2 * 16 + 0) * 16 + 2) * 16 +
                ((b % 16) * 4096 + (b1 % 64) * 64 + b2 % 64) % 16) = false := by
              simp [isSurrogate]; omega
            have := unquoteLoop_u 0x32 0x30 0x32
              (hexDigit (((b % 16) * 4096 + (b1 % 64) * 64 + b2 % 64) % 16)) 2 0 2
              (((b % 16) * 4096 + (b1 % 64) * 64 + b2 % 64) % 16) (appendStringLoop t1 0 true)
              (by decide) (by decide) (by decide) e2 hs
            simp only [List.cons_append, List.nil_append] at this ⊢
            rw [this, ih1]
            have e3 : ((2 * 16 + 0) * 16 + 2) * 16 +
                ((b % 16) * 4096 + (b1 % 64) * 64 + b2 % 64) % 16 =
                (b % 16) * 4096 + (b1 % 64) * 64 + b2 % 64 := by omega
            rw [e3, hen]; rfl
          · have e : appendStringLoop (b :: b1 :: b2 :: t1) 0 true =
                b :: b1 :: b2 :: appendStringLoop t1 0 true := by
              simp only [appendStringLoop, hb, if_false, hd, hls]
              simp [appendStringLoop]
            have hd' := decodeRune_three b b1 b2 (appendStringLoop t1 0 true) h1 h2 h3 h4 h5 h6
            rw [e, unquoteLoop_multi b _ hb', hd', hen]
            simp only [Nat.add_one_sub_one, unquoteLoop]
            rw [ih1]; rfl
        · have hd := decodeRune_four b b1 b2 b3 t1 h1 h2 h3 h4 h5 h6 h7 h8
          have hv : toValidUTF8 (b :: b1 :: b2 :: b3 :: t1) 0 =
              b :: b1 :: b2 :: b3 :: toValidUTF8 t1 0 := by
            simp only [toValidUTF8, hd]
            simp [toValidUTF8]
          have hen := encodeRune_four b b1 b2 b3 h1 h2 h3 h4 h5 h6 h7 h8
          have ih1 := ih t1 (by simp at ht; omega)
          have hb1 : 0x80 ≤ b1 ∧ b1 ≤ 0xBF := by split_ifs at h3 h4 <;> omega
          have hls : ¬ ((b % 8) * 262144 + (b1 % 64) * 4096 + (b2 % 64) * 64 + b3 % 64 = 0x2028 ∨
              (b % 8) * 262144 + (b1 % 64) * 4096 + (b2 % 64) * 64 + b3 % 64 = 0x2029) := by
            split_ifs at h3 h4 <;> omega
          have hre : ¬ ((b % 8) * 262144 + (b1 % 64) * 4096 + (b2 % 64) * 64 + b3 % 64 =
              RuneError ∧ 4 = 1) := by simp
          have e : appendStringLoop (b :: b1 :: b2 :: b3 :: t1) 0 true =
              b :: b1 :: b2 :: b3 :: appendStringLoop t1 0 true := by
            simp only [appendStringLoop, hb, if_false, hd, hls, hre]
            simp [appendStringLoop]
          have hd' := decodeRune_four b b1 b2 b3 (appendStringLoop t1 0 true)
            h1 h2 h3 h4 h5 h6 h7 h8
          rw [e, hv, unquoteLoop_multi b _ hb', hd', hen]
          simp only [Nat.add_one_sub_one, unquoteLoop]
          rw [ih1]; rfl

/-! ## Valid UTF-8 -/

theorem validLoop_skip (k : Nat) : ∀ t : Bytes, validLoop t k = validLoop (t.drop k) 0 := by
  induction k with
  | zero => intro t; simp
  | succ k ih =>
    intro t
    cases t with
    | nil => simp [validLoop]
    | cons b t => simp [validLoop, ih t]

/-- On valid UTF-8 the coercion changes nothing. -/
theorem toValidUTF8_of_valid (n : Nat) : ∀ s : Bytes, s.length ≤ n → validLoop s 0 = true →
    toValidUTF8 s 0 = s := by
  induction n with
  | zero =>
    intro s hs _
    have : s = [] := by cases s <;> simp_all
    subst this; simp [toValidUTF8]
  | succ n ih =>
    intro s hs hv
    cases s with
    | nil => simp [toValidUTF8]
    | cons b t =>
      simp only [validLoop] at hv
      simp only [toValidUTF8]
      split_ifs at hv ⊢ with h
      rw [validLoop_skip] at hv
      rw [toValidUTF8_skip, ih _ (by simp at hs ⊢; omega) hv, List.take_append_drop]

theorem toValidUTF8_eq_self (s : Bytes) (h : utf8Valid s = true) : toValidUTF8 s 0 = s :=
  toValidUTF8_of_valid s.length s (le_refl _) h

theorem validLoop_rune (c o : Bytes) (h : RuneBytes c) : validLoop (c ++ o) 0 = validLoop o 0 := by
  rcases h with ⟨x, rfl, hx⟩ | ⟨b, b1, rfl, h1, h2, h3, h4⟩ | ⟨b, b1, b2, rfl, h1, h2, h3, h4, h5, h6⟩ |
    ⟨b, b1, b2, b3, rfl, h1, h2, h3, h4, h5, h6, h7, h8⟩
  · have : x ≠ RuneError := by simp [RuneError]; omega
    simp [validLoop, decodeRune_ascii x o hx, this]
  · simp [validLoop, decodeRune_two b b1 o h1 h2 h3 h4]
  · simp [validLoop, decodeRune_three b b1 b2 o h1 h2 h3 h4 h5 h6]
  · simp [validLoop, decodeRune_four b b1 b2 b3 o h1 h2 h3 h4 h5 h6 h7 h8]

theorem encodeRune_runeBytes (r : Nat) : RuneBytes (encodeRune r) := by
  unfold encodeRune
  split_ifs with c1 c2 c3 c4
  · left; exact ⟨r, rfl, by omega⟩
  · right; left; exact ⟨_, _, rfl, by omega, by omega, by omega, by omega⟩
  · right; right; left; exact ⟨0xEF, 0xBF, 0xBD, rfl, by decide, by decide, by decide, by decide,
      by decide, by decide⟩
  · right; right; left
    simp only [Bool.or_eq_true, decide_eq_true_eq, Bool.and_eq_true, not_or, not_and] at c3
    refine ⟨_, _, _, rfl, by omega, by omega, ?_, ?_, by omega, by omega⟩
    · split_ifs <;> omega
    · split_ifs <;> omega
  · right; right; right
    simp only [Bool.or_eq_true, decide_eq_true_eq, Bool.and_eq_true, not_or, not_and] at c3
    refine ⟨_, _, _, _, rfl, by omega, by omega, ?_, ?_, by omega, by omega, by omega, by omega⟩
    · split_ifs <;> omega
    · split_ifs <;> omega

theorem map_append_eq_some {p out : Bytes} {x : Option Bytes}
    (h : x.map (p ++ ·) = some out) : ∃ o, x = some o ∧ out = p ++ o := by
  cases x with
  | none => simp at h
  | some o => exact ⟨o, rfl, by simpa using h.symm⟩

theorem map_cons_eq_some {p : Nat} {out : Bytes} {x : Option Bytes}
    (h : x.map (p :: ·) = some out) : ∃ o, x = some o ∧ out = [p] ++ o := by
  cases x with
  | none => simp at h
  | some o => exact ⟨o, rfl, by simpa using h.symm⟩

/-- One step of `unquoteLoop`: the bytes of one rune are emitted and the loop goes on. -/
theorem unquoteLoop_step (c : Nat) (t out : Bytes) (h : unquoteLoop (c :: t) 0 = some out) :
    ∃ p k o, RuneBytes p ∧ unquoteLoop t k = some o ∧ out = p ++ o := by
  have one : ∀ x : Nat, x < 0x80 → RuneBytes [x] := fun x hx => Or.inl ⟨x, rfl, hx⟩
  by_cases c1 : c = 0x5C
  · subst c1
    cases t with
    | nil => simp [unquoteLoop] at h
    | cons e t1 =>
      by_cases e1 : e = 0x22 ∨ e = 0x5C ∨ e = 0x2F ∨ e = 0x27
      · have h' : (unquoteLoop (e :: t1) 1).map (e :: ·) = some out := by
          simpa [unquoteLoop, e1] using h
        obtain ⟨o, ho, rfl⟩ := map_cons_eq_some h'
        exact ⟨[e], 1, o, one e (by omega), ho, rfl⟩
      by_cases e2 : e = 0x62
      · subst e2
        have h' : (unquoteLoop (0x62 :: t1) 1).map (0x08 :: ·) = some out := by
          simpa [unquoteLoop] using h
        obtain ⟨o, ho, rfl⟩ := map_cons_eq_some h'
        exact ⟨[0x08], 1, o, one _ (by omega), ho, rfl⟩
      by_cases e3 : e = 0x66
      · subst e3
        have h' : (unquoteLoop (0x66 :: t1) 1).map (0x0C :: ·) = some out := by
          simpa [unquoteLoop] using h
        obtain ⟨o, ho, rfl⟩ := map_cons_eq_some h'
        exact ⟨[0x0C], 1, o, one _ (by omega), ho, rfl⟩
      by_cases e4 : e = 0x6E
      · subst e4
        have h' : (unquoteLoop (0x6E :: t1) 1).map (0x0A :: ·) = some out := by
          simpa [unquoteLoop] using h
        obtain ⟨o, ho, rfl⟩ := map_cons_eq_some h'
        exact ⟨[0x0A], 1, o, one _ (by omega), ho, rfl⟩
      by_cases e5 : e = 0x72
      · subst e5
        have h' : (unquoteLoop (0x72 :: t1) 1).map (0x0D :: ·) = some out := by
          simpa [unquoteLoop] using h
        obtain ⟨o, ho, rfl⟩ := map_cons_eq_some h'
        exact ⟨[0x0D], 1, o, one _ (by omega), ho, rfl⟩
      by_cases e6 : e = 0x74
      · subst e6
        have h' : (unquoteLoop (0x74 :: t1) 1).map (0x09 :: ·) = some out := by
          simpa [unquoteLoop] using h
        obtain ⟨o, ho, rfl⟩ := map_cons_eq_some h'
        exact ⟨[0x09], 1, o, one _ (by omega), ho, rfl⟩
      by_cases e7 : e = 0x75
      · subst e7
        cases hg : getu4 (0x5C :: 0x75 :: t1) with
        | none => simp [unquoteLoop, hg] at h
        | some rr =>
          by_cases s1 : isSurrogate rr = true
          · by_cases s2 : utf16DecodeRune rr (getu4 (List.drop 4 t1)) = RuneError
            · have h' : (unquoteLoop t1 4).map (encodeRune RuneError ++ ·) = some out := by
                simpa [unquoteLoop, hg, s1, s2] using h
              obtain ⟨o, ho, rfl⟩ := map_append_eq_some h'
              exact ⟨_, 5, o, encodeRune_runeBytes _, by simpa [unquoteLoop] using ho, rfl⟩
            · have h' : (unquoteLoop t1 10).map
                  (encodeRune (utf16DecodeRune rr (getu4 (List.drop 4 t1))) ++ ·)
                  = some out := by
                simpa [unquoteLoop, hg, s1, s2] using h
              obtain ⟨o, ho, rfl⟩ := map_append_eq_some h'
              exact ⟨_, 11, o, encodeRune_runeBytes _, by simpa [unquoteLoop] using ho, rfl⟩
          · have h' : (unquoteLoop t1 4).map (encodeRune rr ++ ·) = some out := by
              simpa [unquoteLoop, hg, s1] using h
            obtain ⟨o, ho, rfl⟩ := map_append_eq_some h'
            exact ⟨_, 5, o, encodeRune_runeBytes _, by simpa [unquoteLoop] using ho, rfl⟩
      · exfalso
        simp only [not_or] at e1
        simp [unquoteLoop, e1, e2, e3, e4, e5, e6, e7] at h
  by_cases c2 : c = 0x22 ∨ c < 0x20
  · simp [unquoteLoop, c1, c2] at h
  by_cases c3 : c < 0x80
  · simp only [not_or] at c2
    rw [unquoteLoop_plain c t c1 c2.1 (by omega) c3] at h
    obtain ⟨o, ho, rfl⟩ := map_cons_eq_some h
    exact ⟨[c], 0, o, one c c3, ho, rfl⟩
  · rw [unquoteLoop_multi c t (by omega)] at h
    obtain ⟨o, ho, rfl⟩ := map_append_eq_some h
    exact ⟨_, _, o, encodeRune_runeBytes _, ho, rfl⟩

/-- Whatever `unquote` returns is valid UTF-8. -/
theorem unquoteLoop_valid (n : Nat) : ∀ raw : Bytes, raw.length ≤ n → ∀ out,
    unquoteLoop raw 0 = some out → validLoop out 0 = true := by
  induction n with
  | zero =>
    intro raw hs out h
    have : raw = [] := by cases raw <;> simp_all
    subst this; simp [unquoteLoop] at h; subst h; rfl
  | succ n ih =>
    intro raw hs out h
    cases raw with
    | nil => simp [unquoteLoop] at h; subst h; rfl
    | cons c t =>
      have ht : t.length ≤ n := by simpa using hs
      obtain ⟨p, k, o, hp, ho, rfl⟩ := unquoteLoop_step c t out h
      rw [unquoteLoop_skip] at ho
      rw [validLoop_rune p o hp]
      exact ih _ (by simp; omega) o ho

theorem unquote_valid (raw out : Bytes) (h : unquote raw = some out) : utf8Valid out = true :=
  unquoteLoop_valid raw.length raw (le_refl _) out h

/-! ## The text `appendString` writes between the quotes -/

theorem isHex_hexDigit (n : Nat) (h : n < 16) : isHex (hexDigit n) = true := by
  unfold hexDigit isHex
  split_ifs <;> simp <;> omega

theorem encoded_escapeByte (b : Nat) (e : Bytes) (hb : b < 0x80) (he : Encoded e) :
    Encoded (escapeByte b ++ e) := by
  unfold escapeByte
  split_ifs with c1 c2 c3 c4 c5 c6
  · rcases (by simpa using c1 : b = 0x5C ∨ b = 0x22) with h | h <;> subst h <;>
      exact Encoded.esc _ _ (by simp) he
  · exact Encoded.esc _ _ (by simp) he
  · exact Encoded.esc _ _ (by simp) he
  · exact Encoded.esc _ _ (by simp) he
  · exact Encoded.esc _ _ (by simp) he
  · exact Encoded.esc _ _ (by simp) he
  · exact Encoded.escU _ _ _ _ _ (by decide) (by decide) (isHex_hexDigit _ (by omega))
      (isHex_hexDigit _ (by omega)) he

theorem encoded_appendStringLoop : ∀ (s : Bytes) (k : Nat) (keep : Bool),
    (keep = true → ∀ x ∈ s.take k, 0x80 ≤ x) → Encoded (appendStringLoop s k keep) := by
  intro s
  induction s with
  | nil => intro k keep _; simp [appendStringLoop]; exact Encoded.nil
  | cons b t ih =>
    intro k keep hk
    cases k with
    | succ k =>
      simp only [appendStringLoop]
      cases keep with
      | false => simpa using ih k false (by simp)
      | true =>
        have hb : 0x80 ≤ b := hk rfl b (by simp)
        have := ih k true (fun _ x hx => hk rfl x (by simp [hx]))
        simpa using Encoded.plain b _ (by omega) (by omega) (by omega) this
    | zero =>
      simp only [appendStringLoop]
      by_cases hb : b < 0x80
      · simp only [hb, if_true]
        have iht := ih 0 true (by simp)
        by_cases hsafe : htmlSafe b = true
        · simp only [hsafe, if_true]
          simp only [htmlSafe, Bool.and_eq_true, decide_eq_true_eq, bne_iff_ne, ne_eq] at hsafe
          exact Encoded.plain b _ (by tauto) (by tauto) (by tauto) iht
        · simp only [hsafe]
          exact encoded_escapeByte b _ hb iht
      · simp only [hb, if_false]
        have hb' : 0x80 ≤ b := by omega
        split_ifs with h1 h2
        · exact Encoded.plain _ _ (by decide) (by decide) (by decide)
            (Encoded.plain _ _ (by decide) (by decide) (by decide)
              (Encoded.plain _ _ (by decide) (by decide) (by decide) (ih 0 true (by simp))))
        · exact Encoded.escU _ _ _ _ _ (by decide) (by decide) (by decide)
            (isHex_hexDigit _ (by omega)) (ih _ false (by simp))
        · refine Encoded.plain b _ (by omega) (by omega) (by omega) (ih _ true ?_)
          intro _ x hx
          rcases decodeRune_cases b t hb' with h | ⟨b1, t1, rfl, a1, a2, a3, a4⟩ |
            ⟨b1, b2, t1, rfl, a1, a2, a3, a4, a5, a6⟩ |
            ⟨b1, b2, b3, t1, rfl, a1, a2, a3, a4, a5, a6, a7, a8⟩
          · rw [h] at h1; simp at h1
          · rw [decodeRune_two b b1 t1 a1 a2 a3 a4] at hx
            simp at hx; omega
          · rw [decodeRune_three b b1 b2 t1 a1 a2 a3 a4 a5 a6] at hx
            simp at hx
            rcases hx with rfl | rfl
            · split_ifs at a3 <;> omega
            · omega
          · rw [decodeRune_four b b1 b2 b3 t1 a1 a2 a3 a4 a5 a6 a7 a8] at hx
            simp at hx
            rcases hx with rfl | rfl | rfl
            · split_ifs at a3 <;> omega
            · omega
            · omega

theorem encoded_no_newline (e : Bytes) (h : Encoded e) : ∀ x ∈ e, x ≠ 0x0A := by
  induction h with
  | nil => simp
  | plain c e h1 h2 h3 _ ih =>
    intro x hx; simp at hx; rcases hx with rfl | hx
    · omega
    · exact ih x hx
  | esc y e hy _ ih =>
    intro x hx; simp at hx; rcases hx with rfl | rfl | hx
    · omega
    · omega
    · exact ih x hx
  | escU a b c d e ha hb hc hd _ ih =>
    intro x hx
    simp only [isHex, Bool.or_eq_true, Bool.and_eq_true, decide_eq_true_eq] at ha hb hc hd
    simp at hx; rcases hx with rfl | rfl | rfl | rfl | rfl | rfl | hx <;>
      first | omega | exact ih x hx

/-! ## Running the scanner -/

theorem run_append (limit : Option Nat) : ∀ (a b : Bytes) (d : Decoder),
    run limit d (a ++ b) = (run limit d a).bind (run limit · b) := by
  intro a
  induction a with
  | nil => intro b d; simp [run]
  | cons c a ih =>
    intro b d
    simp only [List.cons_append, run]
    cases step limit d c with
    | none => simp
    | some d1 => simp [ih b d1]

theorem run_cons (limit : Option Nat) (c : Nat) (t : Bytes) (d : Decoder) :
    run limit d (c :: t) = (step limit d c).bind (run limit · t) := rfl

theorem run_nil (limit : Option Nat) (d : Decoder) : run limit d [] = some d := rfl

/-- Inside a string literal the scanner passes over encoded text, collecting it. -/
theorem run_inString (limit : Option Nat) (e : Bytes) (h : Encoded e) :
    ∀ (raw rest : Bytes) (st : List Frame) (res : Option Value) (sv : Bool),
      run limit ⟨.inString raw, st, res, sv⟩ (e ++ rest) =
        run limit ⟨.inString (raw ++ e), st, res, sv⟩ rest := by
  induction h with
  | nil => intro raw rest st res sv; simp
  | plain c e h1 h2 h3 _ ih =>
    intro raw rest st res sv
    have a3 : ¬ c < 0x20 := by omega
    simp only [List.cons_append, run_cons, step, h2, h3, a3, if_false, Option.some_bind]
    rw [ih]; simp
  | esc x e hx _ ih =>
    intro raw rest st res sv
    simp only [List.cons_append, run_cons, step, if_true, if_false, Option.some_bind,
      show (0x5C : Nat) ≠ 0x22 by decide, hx]
    rw [ih]; simp
  | escU a b c d e ha hb hc hd _ ih =>
    intro raw rest st res sv
    simp [run_cons, step, ha, hb, hc, hd, ih]

/-- The scanner over a string literal written by `appendString`, from its opening quote to
its closing quote. -/
theorem run_string_body (limit : Option Nat) (s rest : Bytes)
    (st : List Frame) (res : Option Value) (sv : Bool) :
    run limit ⟨.inString [], st, res, sv⟩ (appendStringLoop s 0 true ++ 0x22 :: rest) =
      (endString (appendStringLoop s 0 true) ⟨.inString (appendStringLoop s 0 true), st, res, sv⟩).bind
        (run limit · rest) := by
  rw [run_inString limit _ (encoded_appendStringLoop s 0 true (by simp))]
  simp [run_cons, step]

theorem unquote_appendString (s : Bytes) :
    unquote (appendStringLoop s 0 true) = some (toValidUTF8 s 0) :=
  unquote_appendStringLoop s.length s (le_refl _)

/-! ## Order of keys -/

theorem bytesLt_irrefl : ∀ a : Bytes, bytesLt a a = false
  | [] => rfl
  | x :: a => by simp [bytesLt, bytesLt_irrefl a]

theorem bytesLt_trichotomy : ∀ a b : Bytes, bytesLt a b = true ∨ a = b ∨ bytesLt b a = true
  | [], [] => by simp
  | [], _ :: _ => by simp [bytesLt]
  | _ :: _, [] => by simp [bytesLt]
  | x :: a, y :: b => by
    rcases Nat.lt_trichotomy x y with h | h | h
    · left; simp [bytesLt, h]
    · subst h
      rcases bytesLt_trichotomy a b with h | h | h
      · left; simp [bytesLt, h]
      · right; left; rw [h]
      · right; right; simp [bytesLt, h]
    · right; right; simp [bytesLt, h]

theorem bytesLt_trans : ∀ a b c : Bytes, bytesLt a b = true → bytesLt b c = true →
    bytesLt a c = true
  | [], [], _, h, _ => by simp [bytesLt] at h
  | [], _ :: _, [], _, h => by simp [bytesLt] at h
  | [], _ :: _, _ :: _, _, _ => by simp [bytesLt]
  | _ :: _, [], _, h, _ => by simp [bytesLt] at h
  | _ :: _, _ :: _, [], _, h => by simp [bytesLt] at h
  | x :: a, y :: b, z :: c, h1, h2 => by
    simp only [bytesLt, Bool.or_eq_true, decide_eq_true_eq, Bool.and_eq_true, beq_iff_eq] at h1 h2 ⊢
    rcases h1 with h1 | ⟨rfl, h1⟩
    · rcases h2 with h2 | ⟨rfl, _⟩
      · left; omega
      · left; exact h1
    · rcases h2 with h2 | ⟨rfl, h2⟩
      · left; exact h2
      · right; exact ⟨rfl, bytesLt_trans a b c h1 h2⟩

theorem bytesLt_asymm (a b : Bytes) (h : bytesLt a b = true) : bytesLt b a = false := by
  by_contra h2
  have h2' : bytesLt b a = true := by simpa using h2
  have := bytesLt_trans a b a h h2'
  rw [bytesLt_irrefl] at this
  exact absurd this (by decide)

theorem keysSorted_cons2 (a b : Bytes × Value) (m : List (Bytes × Value)) :
    keysSorted (a :: b :: m) = (bytesLt a.1 b.1 && keysSorted (b :: m)) := by
  simp [keysSorted]

theorem keysSorted_tail (a : Bytes × Value) (m : List (Bytes × Value))
    (h : keysSorted (a :: m) = true) : keysSorted m = true := by
  simp only [keysSorted, Bool.and_eq_true] at h
  exact h.2

theorem keysSorted_cons_iff (a : Bytes × Value) (m : List (Bytes × Value)) :
    keysSorted (a :: m) = true ↔ (allAbove a.1 m ∧ keysSorted m = true) := by
  induction m generalizing a with
  | nil => simp [keysSorted, allAbove]
  | cons b m ih =>
    rw [keysSorted_cons2, Bool.and_eq_true]
    constructor
    · rintro ⟨h1, h2⟩
      refine ⟨?_, h2⟩
      intro e he
      rcases List.mem_cons.mp he with rfl | he
      · exact h1
      · exact bytesLt_trans _ _ _ h1 (((ih b).mp h2).1 e he)
    · rintro ⟨h1, h2⟩
      exact ⟨h1 b (by simp), h2⟩

theorem mem_mapInsert (k : Bytes) (v : Value) : ∀ (m : List (Bytes × Value)) (e : Bytes × Value),
    e ∈ mapInsert k v m → e = (k, v) ∨ e ∈ m := by
  intro m
  induction m with
  | nil => intro e he; simp [mapInsert] at he; exact Or.inl he
  | cons a m ih =>
    intro e he
    simp only [mapInsert] at he
    split_ifs at he with h1 h2
    · rcases List.mem_cons.mp he with rfl | he
      · exact Or.inl rfl
      · exact Or.inr he
    · rcases List.mem_cons.mp he with rfl | he
      · exact Or.inl rfl
      · exact Or.inr (List.mem_cons_of_mem _ he)
    · rcases List.mem_cons.mp he with rfl | he
      · exact Or.inr (by simp)
      · rcases ih e he with h | h
        · exact Or.inl h
        · exact Or.inr (List.mem_cons_of_mem _ h)

theorem keysSorted_mapInsert (k : Bytes) (v : Value) : ∀ m : List (Bytes × Value),
    keysSorted m = true → keysSorted (mapInsert k v m) = true := by
  intro m
  induction m with
  | nil => intro _; simp [mapInsert, keysSorted]
  | cons a m ih =>
    intro h
    have hm := (keysSorted_cons_iff a m).mp h
    simp only [mapInsert]
    split_ifs with h1 h2
    · rw [keysSorted_cons_iff]
      refine ⟨?_, h⟩
      intro e he
      rcases List.mem_cons.mp he with rfl | he
      · exact h1
      · exact bytesLt_trans _ _ _ h1 (hm.1 e he)
    · rw [keysSorted_cons_iff]
      refine ⟨?_, hm.2⟩
      intro e he
      have := hm.1 e he
      rw [h2]; exact this
    · rw [keysSorted_cons_iff]
      refine ⟨?_, ih hm.2⟩
      intro e he
      rcases mem_mapInsert k v m e he with rfl | he
      · rcases bytesLt_trichotomy k a.1 with h | h | h
        · exact absurd h h1
        · exact absurd h h2
        · exact h
      · exact hm.1 e he

/-- Storing under a key above all present keys appends the entry. -/
theorem mapInsert_above (k : Bytes) (v : Value) : ∀ m : List (Bytes × Value),
    (∀ e ∈ m, bytesLt e.1 k = true) → mapInsert k v m = m ++ [(k, v)] := by
  intro m
  induction m with
  | nil => intro _; rfl
  | cons a m ih =>
    intro h
    have ha := h a (by simp)
    have h1 : bytesLt k a.1 = false := bytesLt_asymm _ _ ha
    have h2 : k ≠ a.1 := by
      intro e; rw [e, bytesLt_irrefl] at ha; exact absurd ha (by decide)
    simp only [mapInsert, h1, h2, if_false, List.cons_append, Bool.false_eq_true]
    rw [ih (fun e he => h e (List.mem_cons_of_mem _ he))]

/-! ## Shape and depth of lists -/

theorem decodedList_append : ∀ xs ys : List Value,
    Value.decodedList (xs ++ ys) = (Value.decodedList xs && Value.decodedList ys)
  | [], ys => by simp [Value.decodedList]
  | x :: xs, ys => by simp [Value.decodedList, decodedList_append xs ys, Bool.and_assoc]

theorem depthList_append : ∀ xs ys : List Value,
    Value.depthList (xs ++ ys) = max (Value.depthList xs) (Value.depthList ys)
  | [], ys => by simp [Value.depthList]
  | x :: xs, ys => by simp [Value.depthList, depthList_append xs ys, max_assoc]

theorem decodedFields_mapInsert (k : Bytes) (v : Value) (hk : utf8Valid k = true)
    (hv : v.decoded = true) : ∀ m : List (Bytes × Value),
    Value.decodedFields m = true → Value.decodedFields (mapInsert k v m) = true := by
  intro m
  induction m with
  | nil => intro _; simp [mapInsert, Value.decodedFields, hk, hv]
  | cons a m ih =>
    intro h
    obtain ⟨ak, av⟩ := a
    simp only [Value.decodedFields, Bool.and_eq_true] at h
    simp only [mapInsert]
    split_ifs with h1 h2
    · simp [Value.decodedFields, hk, hv, h.1.1, h.1.2, h.2]
    · simp [Value.decodedFields, hk, hv, h.2]
    · simp [Value.decodedFields, h.1.1, h.1.2, ih h.2]

theorem depthFields_mapInsert (k : Bytes) (v : Value) : ∀ m : List (Bytes × Value),
    Value.depthFields (mapInsert k v m) ≤ max (Value.depthFields m) (Value.depth v) := by
  intro m
  induction m with
  | nil => simp [mapInsert, Value.depthFields]
  | cons a m ih =>
    obtain ⟨ak, av⟩ := a
    simp only [mapInsert]
    split_ifs with h1 h2
    · simp only [Value.depthFields]; omega
    · simp only [Value.depthFields]; omega
    · simp only [Value.depthFields]; omega

/-! ## What the decoder holds at every step -/

theorem fits_mono (limit : Option Nat) (a b : Nat) (h : a ≤ b) (hb : fits limit b) :
    fits limit a := by
  cases limit with
  | none => trivial
  | some l => simp only [fits] at hb ⊢; omega

theorem complete_inv (limit : Option Nat) (v : Value) (d d1 : Decoder)
    (hs : stackOK limit d.stack) (hr : ∀ w, d.result = some w → w.decoded = true ∧ fits limit w.depth)
    (hv : v.decoded = true) (hd : fits limit (v.depth + d.stack.length))
    (h : complete v d = some d1) : Inv limit d1 := by
  unfold complete at h
  split at h
  · rename_i e
    injection h with h; subst h
    refine ⟨by simpa [e] using hs, by simp [e, fits_mono limit 0 _ (Nat.zero_le _) hd], trivial, ?_⟩
    intro w hw
    simp at hw; subst hw
    exact ⟨hv, fits_mono limit _ _ (Nat.le_add_right _ _) hd⟩
  · rename_i xs s e
    injection h with h; subst h
    rw [e] at hs hd
    obtain ⟨⟨h1, h2⟩, h3⟩ := hs
    refine ⟨⟨⟨?_, ?_⟩, h3⟩, ?_, trivial, hr⟩
    · simp [decodedList_append, h1, Value.decodedList, hv]
    · rw [depthList_append]
      simp only [Value.depthList, List.length_cons] at hd ⊢
      cases limit with
      | none => trivial
      | some l => simp only [fits] at h2 hd ⊢; omega
    · simp only [List.length_cons] at hd ⊢
      exact fits_mono limit _ _ (by omega) hd
  · rename_i m k s e
    injection h with h; subst h
    rw [e] at hs hd
    obtain ⟨⟨h1, h2, h3, h4⟩, h5⟩ := hs
    refine ⟨⟨⟨keysSorted_mapInsert k v m h1, decodedFields_mapInsert k v (h4 k rfl) hv m h2,
      ?_, by simp⟩, h5⟩, ?_, trivial, hr⟩
    · have := depthFields_mapInsert k v m
      simp only [List.length_cons] at hd ⊢
      cases limit with
      | none => trivial
      | some l => simp only [fits] at h3 hd ⊢; omega
    · simp only [List.length_cons] at hd ⊢
      exact fits_mono limit _ _ (by omega) hd
  · simp at h

theorem endString_inv (limit : Option Nat) (raw : Bytes) (d d1 : Decoder) (hi : Inv limit d)
    (h : endString raw d = some d1) : Inv limit d1 := by
  obtain ⟨hs, hl, _, hr⟩ := hi
  unfold endString at h
  split at h
  · simp at h
  · rename_i s hu
    have hv := unquote_valid raw s hu
    split at h
    · rename_i m st e
      injection h with h; subst h
      rw [e] at hs hl
      obtain ⟨⟨h1, h2, h3, _⟩, h5⟩ := hs
      exact ⟨⟨⟨h1, h2, h3, by intro key hk; simp at hk; subst hk; exact hv⟩, h5⟩, hl, trivial, hr⟩
    · exact complete_inv limit _ d d1 hs hr (by simpa [Value.decoded] using hv)
        (by simpa [Value.depth] using hl) h

theorem ParseFloat_finite (raw : Bytes) (f : Float64) (h : ParseFloat raw = some f) :
    (Value.number f).decoded = true := by
  unfold ParseFloat at h
  simp only at h
  split_ifs at h with hk
  injection h with h; subst h
  simpa [Value.decoded] using hk

theorem endNumber_inv (limit : Option Nat) (raw : Bytes) (d d1 : Decoder) (hi : Inv limit d)
    (h : endNumber raw d = some d1) : Inv limit d1 := by
  obtain ⟨hs, hl, _, hr⟩ := hi
  unfold endNumber at h
  split at h
  · rename_i f hf
    exact complete_inv limit _ d d1 hs hr (ParseFloat_finite raw f hf)
      (by simpa [Value.depth] using hl) h
  · exact complete_inv limit Value.null { d with saved := true } d1 hs hr
      (by simp [Value.decoded]) (by simpa [Value.depth] using hl) h

theorem stepEndValue_inv (limit : Option Nat) (d d1 : Decoder) (c : Nat) (hi : Inv limit d)
    (h : stepEndValue d c = some d1) : Inv limit d1 := by
  obtain ⟨hs, hl, _, hr⟩ := hi
  unfold stepEndValue at h
  split at h
  · rename_i e
    split_ifs at h
    injection h with h; subst h
    exact ⟨by simpa [e] using hs, by simpa [e] using hl, trivial, hr⟩
  · rename_i top s e
    rw [e] at hs hl
    by_cases hsp : isSpace c = true
    · rw [if_pos hsp] at h
      injection h with h; subst h
      exact ⟨by simpa [e] using hs, by simpa [e] using hl, trivial, hr⟩
    · rw [if_neg hsp] at h
      split at h
      · by_cases hc : c = 0x3A
        · rw [if_pos hc] at h
          injection h with h; subst h
          obtain ⟨⟨h1, h2, h3, h4⟩, h5⟩ := hs
          exact ⟨⟨⟨h1, h2, h3, h4⟩, h5⟩, hl, trivial, hr⟩
        · rw [if_neg hc] at h; simp at h
      · by_cases hc : c = 0x2C
        · rw [if_pos hc] at h
          injection h with h; subst h
          obtain ⟨⟨h1, h2, h3, h4⟩, h5⟩ := hs
          exact ⟨⟨⟨h1, h2, h3, by simp⟩, h5⟩, hl, trivial, hr⟩
        · rw [if_neg hc] at h
          by_cases hc2 : c = 0x7D
          · rw [if_pos hc2] at h
            obtain ⟨⟨h1, h2, h3, h4⟩, h5⟩ := hs
            refine complete_inv limit (Value.object _) { d with stack := s } d1 h5 hr ?_ ?_ h
            · simp [Value.decoded, h1, h2]
            simp only [Value.depth]
            refine fits_mono limit _ _ ?_ h3
            show Value.depthFields _ + 1 + s.length ≤ _
            omega
          · rw [if_neg hc2] at h; simp at h
      · by_cases hc : c = 0x2C
        · rw [if_pos hc] at h
          injection h with h; subst h
          exact ⟨by simpa [e] using hs, by simpa [e] using hl, trivial, hr⟩
        · rw [if_neg hc] at h
          by_cases hc2 : c = 0x5D
          · rw [if_pos hc2] at h
            obtain ⟨⟨h1, h2⟩, h5⟩ := hs
            refine complete_inv limit (Value.array _) { d with stack := s } d1 h5 hr ?_ ?_ h
            · simp [Value.decoded, h1]
            simp only [Value.depth]
            refine fits_mono limit _ _ ?_ h2
            show Value.depthList _ + 1 + s.length ≤ _
            omega
          · rw [if_neg hc2] at h; simp at h
      · simp at h

theorem push_inv (limit : Option Nat) (f : Frame) (m : Mode) (d d1 : Decoder) (hi : Inv limit d)
    (hf : ∀ level, fits limit level → f.ok limit level) (hm : modeOK m)
    (h : push limit f m d = some d1) : Inv limit d1 := by
  obtain ⟨hs, hl, _, hr⟩ := hi
  unfold push at h
  split at h
  · split_ifs at h with hle
    injection h with h; subst h
    exact ⟨⟨hf _ (by simpa [fits] using hle), hs⟩, by simpa [fits] using hle, hm, hr⟩
  · injection h with h; subst h
    exact ⟨⟨hf _ trivial, hs⟩, trivial, hm, hr⟩

theorem objKey_nil_ok (limit : Option Nat) (level : Nat) (h : fits limit level) :
    (Frame.objKey [] none).ok limit level :=
  ⟨rfl, rfl, by simpa [Value.depthFields] using h, by simp⟩

theorem arr_nil_ok (limit : Option Nat) (level : Nat) (h : fits limit level) :
    (Frame.arr []).ok limit level :=
  ⟨rfl, by simpa [Value.depthList] using h⟩

theorem stepBeginValue_inv (limit : Option Nat) (d d1 : Decoder) (c : Nat) (hi : Inv limit d)
    (h : stepBeginValue limit d c = some d1) : Inv limit d1 := by
  have hi' := hi
  obtain ⟨hs, hl, _, hr⟩ := hi
  have keep : ∀ m : Mode, modeOK m → Inv limit { d with mode := m } :=
    fun m hm => ⟨hs, hl, hm, hr⟩
  unfold stepBeginValue at h
  by_cases c0 : isSpace c = true
  · rw [if_pos c0] at h; injection h with h; subst h; exact hi'
  rw [if_neg c0] at h
  by_cases c1 : c = 0x7B
  · rw [if_pos c1] at h
    exact push_inv limit _ Mode.beginStringOrEmpty d d1 hi' (objKey_nil_ok limit) trivial h
  rw [if_neg c1] at h
  by_cases c2 : c = 0x5B
  · rw [if_pos c2] at h
    exact push_inv limit _ Mode.beginValueOrEmpty d d1 hi' (arr_nil_ok limit) trivial h
  rw [if_neg c2] at h
  by_cases c3 : c = 0x22
  · rw [if_pos c3] at h; injection h with h; subst h; exact keep _ trivial
  rw [if_neg c3] at h
  by_cases c4 : c = 0x2D
  · rw [if_pos c4] at h; injection h with h; subst h; exact keep _ trivial
  rw [if_neg c4] at h
  by_cases c5 : c = 0x30
  · rw [if_pos c5] at h; injection h with h; subst h; exact keep _ trivial
  rw [if_neg c5] at h
  by_cases c6 : c = 0x74
  · rw [if_pos c6] at h; injection h with h; subst h; exact keep _ ⟨rfl, rfl⟩
  rw [if_neg c6] at h
  by_cases c7 : c = 0x66
  · rw [if_pos c7] at h; injection h with h; subst h; exact keep _ ⟨rfl, rfl⟩
  rw [if_neg c7] at h
  by_cases c8 : c = 0x6E
  · rw [if_pos c8] at h; injection h with h; subst h; exact keep _ ⟨rfl, rfl⟩
  rw [if_neg c8] at h
  by_cases c9 : 0x31 ≤ c ∧ c ≤ 0x39
  · rw [if_pos c9] at h; injection h with h; subst h; exact keep _ trivial
  rw [if_neg c9] at h
  simp at h

theorem stepBeginString_inv (limit : Option Nat) (d d1 : Decoder) (c : Nat) (hi : Inv limit d)
    (h : stepBeginString d c = some d1) : Inv limit d1 := by
  have hi' := hi
  obtain ⟨hs, hl, _, hr⟩ := hi
  unfold stepBeginString at h
  split_ifs at h
  · injection h with h; subst h; exact hi'
  · injection h with h; subst h; exact ⟨hs, hl, trivial, hr⟩

theorem numberEnd_inv (limit : Option Nat) (raw : Bytes) (d d1 : Decoder) (c : Nat)
    (hi : Inv limit d) (h : (endNumber raw d).bind (stepEndValue · c) = some d1) :
    Inv limit d1 := by
  cases h1 : endNumber raw d with
  | none => simp [h1] at h
  | some d2 =>
    rw [h1] at h
    exact stepEndValue_inv limit d2 d1 c (endNumber_inv limit raw d d2 hi h1) h

theorem step0_inv (limit : Option Nat) (raw : Bytes) (d d1 : Decoder) (c : Nat)
    (hi : Inv limit d) (h : step0 raw d c = some d1) : Inv limit d1 := by
  unfold step0 at h
  split_ifs at h
  · injection h with h; subst h; exact ⟨hi.1, hi.2.1, trivial, hi.2.2.2⟩
  · injection h with h; subst h; exact ⟨hi.1, hi.2.1, trivial, hi.2.2.2⟩
  · exact numberEnd_inv limit raw d d1 c hi h

theorem stepESign_inv (limit : Option Nat) (raw : Bytes) (d d1 : Decoder) (c : Nat)
    (hi : Inv limit d) (h : stepESign raw d c = some d1) : Inv limit d1 := by
  unfold stepESign at h
  split_ifs at h
  injection h with h; subst h; exact ⟨hi.1, hi.2.1, trivial, hi.2.2.2⟩

theorem step_inv (limit : Option Nat) (d d1 : Decoder) (c : Nat) (hi : Inv limit d)
    (h : step limit d c = some d1) : Inv limit d1 := by
  have hi' := hi
  obtain ⟨hs, hl, hm, hr⟩ := hi
  have keep : ∀ m : Mode, modeOK m → Inv limit { d with mode := m } :=
    fun m hm => ⟨hs, hl, hm, hr⟩
  unfold step at h
  cases hmode : d.mode with
  | beginValueOrEmpty =>
    simp only [hmode] at h
    split_ifs at h
    · injection h with h; subst h; exact hi'
    · exact stepEndValue_inv limit d d1 c hi' h
    · exact stepBeginValue_inv limit d d1 c hi' h
  | beginValue =>
    simp only [hmode] at h
    exact stepBeginValue_inv limit d d1 c hi' h
  | beginStringOrEmpty =>
    simp only [hmode] at h
    by_cases c0 : isSpace c = true
    · rw [if_pos c0] at h; injection h with h; subst h; exact hi'
    rw [if_neg c0] at h
    by_cases c1 : c = 0x7D
    · rw [if_pos c1] at h
      split at h
      · rename_i m s e
        refine stepEndValue_inv limit _ d1 c ?_ h
        rw [e] at hs hl
        obtain ⟨⟨h1, h2, h3, h4⟩, h5⟩ := hs
        exact ⟨⟨⟨h1, h2, h3, h4⟩, h5⟩, hl, trivial, hr⟩
      · simp at h
    · rw [if_neg c1] at h
      exact stepBeginString_inv limit d d1 c hi' h
  | beginString =>
    simp only [hmode] at h
    exact stepBeginString_inv limit d d1 c hi' h
  | endValue =>
    simp only [hmode] at h
    exact stepEndValue_inv limit d d1 c hi' h
  | inString raw =>
    simp only [hmode] at h
    split_ifs at h
    · exact endString_inv limit _ d d1 hi' h
    · injection h with h; subst h; exact keep _ trivial
    · injection h with h; subst h; exact keep _ trivial
  | inStringEsc raw =>
    simp only [hmode] at h
    split_ifs at h
    · injection h with h; subst h; exact keep _ trivial
    · injection h with h; subst h; exact keep _ trivial
  | inStringEscU raw left =>
    simp only [hmode] at h
    by_cases c0 : isHex c = true
    · rw [if_pos c0] at h
      injection h with h; subst h
      refine keep _ ?_
      split_ifs <;> trivial
    · rw [if_neg c0] at h; simp at h
  | neg raw =>
    simp only [hmode] at h
    split_ifs at h
    · injection h with h; subst h; exact keep _ trivial
    · injection h with h; subst h; exact keep _ trivial
  | s0 raw =>
    simp only [hmode] at h
    exact step0_inv limit raw d d1 c hi' h
  | s1 raw =>
    simp only [hmode] at h
    by_cases c0 : isDigit c = true
    · rw [if_pos c0] at h; injection h with h; subst h; exact keep _ trivial
    · rw [if_neg c0] at h
      exact step0_inv limit raw d d1 c hi' h
  | dot raw =>
    simp only [hmode] at h
    split_ifs at h
    injection h with h; subst h; exact keep _ trivial
  | dot0 raw =>
    simp only [hmode] at h
    by_cases c0 : isDigit c = true
    · rw [if_pos c0] at h; injection h with h; subst h; exact keep _ trivial
    rw [if_neg c0] at h
    by_cases c1 : c = 0x65 ∨ c = 0x45
    · rw [if_pos c1] at h; injection h with h; subst h; exact keep _ trivial
    rw [if_neg c1] at h
    exact numberEnd_inv limit raw d d1 c hi' h
  | e raw =>
    simp only [hmode] at h
    by_cases c0 : c = 0x2B ∨ c = 0x2D
    · rw [if_pos c0] at h; injection h with h; subst h; exact keep _ trivial
    rw [if_neg c0] at h
    exact stepESign_inv limit raw d d1 c hi' h
  | eSign raw =>
    simp only [hmode] at h
    exact stepESign_inv limit raw d d1 c hi' h
  | e0 raw =>
    simp only [hmode] at h
    by_cases c0 : isDigit c = true
    · rw [if_pos c0] at h; injection h with h; subst h; exact keep _ trivial
    rw [if_neg c0] at h
    exact numberEnd_inv limit raw d d1 c hi' h
  | literal rest v =>
    simp only [hmode] at h
    rw [hmode] at hm
    cases rest with
    | nil => simp at h
    | cons x r =>
      simp only at h
      by_cases c0 : c = x
      · rw [if_pos c0] at h
        by_cases c1 : r = []
        · rw [if_pos c1] at h
          exact complete_inv limit v d d1 hs hr hm.1 (by rw [hm.2]; simpa using hl) h
        · rw [if_neg c1] at h
          injection h with h; subst h
          exact keep _ hm
      · rw [if_neg c0] at h; simp at h

theorem run_inv (limit : Option Nat) : ∀ (bs : Bytes) (d d1 : Decoder), Inv limit d →
    run limit d bs = some d1 → Inv limit d1 := by
  intro bs
  induction bs with
  | nil => intro d d1 hi h; simp [run] at h; subst h; exact hi
  | cons c t ih =>
    intro d d1 hi h
    rw [run_cons] at h
    cases h1 : step limit d c with
    | none => simp [h1] at h
    | some d2 =>
      rw [h1] at h
      exact ih d2 d1 (step_inv limit d d2 c hi h1) h

theorem init_inv (limit : Option Nat) : Inv limit Decoder.init := by
  refine ⟨trivial, ?_, trivial, by simp [Decoder.init]⟩
  cases limit <;> simp [fits, Decoder.init]

theorem eof_inv (limit : Option Nat) (d d1 : Decoder) (hi : Inv limit d)
    (h : eof limit d = some d1) : Inv limit d1 := by
  unfold eof at h
  split_ifs at h
  · injection h with h; subst h; exact hi
  · cases h1 : step limit d 0x20 with
    | none => simp [h1] at h
    | some d2 =>
      rw [h1] at h
      simp only [Option.some_bind] at h
      split_ifs at h
      injection h with h; subst h
      exact step_inv limit d d2 _ hi h1

/-- A value that `Unmarshal` returns has the decoded shape and fits the nesting limit. -/
theorem unmarshalWith_decoded (limit : Option Nat) (data : Bytes) (v : Value)
    (h : unmarshalWith limit data = .ok v) : v.decoded = true ∧ fits limit v.depth := by
  unfold unmarshalWith at h
  split at h
  · simp at h
  · rename_i d hd
    cases h1 : run limit Decoder.init data with
    | none => simp [h1] at hd
    | some d2 =>
      rw [h1] at hd
      simp only [Option.some_bind] at hd
      have hi := eof_inv limit d2 d (run_inv limit data _ d2 (init_inv limit) h1) hd
      split at h
      · simp at h
      · rename_i w hw
        split_ifs at h
        injection h with h; subst h
        exact hi.2.2.2 w hw

/-! ## The nesting limit only refuses -/

theorem push_unlimited (l : Nat) (f : Frame) (m : Mode) (d d1 : Decoder)
    (h : push (some l) f m d = some d1) : push none f m d = some d1 := by
  unfold push at h ⊢
  simp only at h ⊢
  split_ifs at h
  exact h

theorem stepBeginValue_unlimited (l : Nat) (d d1 : Decoder) (c : Nat)
    (h : stepBeginValue (some l) d c = some d1) : stepBeginValue none d c = some d1 := by
  unfold stepBeginValue at h ⊢
  by_cases c0 : isSpace c = true
  · rw [if_pos c0] at h ⊢; exact h
  rw [if_neg c0] at h ⊢
  by_cases c1 : c = 0x7B
  · rw [if_pos c1] at h ⊢; exact push_unlimited l _ _ d d1 h
  rw [if_neg c1] at h ⊢
  by_cases c2 : c = 0x5B
  · rw [if_pos c2] at h ⊢; exact push_unlimited l _ _ d d1 h
  rw [if_neg c2] at h ⊢
  exact h

theorem step_unlimited (l : Nat) (d d1 : Decoder) (c : Nat)
    (h : step (some l) d c = some d1) : step none d c = some d1 := by
  unfold step at h ⊢
  cases hmode : d.mode with
  | beginValueOrEmpty =>
    simp only [hmode] at h ⊢
    split_ifs at h ⊢
    · exact h
    · exact h
    · exact stepBeginValue_unlimited l d d1 c h
  | beginValue =>
    simp only [hmode] at h ⊢
    exact stepBeginValue_unlimited l d d1 c h
  | _ => simp only [hmode] at h ⊢; exact h

theorem run_unlimited (l : Nat) : ∀ (bs : Bytes) (d d1 : Decoder),
    run (some l) d bs = some d1 → run none d bs = some d1 := by
  intro bs
  induction bs with
  | nil => intro d d1 h; exact h
  | cons c t ih =>
    intro d d1 h
    rw [run_cons] at h ⊢
    cases h1 : step (some l) d c with
    | none => simp [h1] at h
    | some d2 =>
      rw [h1] at h
      rw [step_unlimited l d d2 c h1]
      exact ih d2 d1 h

theorem eof_unlimited (l : Nat) (d d1 : Decoder) (h : eof (some l) d = some d1) :
    eof none d = some d1 := by
  unfold eof at h ⊢
  split_ifs at h ⊢
  · exact h
  · cases h1 : step (some l) d 0x20 with
    | none => simp [h1] at h
    | some d2 =>
      rw [h1] at h
      rw [step_unlimited l d d2 _ h1]
      exact h

/-- What `Unmarshal` accepts is a JSON text. -/
theorem validJSON_of_unmarshal (l : Nat) (data : Bytes) (v : Value)
    (h : unmarshalWith (some l) data = .ok v) : validJSON data = true := by
  unfold unmarshalWith at h
  unfold validJSON
  cases h1 : run (some l) Decoder.init data with
  | none => simp [h1] at h
  | some d2 =>
    rw [h1] at h
    simp only [Option.some_bind] at h
    rw [run_unlimited l data _ d2 h1]
    simp only [Option.some_bind]
    cases h2 : eof (some l) d2 with
    | none => simp [h2] at h
    | some d3 => rw [eof_unlimited l d2 d3 h2]; rfl

/-! ## Rounding to float64 -/

theorem floatScaled_eq (e f : Nat) (hf : f < 2 ^ 52) :
    floatScaled (e * 2 ^ 52 + f) = if e = 0 then f else (2 ^ 52 + f) * 2 ^ (e - 1) := by
  have h1 : (e * 2 ^ 52 + f) / 2 ^ 52 = e := by
    rw [Nat.add_comm, Nat.add_mul_div_right _ _ (by positivity), Nat.div_eq_of_lt hf, Nat.zero_add]
  have h2 : (e * 2 ^ 52 + f) % 2 ^ 52 = f := by
    rw [Nat.add_comm, Nat.add_mul_mod_self_right, Nat.mod_eq_of_lt hf]
  unfold floatScaled
  rw [h1, h2]

theorem floatScaled_lt_succ (k : Nat) : floatScaled k < floatScaled (k + 1) := by
  obtain ⟨e, f, hf, rfl⟩ : ∃ e f, f < 2 ^ 52 ∧ k = e * 2 ^ 52 + f :=
    ⟨k / 2 ^ 52, k % 2 ^ 52, Nat.mod_lt _ (by positivity), by rw [Nat.div_add_mod']⟩
  rw [floatScaled_eq e f hf]
  by_cases h : f + 1 < 2 ^ 52
  · rw [show e * 2 ^ 52 + f + 1 = e * 2 ^ 52 + (f + 1) by ring, floatScaled_eq e (f + 1) h]
    split_ifs
    · omega
    · have : 0 < 2 ^ (e - 1) := by positivity
      nlinarith
  · have hf1 : f + 1 = 2 ^ 52 := by omega
    rw [show e * 2 ^ 52 + f + 1 = (e + 1) * 2 ^ 52 + 0 by rw [Nat.add_assoc, hf1]; ring,
      floatScaled_eq (e + 1) 0 (by positivity)]
    simp only [Nat.add_eq_zero, one_ne_zero, and_false, if_false, Nat.add_sub_cancel, Nat.add_zero]
    split_ifs with he
    · subst he; simp; omega
    · have : 2 ^ e = 2 * 2 ^ (e - 1) := by
        rw [← pow_succ']; congr 1; omega
      rw [this]
      have : 0 < 2 ^ (e - 1) := by positivity
      nlinarith

theorem floatScaled_strictMono {a b : Nat} (h : a < b) : floatScaled a < floatScaled b := by
  induction b with
  | zero => omega
  | succ b ih =>
    rcases Nat.lt_succ_iff_lt_or_eq.mp h with h1 | h1
    · exact lt_trans (ih h1) (floatScaled_lt_succ b)
    · subst h1; exact floatScaled_lt_succ a

theorem floatScaled_mono {a b : Nat} (h : a ≤ b) : floatScaled a ≤ floatScaled b := by
  rcases Nat.lt_or_eq_of_le h with h1 | h1
  · exact le_of_lt (floatScaled_strictMono h1)
  · rw [h1]

theorem midScaled_strictMono {a b : Nat} (ha : 1 ≤ a) (h : a < b) : midScaled a < midScaled b := by
  unfold midScaled
  have h1 : floatScaled (a - 1) ≤ floatScaled (b - 1) := floatScaled_mono (by omega)
  have h2 : floatScaled a < floatScaled b := floatScaled_strictMono h
  omega

/-- A value that rounds at least to `b` rounds at least to every float below `b`. -/
theorem roundsAtLeast_anti (num den : Nat) (hden : 0 < den) {a b : Nat} (ha : 1 ≤ a) (h : a ≤ b)
    (hb : roundsAtLeast num den b = true) : roundsAtLeast num den a = true := by
  rcases Nat.lt_or_eq_of_le h with h1 | h1
  · have hm := midScaled_strictMono ha h1
    have hle : midScaled b * den ≤ num * 2 ^ 1075 := by
      simp only [roundsAtLeast, Bool.or_eq_true, decide_eq_true_eq, Bool.and_eq_true,
        beq_iff_eq] at hb
      rcases hb with hb | ⟨hb, _⟩ <;> omega
    have : midScaled a * den < midScaled b * den := Nat.mul_lt_mul_of_pos_right hm hden
    simp only [roundsAtLeast, Bool.or_eq_true, decide_eq_true_eq]
    left; omega
  · rw [h1]; exact hb

/-- The bit-by-bit search finds the float a value rounds to. -/
theorem searchOrd_eq (num den : Nat) (hden : 0 < den) (k : Nat)
    (hk : k = 0 ∨ roundsAtLeast num den k = true) (hk1 : roundsAtLeast num den (k + 1) = false) :
    ∀ (i acc : Nat), acc ≤ k → k < acc + 2 ^ i → searchOrd num den i acc = k := by
  intro i
  induction i with
  | zero => intro acc h1 h2; simp only [searchOrd]; omega
  | succ i ih =>
    intro acc h1 h2
    simp only [searchOrd]
    have hpos : 0 < 2 ^ i := by positivity
    by_cases hc : roundsAtLeast num den (acc + 2 ^ i) = true
    · rw [if_pos hc]
      have : acc + 2 ^ i ≤ k := by
        by_contra hlt
        have := roundsAtLeast_anti num den hden (a := k + 1) (b := acc + 2 ^ i) (by omega)
          (by omega) hc
        rw [hk1] at this; exact absurd this (by decide)
      exact ih _ this (by rw [pow_succ] at h2; omega)
    · rw [if_neg hc]
      have : k < acc + 2 ^ i := by
        by_contra hge
        rcases hk with hk | hk
        · omega
        · exact hc (roundsAtLeast_anti num den hden (by omega) (by omega) hk)
      exact ih _ h1 this

theorem roundOrd_eq (num den k : Nat) (hden : 0 < den) (hk : k < 2 ^ 63)
    (h : roundsTo k num den = true) : roundOrd num den = k := by
  simp only [roundsTo, Bool.and_eq_true, Bool.or_eq_true, decide_eq_true_eq,
    Bool.not_eq_true'] at h
  exact searchOrd_eq num den hden k h.1 h.2 63 0 (Nat.zero_le _) (by omega)

/-- Rounding depends on the value only, not on the fraction that denotes it. -/
theorem roundsAtLeast_congr (n1 d1 n2 d2 k : Nat) (h1 : 0 < d1) (h2 : 0 < d2)
    (h : n1 * d2 = n2 * d1) : roundsAtLeast n1 d1 k = roundsAtLeast n2 d2 k := by
  have key : ∀ m : Nat, (m * d1 < n1 * 2 ^ 1075 ↔ m * d2 < n2 * 2 ^ 1075) ∧
      (m * d1 = n1 * 2 ^ 1075 ↔ m * d2 = n2 * 2 ^ 1075) := by
    intro m
    have e1 : m * d1 * d2 = m * d2 * d1 := by ring
    have e2 : n1 * 2 ^ 1075 * d2 = n2 * 2 ^ 1075 * d1 := by
      calc n1 * 2 ^ 1075 * d2 = (n1 * d2) * 2 ^ 1075 := by ring
        _ = (n2 * d1) * 2 ^ 1075 := by rw [h]
        _ = n2 * 2 ^ 1075 * d1 := by ring
    constructor
    · rw [← Nat.mul_lt_mul_right h2, e1, e2, Nat.mul_lt_mul_right h1]
    · rw [← Nat.mul_left_inj (Nat.pos_iff_ne_zero.mp h2), e1, e2,
        Nat.mul_left_inj (Nat.pos_iff_ne_zero.mp h1)]
  have := key (midScaled k)
  unfold roundsAtLeast
  rw [Bool.eq_iff_iff]
  simp only [Bool.or_eq_true, decide_eq_true_eq, Bool.and_eq_true, beq_iff_eq]
  rw [this.1, this.2]

theorem roundsTo_congr (n1 d1 n2 d2 k : Nat) (h1 : 0 < d1) (h2 : 0 < d2)
    (h : n1 * d2 = n2 * d1) : roundsTo k n1 d1 = roundsTo k n2 d2 := by
  unfold roundsTo
  rw [roundsAtLeast_congr n1 d1 n2 d2 k h1 h2 h, roundsAtLeast_congr n1 d1 n2 d2 (k + 1) h1 h2 h]

theorem floatScaled_pos (k : Nat) (hk : 0 < k) : 0 < floatScaled k := by
  have := floatScaled_strictMono hk
  omega

/-- Zero rounds to no positive float. -/
theorem roundsTo_zero (k den : Nat) (hk : 0 < k) (hden : 0 < den) : roundsTo k 0 den = false := by
  have h1 : 0 < midScaled k := by
    have := floatScaled_pos k hk
    unfold midScaled; omega
  have h2 : 0 < midScaled k * den := Nat.mul_pos h1 hden
  have : roundsAtLeast 0 den k = false := by
    simp only [roundsAtLeast, Nat.zero_mul, Bool.or_eq_false_iff, decide_eq_false_iff_not,
      Bool.and_eq_false_imp, beq_iff_eq]
    constructor <;> omega
  simp [roundsTo, this]; omega

/-- The exact decimal expansion of a float rounds to it. -/
theorem roundsTo_exact (k : Nat) (hk : 0 < k) :
    roundsTo k (floatScaled k * 5 ^ 1074) (10 ^ 1074) = true := by
  have h1 : floatScaled (k - 1) < floatScaled k := floatScaled_strictMono (by omega)
  have h2 : floatScaled k < floatScaled (k + 1) := floatScaled_lt_succ k
  have e : floatScaled k * 5 ^ 1074 * 2 ^ 1075 = (2 * floatScaled k) * 10 ^ 1074 := by
    rw [show (10 : Nat) = 5 * 2 by rfl, mul_pow, pow_succ]; ring
  have hp : 0 < 10 ^ 1074 := by positivity
  have a1 : roundsAtLeast (floatScaled k * 5 ^ 1074) (10 ^ 1074) k = true := by
    simp only [roundsAtLeast, Bool.or_eq_true, decide_eq_true_eq]
    left; rw [e]
    exact Nat.mul_lt_mul_of_pos_right (by unfold midScaled; omega) hp
  have a2 : roundsAtLeast (floatScaled k * 5 ^ 1074) (10 ^ 1074) (k + 1) = false := by
    have : (2 * floatScaled k) * 10 ^ 1074 < midScaled (k + 1) * 10 ^ 1074 :=
      Nat.mul_lt_mul_of_pos_right (by unfold midScaled; simp; omega) hp
    simp only [roundsAtLeast, Bool.or_eq_false_iff, decide_eq_false_iff_not,
      Bool.and_eq_false_imp, beq_iff_eq]
    rw [e]
    constructor <;> omega
  simp [roundsTo, a1, a2]

/-! ## Decimal digits -/

theorem foldl_digits (ds : List Nat) (a : Nat) :
    ds.foldl (fun a d => a * 10 + d) a = a * 10 ^ ds.length + digitsVal ds := by
  induction ds generalizing a with
  | nil => simp [digitsVal]
  | cons d ds ih =>
    simp only [List.foldl_cons, List.length_cons, digitsVal]
    rw [ih, ih (0 * 10 + d)]
    ring

theorem digitsVal_append (xs ys : List Nat) :
    digitsVal (xs ++ ys) = digitsVal xs * 10 ^ ys.length + digitsVal ys := by
  unfold digitsVal
  rw [List.foldl_append, foldl_digits]
  rfl

theorem digitsVal_cons (d : Nat) (ds : List Nat) :
    digitsVal (d :: ds) = d * 10 ^ ds.length + digitsVal ds := by
  have := digitsVal_append [d] ds
  simpa [digitsVal] using this

theorem digitsVal_replicate_zero (n : Nat) : digitsVal (List.replicate n 0) = 0 := by
  induction n with
  | zero => rfl
  | succ n ih => rw [List.replicate_succ, digitsVal_cons, ih]; simp

theorem digitsVal_lt (ds : List Nat) (h : ∀ d ∈ ds, d < 10) : digitsVal ds < 10 ^ ds.length := by
  induction ds using List.reverseRecOn with
  | nil => simp [digitsVal]
  | append_singleton xs x ih =>
    rw [digitsVal_append]
    have h1 := ih (fun d hd => h d (by simp [hd]))
    have h2 : x < 10 := h x (by simp)
    have e : digitsVal [x] = x := by simp [digitsVal]
    rw [e]
    simp only [List.length_append, List.length_singleton, pow_succ, pow_one]
    omega

/-- What `decDigitsAux` computes, when the fuel suffices. -/
theorem decDigitsAux_spec : ∀ (fuel n : Nat) (acc : List Nat), n < fuel →
    ∃ ds : List Nat, decDigitsAux fuel n acc = ds ++ acc ∧ digitsVal ds = n ∧
      (∀ d ∈ ds, d < 10) ∧ ds ≠ [] ∧ (0 < n → ds.head? ≠ some 0) := by
  intro fuel
  induction fuel with
  | zero => intro n acc h; omega
  | succ fuel ih =>
    intro n acc h
    simp only [decDigitsAux]
    by_cases hn : n < 10
    · rw [if_pos hn]
      exact ⟨[n], rfl, by simp [digitsVal], by simpa using hn, by simp, by
        intro h0; simp; omega⟩
    · rw [if_neg hn]
      obtain ⟨ds, h1, h2, h3, h4, h5⟩ := ih (n / 10) (n % 10 :: acc) (by omega)
      refine ⟨ds ++ [n % 10], by rw [h1]; simp, ?_, ?_, by simp, ?_⟩
      · rw [digitsVal_append, h2]; simp [digitsVal]; omega
      · intro d hd
        rcases List.mem_append.mp hd with hd | hd
        · exact h3 d hd
        · simp at hd; omega
      · intro _
        cases ds with
        | nil => exact absurd rfl h4
        | cons x xs => simpa using h5 (by omega)

theorem decDigits_spec (n : Nat) :
    digitsVal (decDigits n) = n ∧ (∀ d ∈ decDigits n, d < 10) ∧ decDigits n ≠ [] ∧
      (0 < n → (decDigits n).head? ≠ some 0) := by
  obtain ⟨ds, h1, h2, h3, h4, h5⟩ := decDigitsAux_spec (n + 1) n [] (by omega)
  unfold decDigits
  rw [h1, List.append_nil]
  exact ⟨h2, h3, h4, h5⟩

/-- A digit list without a leading zero is as long as its number is large. -/
theorem digitsVal_ge (ds : List Nat) (hne : ds ≠ []) (hh : ds.head? ≠ some 0) :
    10 ^ (ds.length - 1) ≤ digitsVal ds := by
  cases ds with
  | nil => exact absurd rfl hne
  | cons d ds =>
    rw [digitsVal_cons]
    simp only [List.length_cons, Nat.add_sub_cancel]
    have : 1 ≤ d := by
      rcases Nat.eq_zero_or_pos d with h | h
      · subst h; simp at hh
      · exact h
    calc 10 ^ ds.length = 1 * 10 ^ ds.length := by ring
      _ ≤ d * 10 ^ ds.length := Nat.mul_le_mul_right _ this
      _ ≤ _ := Nat.le_add_right _ _

theorem decDigits_length_bounds (n : Nat) (hn : 0 < n) :
    10 ^ ((decDigits n).length - 1) ≤ n ∧ n < 10 ^ (decDigits n).length := by
  obtain ⟨h1, h2, h3, h4⟩ := decDigits_spec n
  constructor
  · have := digitsVal_ge (decDigits n) h3 (h4 hn)
    rwa [h1] at this
  · have := digitsVal_lt (decDigits n) h2
    rwa [h1] at this

theorem decDigits_length_pos (n : Nat) : 0 < (decDigits n).length := by
  have := (decDigits_spec n).2.2.1
  exact List.length_pos.mpr this

/-- The number of digits is monotone in bounds by powers of ten. -/
theorem decDigits_length_le (n m : Nat) (h : n < 10 ^ m) (hn : 0 < n) :
    (decDigits n).length ≤ m := by
  by_contra hc
  have h1 := (decDigits_length_bounds n hn).1
  have : 10 ^ m ≤ 10 ^ ((decDigits n).length - 1) := Nat.pow_le_pow_right (by decide) (by omega)
  omega

theorem decDigits_length_ge (n m : Nat) (h : 10 ^ m ≤ n) : m + 1 ≤ (decDigits n).length := by
  by_contra hc
  have hn : 0 < n := lt_of_lt_of_le (by positivity) h
  have h1 := (decDigits_length_bounds n hn).2
  have : 10 ^ (decDigits n).length ≤ 10 ^ m := Nat.pow_le_pow_right (by decide) (by omega)
  omega

/-! ## Trimming zeros -/

theorem trimZeros_spec : ∀ (fuel d e : Nat), 0 < d →
    0 < (trimZeros fuel d e).1 ∧
      (trimZeros fuel d e).1 * 10 ^ (trimZeros fuel d e).2 = d * 10 ^ e := by
  intro fuel
  induction fuel with
  | zero => intro d e hd; exact ⟨hd, rfl⟩
  | succ fuel ih =>
    intro d e hd
    simp only [trimZeros]
    split_ifs with h
    · obtain ⟨h1, h2⟩ := ih (d / 10) (e + 1) (by omega)
      refine ⟨h1, ?_⟩
      rw [h2, pow_succ]
      have : d / 10 * 10 = d := by omega
      calc d / 10 * (10 ^ e * 10) = (d / 10 * 10) * 10 ^ e := by ring
        _ = d * 10 ^ e := by rw [this]
    · exact ⟨hd, rfl⟩

/-! ## The shortest decimal of a float -/

theorem scale10_den_pos (m : Nat) (e : Int) : 0 < (scale10 m e).2 := by
  simp only [scale10]; positivity

theorem scale10_zero (e : Int) : (scale10 0 e).1 = 0 := by simp [scale10]

/-- Two decimals with the same value, both shifted by `c`, denote the same fraction. -/
theorem scale10_cross (m1 m2 e1 e2 c : Nat) (h : m1 * 10 ^ e1 = m2 * 10 ^ e2) :
    (scale10 m1 ((e1 : Int) - c)).1 * (scale10 m2 ((e2 : Int) - c)).2 =
      (scale10 m2 ((e2 : Int) - c)).1 * (scale10 m1 ((e1 : Int) - c)).2 := by
  simp only [scale10]
  have hc : (0 : Nat) < 10 ^ c := by positivity
  apply Nat.eq_of_mul_eq_mul_right hc
  have a1 : ((e1 : Int) - c).toNat + c = e1 + (-((e1 : Int) - c)).toNat := by omega
  have a2 : ((e2 : Int) - c).toNat + c = e2 + (-((e2 : Int) - c)).toNat := by omega
  calc m1 * 10 ^ ((e1 : Int) - c).toNat * 10 ^ (-((e2 : Int) - c)).toNat * 10 ^ c
      = m1 * 10 ^ (((e1 : Int) - c).toNat + c) * 10 ^ (-((e2 : Int) - c)).toNat := by
        rw [pow_add]; ring
    _ = m1 * 10 ^ (e1 + (-((e1 : Int) - c)).toNat) * 10 ^ (-((e2 : Int) - c)).toNat := by rw [a1]
    _ = (m1 * 10 ^ e1) * 10 ^ (-((e1 : Int) - c)).toNat * 10 ^ (-((e2 : Int) - c)).toNat := by
        rw [pow_add]; ring
    _ = (m2 * 10 ^ e2) * 10 ^ (-((e1 : Int) - c)).toNat * 10 ^ (-((e2 : Int) - c)).toNat := by
        rw [h]
    _ = m2 * 10 ^ (e2 + (-((e2 : Int) - c)).toNat) * 10 ^ (-((e1 : Int) - c)).toNat := by
        rw [pow_add]; ring
    _ = m2 * 10 ^ (((e2 : Int) - c).toNat + c) * 10 ^ (-((e1 : Int) - c)).toNat := by rw [a2]
    _ = m2 * 10 ^ ((e2 : Int) - c).toNat * 10 ^ (-((e1 : Int) - c)).toNat * 10 ^ c := by
        rw [pow_add]; ring

theorem roundsTo_scale10_congr (k m1 m2 e1 e2 c : Nat) (h : m1 * 10 ^ e1 = m2 * 10 ^ e2) :
    roundsTo k (scale10 m1 ((e1 : Int) - c)).1 (scale10 m1 ((e1 : Int) - c)).2 =
      roundsTo k (scale10 m2 ((e2 : Int) - c)).1 (scale10 m2 ((e2 : Int) - c)).2 :=
  roundsTo_congr _ _ _ _ k (scale10_den_pos _ _) (scale10_den_pos _ _)
    (scale10_cross m1 m2 e1 e2 c h)

/-- A candidate that rounds to a positive float is positive. -/
theorem pos_of_roundsTo (k m : Nat) (e : Int) (hk : 0 < k)
    (h : roundsTo k (scale10 m e).1 (scale10 m e).2 = true) : 0 < m := by
  by_contra hm
  have : m = 0 := by omega
  subst this
  rw [scale10_zero, roundsTo_zero k _ hk (scale10_den_pos _ _)] at h
  exact absurd h (by decide)

/-- One round of the digit walk: it returns the truncation, which then rounds to the float,
or the truncation plus one, which then rounds to the float, or it goes on. -/
theorem shortestLoop_succ (k N nd fuel n : Nat) :
    (shortestLoop k N nd (fuel + 1) n = (N / 10 ^ (nd - n), nd - n) ∧
      roundsTo k (scale10 (N / 10 ^ (nd - n)) (((nd - n : Nat) : Int) - 1074)).1
        (scale10 (N / 10 ^ (nd - n)) (((nd - n : Nat) : Int) - 1074)).2 = true) ∨
    (shortestLoop k N nd (fuel + 1) n = (N / 10 ^ (nd - n) + 1, nd - n) ∧
      roundsTo k (scale10 (N / 10 ^ (nd - n) + 1) (((nd - n : Nat) : Int) - 1074)).1
        (scale10 (N / 10 ^ (nd - n) + 1) (((nd - n : Nat) : Int) - 1074)).2 = true) ∨
    (shortestLoop k N nd (fuel + 1) n = shortestLoop k N nd fuel (n + 1) ∧
      roundsTo k (scale10 (N / 10 ^ (nd - n)) (((nd - n : Nat) : Int) - 1074)).1
        (scale10 (N / 10 ^ (nd - n)) (((nd - n : Nat) : Int) - 1074)).2 = false) := by
  simp only [shortestLoop]
  cases c1 : roundsTo k (scale10 (N / 10 ^ (nd - n)) (((nd - n : Nat) : Int) - 1074)).1
      (scale10 (N / 10 ^ (nd - n)) (((nd - n : Nat) : Int) - 1074)).2 <;>
    cases c2 : roundsTo k (scale10 (N / 10 ^ (nd - n) + 1) (((nd - n : Nat) : Int) - 1074)).1
      (scale10 (N / 10 ^ (nd - n) + 1) (((nd - n : Nat) : Int) - 1074)).2
  · simp
  · simp
  · simp
  · simp only [Bool.and_self, if_true]
    split_ifs
    · right; left; simp
    · left; simp

/-- What the digit walk returns: a positive candidate that rounds to the float and has as
many digits as the exact decimal, or one more. -/
theorem shortestLoop_spec (k N nd : Nat) (hk : 0 < k)
    (hex : roundsTo k (scale10 N ((0 : Int) - 1074)).1 (scale10 N ((0 : Int) - 1074)).2 = true)
    (hlo : 10 ^ (nd - 1) ≤ N) (hhi : N < 10 ^ nd) :
    ∀ (fuel n : Nat), 1 ≤ n → n + fuel = nd + 1 →
      0 < (shortestLoop k N nd fuel n).1 ∧
      roundsTo k (scale10 (shortestLoop k N nd fuel n).1
          (((shortestLoop k N nd fuel n).2 : Int) - 1074)).1
        (scale10 (shortestLoop k N nd fuel n).1
          (((shortestLoop k N nd fuel n).2 : Int) - 1074)).2 = true ∧
      10 ^ (nd - 1) ≤ (shortestLoop k N nd fuel n).1 * 10 ^ (shortestLoop k N nd fuel n).2 ∧
      (shortestLoop k N nd fuel n).1 * 10 ^ (shortestLoop k N nd fuel n).2 ≤ 10 ^ nd := by
  intro fuel
  induction fuel with
  | zero =>
    intro n _ _
    simp only [shortestLoop]
    have hNpos : 0 < N := lt_of_lt_of_le (by positivity) hlo
    exact ⟨hNpos, by simpa using hex, by simpa using hlo, by simpa using le_of_lt hhi⟩
  | succ fuel ih =>
    intro n hn hf
    have hnd : n ≤ nd := by omega
    have hs : 10 ^ nd = 10 ^ n * 10 ^ (nd - n) := by rw [← pow_add]; congr 1; omega
    have hs' : 10 ^ (nd - 1) = 10 ^ (n - 1) * 10 ^ (nd - n) := by
      rw [← pow_add]; congr 1; omega
    have hp : 0 < 10 ^ (nd - n) := by positivity
    have hdlo : 10 ^ (n - 1) ≤ N / 10 ^ (nd - n) := by
      rw [Nat.le_div_iff_mul_le hp, ← hs']; exact hlo
    have hdhi : N / 10 ^ (nd - n) < 10 ^ n := by
      rw [Nat.div_lt_iff_lt_mul hp, ← hs]; exact hhi
    have hdmul : N / 10 ^ (nd - n) * 10 ^ (nd - n) ≤ N := Nat.div_mul_le_self _ _
    have down_ok : 10 ^ (nd - 1) ≤ N / 10 ^ (nd - n) * 10 ^ (nd - n) ∧
        N / 10 ^ (nd - n) * 10 ^ (nd - n) ≤ 10 ^ nd := by
      constructor
      · rw [hs']; exact Nat.mul_le_mul_right _ hdlo
      · exact le_trans hdmul (le_of_lt hhi)
    have up_ok : 10 ^ (nd - 1) ≤ (N / 10 ^ (nd - n) + 1) * 10 ^ (nd - n) ∧
        (N / 10 ^ (nd - n) + 1) * 10 ^ (nd - n) ≤ 10 ^ nd := by
      constructor
      · exact le_trans down_ok.1 (Nat.mul_le_mul_right _ (Nat.le_succ _))
      · rw [hs]; exact Nat.mul_le_mul_right _ hdhi
    rcases shortestLoop_succ k N nd fuel n with ⟨e, c⟩ | ⟨e, c⟩ | ⟨e, c⟩
    · rw [e]
      exact ⟨pos_of_roundsTo k _ _ hk c, c, down_ok⟩
    · rw [e]
      exact ⟨Nat.succ_pos _, c, up_ok⟩
    · rw [e]
      by_cases hlast : n = nd
      · exfalso
        subst hlast
        simp only [Nat.sub_self, pow_zero, Nat.div_one] at c
        rw [show ((0 : Nat) : Int) = 0 by rfl] at c
        rw [hex] at c
        exact absurd c (by decide)
      · exact ih (n + 1) (by omega) (by omega)

theorem exact_rounds (k : Nat) (hk : 0 < k) :
    roundsTo k (scale10 (floatScaled k * 5 ^ 1074) ((0 : Int) - 1074)).1
      (scale10 (floatScaled k * 5 ^ 1074) ((0 : Int) - 1074)).2 = true := by
  have := roundsTo_exact k hk
  have e1 : ((0 : Int) - 1074).toNat = 0 := by decide
  have e2 : (-((0 : Int) - 1074)).toNat = 1074 := by decide
  simp only [scale10, e1, e2, pow_zero, Nat.mul_one]
  exact this

section
set_option exponentiation.threshold 5000

theorem pow5_ge : 10 ^ 750 ≤ 5 ^ 1074 := by norm_num

theorem pow2_lt : 2 ^ 1024 < 10 ^ 309 := by norm_num

theorem floatScaled_infOrd : floatScaled infOrd = 2 ^ 2098 := by
  have : infOrd = 2047 * 2 ^ 52 + 0 := rfl
  rw [this, floatScaled_eq 2047 0 (by positivity)]
  norm_num

theorem floatScaled_lt_of_finite (k : Nat) (h : k < infOrd) : floatScaled k < 2 ^ 2098 := by
  rw [← floatScaled_infOrd]; exact floatScaled_strictMono h

theorem exactDecimal_bounds (k : Nat) (hk : 0 < k) (h : k < infOrd) :
    10 ^ 750 ≤ floatScaled k * 5 ^ 1074 ∧ floatScaled k * 5 ^ 1074 < 10 ^ 1383 := by
  have h1 := floatScaled_pos k hk
  have h2 := floatScaled_lt_of_finite k h
  constructor
  · calc 10 ^ 750 ≤ 5 ^ 1074 := pow5_ge
      _ = 1 * 5 ^ 1074 := by ring
      _ ≤ floatScaled k * 5 ^ 1074 := Nat.mul_le_mul_right _ h1
  · calc floatScaled k * 5 ^ 1074 < 2 ^ 2098 * 5 ^ 1074 :=
        Nat.mul_lt_mul_of_pos_right h2 (by positivity)
      _ = 2 ^ 1024 * 10 ^ 1074 := by
        rw [show (10 : Nat) = 2 * 5 by rfl, mul_pow, show 2098 = 1024 + 1074 by rfl, pow_add]
        ring
      _ < 10 ^ 309 * 10 ^ 1074 := Nat.mul_lt_mul_of_pos_right pow2_lt (by positivity)
      _ = 10 ^ 1383 := by rw [← pow_add]

theorem pow10_le_imp {a b : Nat} (h : 10 ^ a ≤ 10 ^ b) : a ≤ b := by
  by_contra hc
  have : 10 ^ b < 10 ^ a := Nat.pow_lt_pow_right (by decide) (by omega)
  omega

theorem pow10_lt_imp {a b : Nat} (h : 10 ^ a < 10 ^ b) : a < b := by
  by_contra hc
  have : 10 ^ b ≤ 10 ^ a := Nat.pow_le_pow_right (by decide) (by omega)
  omega

/-- The digits `roundShortest` returns: a non-empty digit list with no leading zero whose
decimal rounds to the float, with the decimal point within the float64 range. -/
theorem roundShortest_spec (k : Nat) (hk : 0 < k) (hfin : k < infOrd) :
    (roundShortest k).1 ≠ [] ∧ (∀ d ∈ (roundShortest k).1, d < 10) ∧
    (roundShortest k).1.head? ≠ some 0 ∧
    roundsTo k
      (scale10 (digitsVal (roundShortest k).1)
        ((roundShortest k).2 - ((roundShortest k).1.length : Int))).1
      (scale10 (digitsVal (roundShortest k).1)
        ((roundShortest k).2 - ((roundShortest k).1.length : Int))).2 = true ∧
    -323 ≤ (roundShortest k).2 ∧ (roundShortest k).2 ≤ 310 := by
  obtain ⟨hN1, hN2⟩ := exactDecimal_bounds k hk hfin
  generalize hN : floatScaled k * 5 ^ 1074 = N at hN1 hN2
  have hNpos : 0 < N := lt_of_lt_of_le (by positivity) hN1
  obtain ⟨hlo, hhi⟩ := decDigits_length_bounds N hNpos
  have hnd1 : 751 ≤ (decDigits N).length := decDigits_length_ge N 750 hN1
  have hnd2 : (decDigits N).length ≤ 1383 := decDigits_length_le N 1383 hN2 hNpos
  generalize hnd : (decDigits N).length = nd at hlo hhi hnd1 hnd2
  have hex := exact_rounds k hk
  rw [hN] at hex
  obtain ⟨r1, r2, r3, r4⟩ := shortestLoop_spec k N nd hk hex hlo hhi nd 1 (le_refl _) (by omega)
  generalize hr : shortestLoop k N nd nd 1 = r at r1 r2 r3 r4
  obtain ⟨t1, t2⟩ := trimZeros_spec nd r.1 r.2 r1
  generalize ht : trimZeros nd r.1 r.2 = t at t1 t2
  obtain ⟨d1, d2, d3, d4⟩ := decDigits_spec t.1
  obtain ⟨b1, b2⟩ := decDigits_length_bounds t.1 t1
  have e : roundShortest k =
      (decDigits t.1, ((decDigits t.1).length : Int) + (t.2 : Int) - 1074) := by
    simp only [roundShortest, hN, hnd, hr, ht]
  rw [e]
  simp only
  refine ⟨d3, d2, d4 t1, ?_, ?_, ?_⟩
  · rw [d1]
    have : ((decDigits t.1).length : Int) + (t.2 : Int) - 1074 - ((decDigits t.1).length : Int)
        = (t.2 : Int) - (1074 : Nat) := by push_cast; ring
    rw [this, roundsTo_scale10_congr k t.1 r.1 t.2 r.2 1074 t2]
    exact r2
  · -- lower bound on the decimal point
    have h1 : 10 ^ (nd - 1) < 10 ^ ((decDigits t.1).length + t.2) := by
      calc 10 ^ (nd - 1) ≤ r.1 * 10 ^ r.2 := r3
        _ = t.1 * 10 ^ t.2 := t2.symm
        _ < 10 ^ (decDigits t.1).length * 10 ^ t.2 :=
          Nat.mul_lt_mul_of_pos_right b2 (by positivity)
        _ = _ := by rw [← pow_add]
    have := pow10_lt_imp h1
    omega
  · have h1 : 10 ^ ((decDigits t.1).length - 1 + t.2) ≤ 10 ^ nd := by
      calc 10 ^ ((decDigits t.1).length - 1 + t.2)
          = 10 ^ ((decDigits t.1).length - 1) * 10 ^ t.2 := by rw [pow_add]
        _ ≤ t.1 * 10 ^ t.2 := Nat.mul_le_mul_right _ b1
        _ = r.1 * 10 ^ r.2 := t2
        _ ≤ 10 ^ nd := r4
    have := pow10_le_imp h1
    have := decDigits_length_pos t.1
    omega

end

/-! ## Number literals -/

theorem isDigit_digit (d : Nat) (h : d < 10) : isDigit (0x30 + d) = true := by
  simp [isDigit]; omega

theorem readDigits_digitChars (ds : List Nat) (hd : ∀ d ∈ ds, d < 10) (rest : Bytes)
    (hr : noDigitHead rest) : ∀ acc n : Nat,
    readDigits (digitChars ds ++ rest) acc n =
      (acc * 10 ^ ds.length + digitsVal ds, n + ds.length, rest) := by
  induction ds with
  | nil =>
    intro acc n
    cases rest with
    | nil => simp [digitChars, readDigits, digitsVal]
    | cons c t => simp [digitChars, readDigits, digitsVal, hr c t rfl]
  | cons d ds ih =>
    intro acc n
    have hd0 : d < 10 := hd d (by simp)
    have := ih (fun x hx => hd x (by simp [hx])) (acc * 10 + d) (n + 1)
    show readDigits ((0x30 + d) :: (digitChars ds ++ rest)) acc n = _
    rw [readDigits, if_pos (isDigit_digit d hd0), Nat.add_sub_cancel_left, this, digitsVal_cons]
    simp only [List.length_cons, pow_succ, Prod.mk.injEq, and_true]
    constructor
    · ring
    · omega

theorem readExp_digitChars (ds : List Nat) (hd : ∀ d ∈ ds, d < 10) : ∀ e : Nat,
    (e + 1) * 10 ^ ds.length ≤ 100000 →
    readExp (digitChars ds) e = e * 10 ^ ds.length + digitsVal ds := by
  induction ds with
  | nil => intro e _; simp [digitChars, readExp, digitsVal]
  | cons d ds ih =>
    intro e he
    have hd0 : d < 10 := hd d (by simp)
    have hp : 0 < 10 ^ ds.length := by positivity
    have he1 : e < 10000 := by
      rw [List.length_cons, pow_succ] at he
      by_contra hc
      have : (10000 + 1) * (10 ^ ds.length * 10) ≤ (e + 1) * (10 ^ ds.length * 10) :=
        Nat.mul_le_mul_right _ (by omega)
      omega
    have he2 : (e * 10 + d + 1) * 10 ^ ds.length ≤ 100000 := by
      rw [List.length_cons, pow_succ] at he
      have : (e * 10 + d + 1) * 10 ^ ds.length ≤ (e + 1) * 10 * 10 ^ ds.length :=
        Nat.mul_le_mul_right _ (by omega)
      have e3 : (e + 1) * 10 * 10 ^ ds.length = (e + 1) * (10 ^ ds.length * 10) := by ring
      omega
    have := ih (fun x hx => hd x (by simp [hx])) (e * 10 + d) he2
    simp only [digitChars, List.map_cons, readExp, isDigit_digit d hd0, if_true, he1,
      Nat.add_sub_cancel_left] at this ⊢
    rw [this, digitsVal_cons]
    simp only [List.length_cons, pow_succ]
    ring

theorem noDigitHead_nil : noDigitHead [] := by intro c t h; cases h

theorem noDigitHead_cons (c : Nat) (t : Bytes) (h : isDigit c = false) : noDigitHead (c :: t) := by
  intro c' t' e; cases e; exact h

theorem noDigitHead_renderExp (e : Option (Bool × List Nat)) : noDigitHead (renderExp e) := by
  cases e with
  | none => exact noDigitHead_nil
  | some x => obtain ⟨en, ds⟩ := x; exact noDigitHead_cons _ _ (by decide)

theorem readExpPart_renderExp (e : Option (Bool × List Nat))
    (h : ∀ en ds, e = some (en, ds) → ds ≠ [] ∧ ds.length ≤ 3 ∧ ∀ d ∈ ds, d < 10) :
    readExpPart (renderExp e) = expIntOf e := by
  cases e with
  | none => simp [renderExp, readExpPart, expIntOf]
  | some x =>
    obtain ⟨en, ds⟩ := x
    obtain ⟨h1, h2, h3⟩ := h en ds rfl
    have hb : (0 + 1) * 10 ^ ds.length ≤ 100000 := by
      have : 10 ^ ds.length ≤ 10 ^ 3 := Nat.pow_le_pow_right (by decide) h2
      omega
    have hr := readExp_digitChars ds h3 0 hb
    simp only [Nat.zero_mul, Nat.zero_add] at hr
    cases en with
    | true => simp [renderExp, readExpPart, hr, expIntOf]
    | false => simp [renderExp, readExpPart, hr, expIntOf]

/-- Reading the text of a literal gives back the value of its parts. -/
theorem readUnsigned_render (p : NumParts) (hp : p.wf) :
    readUnsigned (renderUnsigned p) =
      scale10 (digitsVal (p.int ++ p.frac)) (p.expInt - (p.frac.length : Int)) := by
  obtain ⟨h1, h2, h3, h4, h5⟩ := hp
  unfold readUnsigned renderUnsigned
  by_cases hf : p.frac = []
  · have hnd : noDigitHead (([] : Bytes) ++ renderExp p.exp) := by
      simpa using noDigitHead_renderExp p.exp
    rw [if_pos hf, readDigits_digitChars p.int h2 _ hnd 0 0]
    simp only [List.nil_append, Nat.zero_mul, Nat.zero_add]
    have : readFrac (digitsVal p.int) (renderExp p.exp) =
        (digitsVal p.int, 0, renderExp p.exp) := by
      cases he : p.exp with
      | none => simp [renderExp, readFrac]
      | some x => obtain ⟨en, ds⟩ := x; simp [renderExp, readFrac]
    rw [this]
    simp only [readExpPart_renderExp p.exp h5, hf, List.append_nil, List.length_nil,
      NumParts.expInt]
  · have hnd : noDigitHead ((0x2E :: digitChars p.frac) ++ renderExp p.exp) :=
      noDigitHead_cons _ _ (by decide)
    rw [if_neg hf, readDigits_digitChars p.int h2 _ hnd 0 0]
    simp only [List.cons_append, Nat.zero_mul, Nat.zero_add, readFrac]
    rw [readDigits_digitChars p.frac h4 _ (noDigitHead_renderExp p.exp)]
    simp only [readExpPart_renderExp p.exp h5, NumParts.expInt, Nat.zero_add,
      digitsVal_append]

theorem digitChars_head_ne (ds : List Nat) (hd : ∀ d ∈ ds, d < 10) (rest : Bytes) (x : Nat)
    (hx : x < 0x30 ∨ 0x39 < x) (hne : ds ≠ []) : (digitChars ds ++ rest).head? ≠ some x := by
  cases ds with
  | nil => exact absurd rfl hne
  | cons d ds =>
    have := hd d (by simp)
    simp [digitChars]; omega

theorem readFloat_render (p : NumParts) (hp : p.wf) :
    readFloat (renderNum p) =
      ⟨p.neg, (scale10 (digitsVal (p.int ++ p.frac)) (p.expInt - (p.frac.length : Int))).1,
        (scale10 (digitsVal (p.int ++ p.frac)) (p.expInt - (p.frac.length : Int))).2⟩ := by
  unfold renderNum
  cases hn : p.neg with
  | true =>
    simp only [if_true, List.singleton_append, readFloat]
    rw [readUnsigned_render p hp]
  | false =>
    simp only [Bool.false_eq_true, if_false, List.nil_append]
    have hu := readUnsigned_render p hp
    obtain ⟨h1, h2, _⟩ := hp
    unfold renderUnsigned at hu ⊢
    cases hi : p.int with
    | nil => exact absurd hi h1
    | cons d ds =>
      rw [hi] at hu
      have hd : d < 10 := h2 d (by simp [hi])
      simp only [digitChars, List.map_cons, List.cons_append] at hu ⊢
      have hne : 0x30 + d ≠ 0x2D := by omega
      unfold readFloat
      split
      · rename_i t heq
        injection heq with h1 _
        exact absurd h1 hne
      · rw [hu]

/-! ## The text of a formatted float -/

theorem expDigits_spec (a : Nat) (h : a < 1000) :
    expDigits a ≠ [] ∧ (expDigits a).length ≤ 3 ∧ (∀ d ∈ expDigits a, d < 10) ∧
      digitsVal (expDigits a) = a := by
  unfold expDigits
  split_ifs
  · refine ⟨by simp, by simp, by simp; omega, by simp [digitsVal]⟩
  · refine ⟨by simp, by simp, ?_, ?_⟩
    · intro d hd; simp at hd; omega
    · simp [digitsVal]; omega
  · refine ⟨by simp, by simp, ?_, ?_⟩
    · intro d hd; simp at hd; omega
    · simp [digitsVal]; omega

theorem digitChars_append (a b : List Nat) : digitChars (a ++ b) = digitChars a ++ digitChars b := by
  simp [digitChars]

theorem digitChars_replicate (n : Nat) : digitChars (List.replicate n 0) = List.replicate n 0x30 := by
  simp [digitChars]

theorem cleanExp_tail (X : Bytes) (sg a : Nat) (hsg : sg = 0x2D ∨ sg = 0x2B) :
    cleanExp (X ++ [0x65, sg] ++
      (if a < 10 then [0x30, 0x30 + a]
       else if a < 100 then [0x30 + a / 10, 0x30 + a % 10]
       else [0x30 + a / 100, 0x30 + a / 10 % 10, 0x30 + a % 10])) =
      X ++ (0x65 :: sg :: digitChars (expDigits a)) := by
  unfold expDigits
  by_cases h1 : a < 10
  · simp only [h1, if_true]
    unfold cleanExp
    simp [digitChars, hsg]
  · by_cases h2 : a < 100
    · simp only [h1, h2, if_true, if_false]
      unfold cleanExp
      have : ¬ (48 + a / 10 = 48) := by omega
      simp [digitChars, this]
    · simp only [h1, h2, if_false]
      unfold cleanExp
      have : ¬ (sg = 101) := by rcases hsg with h | h <;> omega
      simp [digitChars, this]

/-- `%e` after the clean-up of the encoder. -/
theorem cleanExp_fmtE (ds : List Nat) (dp : Int) :
    cleanExp (fmtE ds dp) =
      digitChars (ds.take 1) ++ ((if ds.drop 1 = [] then [] else 0x2E :: digitChars (ds.drop 1)) ++
        renderExp (some (decide (dp - 1 < 0), expDigits (dp - 1).natAbs))) := by
  have hfrac : (if 1 < ds.length then 0x2E :: digitChars (ds.drop 1) else []) =
      (if ds.drop 1 = [] then [] else 0x2E :: digitChars (ds.drop 1)) := by
    by_cases h : 1 < ds.length
    · have : ds.drop 1 ≠ [] := by
        intro e; have := congrArg List.length e; simp at this; omega
      rw [if_pos h, if_neg this]
    · have : ds.drop 1 = [] := by
        apply List.eq_nil_of_length_eq_zero; simp; omega
      rw [if_neg h, if_pos this]
  have hsgv : (if dp - 1 < 0 then (0x2D : Nat) else 0x2B) = 0x2D ∨
      (if dp - 1 < 0 then (0x2D : Nat) else 0x2B) = 0x2B := by
    split_ifs <;> simp
  have hsg' : (if decide (dp - 1 < 0) = true then (0x2D : Nat) else 0x2B) =
      (if dp - 1 < 0 then (0x2D : Nat) else 0x2B) := by simp
  unfold fmtE
  simp only [hfrac]
  rw [cleanExp_tail _ _ _ hsgv]
  simp only [renderExp, hsg', List.append_assoc]

theorem take_append_drop_val (ds : List Nat) (n : Nat) :
    digitsVal (ds.take n ++ ds.drop n) = digitsVal ds := by
  rw [List.take_append_drop]

theorem partsE_wf (neg : Bool) (ds : List Nat) (dp : Int) (h1 : ds ≠ [])
    (h2 : ∀ d ∈ ds, d < 10) (h3 : ds.head? ≠ some 0) (h4 : (dp - 1).natAbs < 1000) :
    (partsE neg ds dp).wf := by
  obtain ⟨e1, e2, e3, _⟩ := expDigits_spec _ h4
  cases ds with
  | nil => exact absurd rfl h1
  | cons d ds =>
    refine ⟨by simp [partsE], ?_, ?_, ?_, ?_⟩
    · intro x hx; simp [partsE] at hx; subst hx; exact h2 _ (by simp)
    · right; simpa [partsE] using h3
    · intro x hx; simp [partsE] at hx; exact h2 x (by simp [hx])
    · intro en es he
      simp only [partsE, Option.some.injEq, Prod.mk.injEq] at he
      obtain ⟨_, rfl⟩ := he
      exact ⟨e1, e2, e3⟩

theorem partsE_value (neg : Bool) (ds : List Nat) (dp : Int) (h1 : ds ≠ [])
    (h4 : (dp - 1).natAbs < 1000) :
    (partsE neg ds dp).value = scale10 (digitsVal ds) (dp - (ds.length : Int)) := by
  obtain ⟨_, _, _, e4⟩ := expDigits_spec _ h4
  have hl : 1 ≤ ds.length := List.length_pos.mpr h1
  simp only [NumParts.value, partsE, NumParts.expInt, expIntOf, List.take_append_drop, e4,
    List.length_drop]
  congr 1
  by_cases h : dp - 1 < 0
  · simp only [h, decide_True, if_true]; omega
  · simp only [h, decide_False, Bool.false_eq_true, if_false]; omega

theorem partsE_render (neg : Bool) (ds : List Nat) (dp : Int) :
    renderNum (partsE neg ds dp) = (if neg then [0x2D] else []) ++ cleanExp (fmtE ds dp) := by
  rw [cleanExp_fmtE]
  simp [renderNum, renderUnsigned, partsE]

theorem partsF_wf (neg : Bool) (ds : List Nat) (dp : Int) (h1 : ds ≠ [])
    (h2 : ∀ d ∈ ds, d < 10) (h3 : ds.head? ≠ some 0) : (partsF neg ds dp).wf := by
  unfold partsF
  split_ifs with h
  · have hn : 1 ≤ dp.toNat := by omega
    cases ds with
    | nil => exact absurd rfl h1
    | cons d ds =>
      obtain ⟨n, hn'⟩ : ∃ n, dp.toNat = n + 1 := ⟨dp.toNat - 1, by omega⟩
      refine ⟨by simp [hn'], ?_, ?_, ?_, by simp⟩
      · intro x hx
        rcases List.mem_append.mp hx with hx | hx
        · exact h2 x (List.mem_of_mem_take hx)
        · simp at hx; omega
      · right; simpa [hn'] using h3
      · intro x hx; exact h2 x (List.mem_of_mem_drop hx)
  · refine ⟨by simp, by simp, Or.inl rfl, ?_, by simp⟩
    intro x hx
    rcases List.mem_append.mp hx with hx | hx
    · simp at hx; omega
    · exact h2 x hx

theorem partsF_render (neg : Bool) (ds : List Nat) (dp : Int) (h1 : ds ≠ []) :
    renderNum (partsF neg ds dp) = (if neg then [0x2D] else []) ++ fmtF ds dp := by
  unfold partsF fmtF
  by_cases h : 0 < dp
  · simp only [h, if_true, renderNum, renderUnsigned, renderExp, List.append_nil,
      digitChars_append, digitChars_replicate]
    have hz : (-dp).toNat = 0 := by omega
    by_cases h2 : dp < (ds.length : Int)
    · have : ds.drop dp.toNat ≠ [] := by
        intro e; have := congrArg List.length e; simp at this; omega
      simp [h2, this, hz]
    · have : ds.drop dp.toNat = [] := by
        apply List.eq_nil_of_length_eq_zero; simp; omega
      simp [h2, this]
  · have hl : 1 ≤ ds.length := List.length_pos.mpr h1
    have hd : dp < (ds.length : Int) := by omega
    have ht : dp.toNat = 0 := by omega
    simp only [h, if_false, hd, if_true, ht, List.drop_zero, renderNum, renderUnsigned,
      renderExp, List.append_nil, digitChars_append, digitChars_replicate]
    by_cases hne : List.replicate (-dp).toNat 0 ++ ds = []
    · exact absurd (List.append_eq_nil.mp hne).2 h1
    · simp [hne, digitChars]

theorem partsF_value (neg : Bool) (ds : List Nat) (dp : Int) (k : Nat) :
    roundsTo k (partsF neg ds dp).value.1 (partsF neg ds dp).value.2 =
      roundsTo k (scale10 (digitsVal ds) (dp - (ds.length : Int))).1
        (scale10 (digitsVal ds) (dp - (ds.length : Int))).2 := by
  unfold partsF
  by_cases h : 0 < dp
  · simp only [h, if_true, NumParts.value, NumParts.expInt, expIntOf]
    by_cases h2 : dp.toNat < ds.length
    · have hz : dp.toNat - ds.length = 0 := by omega
      simp only [hz, List.replicate_zero, List.append_nil, List.take_append_drop,
        List.length_drop]
      congr 3 <;> omega
    · have ht : ds.take dp.toNat = ds := List.take_of_length_le (by omega)
      have hd : ds.drop dp.toNat = [] := List.drop_of_length_le (by omega)
      simp only [ht, hd, List.append_nil, List.length_nil, digitsVal_append,
        digitsVal_replicate_zero, List.length_replicate, Nat.add_zero]
      have e : dp - (ds.length : Int) = ((dp.toNat - ds.length : Nat) : Int) := by omega
      rw [e]
      simp [scale10]
  · simp only [h, if_false, NumParts.value, NumParts.expInt, expIntOf]
    have e1 : digitsVal ([0] ++ (List.replicate (-dp).toNat 0 ++ ds)) = digitsVal ds := by
      rw [digitsVal_append, digitsVal_append, digitsVal_replicate_zero]
      simp [digitsVal]
    rw [e1]
    congr 3 <;> (simp only [List.length_append, List.length_replicate]; omega)

theorem midScaled_one_pos : 0 < midScaled 1 := by
  have := floatScaled_pos 1 (by decide)
  unfold midScaled; omega

theorem roundOrd_zero : roundOrd 0 1 = 0 := by
  apply roundOrd_eq 0 1 0 (by decide) (by positivity)
  have : roundsAtLeast 0 1 (0 + 1) = false := by
    simp [roundsAtLeast]
  simp [roundsTo, this]

theorem infOrd_lt : infOrd < 2 ^ 63 := by decide

/-- Every formatted float is the text of well-formed number parts whose value rounds back to
the float. -/
theorem formatFloat_parts (neg : Bool) (k : Nat) (hfin : k < infOrd) :
    ∃ p : NumParts, p.wf ∧ formatFloat neg k = renderNum p ∧ p.neg = neg ∧
      roundOrd p.value.1 p.value.2 = k := by
  by_cases hk : k = 0
  · subst hk
    refine ⟨⟨neg, [0], [], none⟩, ⟨by simp, by simp, Or.inl rfl, by simp, by simp⟩, ?_, rfl, ?_⟩
    · simp [formatFloat, renderNum, renderUnsigned, renderExp, digitChars]
    · simp only [NumParts.value, NumParts.expInt, expIntOf, List.append_nil, List.length_nil]
      have : scale10 (digitsVal [0]) ((0 : Int) - ((0 : Nat) : Int)) = (0, 1) := by
        simp [scale10, digitsVal]
      rw [this]
      exact roundOrd_zero
  · have hpos : 0 < k := Nat.pos_of_ne_zero hk
    obtain ⟨s1, s2, s3, s4, s5, s6⟩ := roundShortest_spec k hpos hfin
    have hk63 : k < 2 ^ 63 := lt_trans hfin infOrd_lt
    by_cases hE : k < ord1em6 ∨ ord1e21 ≤ k
    · have ha : ((roundShortest k).2 - 1).natAbs < 1000 := by omega
      refine ⟨partsE neg (roundShortest k).1 (roundShortest k).2,
        partsE_wf neg _ _ s1 s2 s3 ha, ?_, rfl, ?_⟩
      · rw [partsE_render]
        simp [formatFloat, hk, hE]
      · rw [partsE_value neg _ _ s1 ha]
        exact roundOrd_eq _ _ k (scale10_den_pos _ _) hk63 s4
    · refine ⟨partsF neg (roundShortest k).1 (roundShortest k).2,
        partsF_wf neg _ _ s1 s2 s3, ?_, ?_, ?_⟩
      · rw [partsF_render neg _ _ s1]
        simp [formatFloat, hk, hE]
      · unfold partsF; split_ifs <;> rfl
      · apply roundOrd_eq _ _ k ?_ hk63
        · rw [partsF_value]; exact s4
        · unfold NumParts.value; exact scale10_den_pos _ _

/-- `strconv.ParseFloat` reads back what the encoder wrote for a finite float64. -/
theorem ParseFloat_formatFloat (neg : Bool) (k : Nat) (hfin : k < infOrd) :
    ParseFloat (formatFloat neg k) = some (Float64.finite neg k) := by
  obtain ⟨p, hp, he, hn, hv⟩ := formatFloat_parts neg k hfin
  unfold ParseFloat
  rw [he, readFloat_render p hp]
  simp only
  have : roundOrd (scale10 (digitsVal (p.int ++ p.frac)) (p.expInt - (p.frac.length : Int))).1
      (scale10 (digitsVal (p.int ++ p.frac)) (p.expInt - (p.frac.length : Int))).2 = k := hv
  rw [this, if_pos hfin, hn]

/-! ## The scanner over a number literal -/

theorem endNumber_mode (raw : Bytes) (m1 m2 : Mode) (st : List Frame) (res : Option Value)
    (sv : Bool) : endNumber raw ⟨m1, st, res, sv⟩ = endNumber raw ⟨m2, st, res, sv⟩ := by
  unfold endNumber
  generalize ParseFloat raw = r
  cases r <;> rfl

theorem run_e0_digits (limit : Option Nat) (ds : List Nat) (hd : ∀ d ∈ ds, d < 10) :
    ∀ (raw rest : Bytes) (st : List Frame) (res : Option Value) (sv : Bool),
    run limit ⟨.e0 raw, st, res, sv⟩ (digitChars ds ++ rest) =
      run limit ⟨.e0 (raw ++ digitChars ds), st, res, sv⟩ rest := by
  induction ds with
  | nil => intro raw rest st res sv; simp [digitChars]
  | cons d ds ih =>
    intro raw rest st res sv
    have h := isDigit_digit d (hd d (by simp))
    have := ih (fun x hx => hd x (by simp [hx])) (raw ++ [0x30 + d]) rest st res sv
    simp only [digitChars, List.map_cons, List.cons_append, run_cons, step, h, if_true,
      Option.some_bind] at this ⊢
    rw [this]; simp

theorem run_dot0_digits (limit : Option Nat) (ds : List Nat) (hd : ∀ d ∈ ds, d < 10) :
    ∀ (raw rest : Bytes) (st : List Frame) (res : Option Value) (sv : Bool),
    run limit ⟨.dot0 raw, st, res, sv⟩ (digitChars ds ++ rest) =
      run limit ⟨.dot0 (raw ++ digitChars ds), st, res, sv⟩ rest := by
  induction ds with
  | nil => intro raw rest st res sv; simp [digitChars]
  | cons d ds ih =>
    intro raw rest st res sv
    have h := isDigit_digit d (hd d (by simp))
    have := ih (fun x hx => hd x (by simp [hx])) (raw ++ [0x30 + d]) rest st res sv
    simp only [digitChars, List.map_cons, List.cons_append, run_cons, step, h, if_true,
      Option.some_bind] at this ⊢
    rw [this]; simp

theorem run_s1_digits (limit : Option Nat) (ds : List Nat) (hd : ∀ d ∈ ds, d < 10) :
    ∀ (raw rest : Bytes) (st : List Frame) (res : Option Value) (sv : Bool),
    run limit ⟨.s1 raw, st, res, sv⟩ (digitChars ds ++ rest) =
      run limit ⟨.s1 (raw ++ digitChars ds), st, res, sv⟩ rest := by
  induction ds with
  | nil => intro raw rest st res sv; simp [digitChars]
  | cons d ds ih =>
    intro raw rest st res sv
    have h := isDigit_digit d (hd d (by simp))
    have := ih (fun x hx => hd x (by simp [hx])) (raw ++ [0x30 + d]) rest st res sv
    simp only [digitChars, List.map_cons, List.cons_append, run_cons, step, h, if_true,
      Option.some_bind] at this ⊢
    rw [this]; simp

/-- The end of the literal: the byte after it completes the number. -/
theorem run_number_end (limit : Option Nat) (m : Mode) (raw : Bytes) (hm : pastMantissa m raw ∨ m = .e0 raw)
    (c : Nat) (hc : endsNumber c) (rest : Bytes) (st : List Frame) (res : Option Value)
    (sv : Bool) :
    run limit ⟨m, st, res, sv⟩ (c :: rest) =
      ((endNumber raw ⟨.endValue, st, res, sv⟩).bind (stepEndValue · c)).bind (run limit · rest) := by
  obtain ⟨h1, h2, h3, h4⟩ := hc
  rcases hm with (rfl | rfl | rfl) | rfl
  · simp only [run_cons, step, step0, h2, h3, h4, if_false, or_self]
    rw [endNumber_mode raw _ .endValue]
  · simp only [run_cons, step, step0, h1, h2, h3, h4, if_false, or_self, Bool.false_eq_true]
    rw [endNumber_mode raw _ .endValue]
  · simp only [run_cons, step, h1, h3, h4, if_false, or_self, Bool.false_eq_true]
    rw [endNumber_mode raw _ .endValue]
  · simp only [run_cons, step, h1, if_false, Bool.false_eq_true]
    rw [endNumber_mode raw _ .endValue]

/-- From the end of the mantissa through the exponent to the end of the literal. -/
theorem run_number_exp (limit : Option Nat) (m : Mode) (raw : Bytes) (hm : pastMantissa m raw)
    (e : Option (Bool × List Nat))
    (he : ∀ en ds, e = some (en, ds) → ds ≠ [] ∧ ds.length ≤ 3 ∧ ∀ d ∈ ds, d < 10)
    (c : Nat) (hc : endsNumber c) (rest : Bytes) (st : List Frame) (res : Option Value)
    (sv : Bool) :
    run limit ⟨m, st, res, sv⟩ (renderExp e ++ c :: rest) =
      ((endNumber (raw ++ renderExp e) ⟨.endValue, st, res, sv⟩).bind (stepEndValue · c)).bind
        (run limit · rest) := by
  cases e with
  | none =>
    simp only [renderExp, List.nil_append, List.append_nil]
    exact run_number_end limit m raw (Or.inl hm) c hc rest st res sv
  | some x =>
    obtain ⟨en, ds⟩ := x
    obtain ⟨h1, _, h3⟩ := he en ds rfl
    cases ds with
    | nil => exact absurd rfl h1
    | cons d ds =>
      have hd := isDigit_digit d (h3 d (by simp))
      have hds : ∀ x ∈ ds, x < 10 := fun x hx => h3 x (by simp [hx])
      have key : ∀ sgn : Nat, (sgn = 0x2D ∨ sgn = 0x2B) →
          run limit ⟨m, st, res, sv⟩
            ((0x65 :: sgn :: digitChars (d :: ds)) ++ c :: rest) =
          ((endNumber (raw ++ (0x65 :: sgn :: digitChars (d :: ds)))
            ⟨.endValue, st, res, sv⟩).bind (stepEndValue · c)).bind (run limit · rest) := by
        intro sgn hs
        have hs' : sgn = 0x2B ∨ sgn = 0x2D := hs.symm
        have e1 : run limit ⟨m, st, res, sv⟩ ((0x65 :: sgn :: digitChars (d :: ds)) ++ c :: rest)
            = run limit ⟨.e0 (raw ++ [0x65] ++ [sgn] ++ [0x30 + d]), st, res, sv⟩
                (digitChars ds ++ c :: rest) := by
          have hd2 : 48 + d ≤ 57 := by have := h3 d (by simp); omega
          rcases hm with rfl | rfl | rfl
          · simp [digitChars, run_cons, step, step0, stepESign, hs', hd]
          · simp [digitChars, run_cons, step, step0, stepESign, hs', hd2, isDigit]
          · simp [digitChars, run_cons, step, stepESign, hs', hd2, isDigit]
        rw [e1, run_e0_digits limit ds hds,
          run_number_end limit _ _ (Or.inr rfl) c hc rest st res sv]
        simp [digitChars]
      cases en with
      | true => simpa [renderExp] using key 0x2D (Or.inl rfl)
      | false => simpa [renderExp] using key 0x2B (Or.inr rfl)

/-- From the end of the integer part to the end of the literal. -/
theorem run_number_frac (limit : Option Nat) (m : Mode) (raw : Bytes)
    (hm : m = .s0 raw ∨ m = .s1 raw) (frac : List Nat) (hf : ∀ d ∈ frac, d < 10)
    (e : Option (Bool × List Nat))
    (he : ∀ en ds, e = some (en, ds) → ds ≠ [] ∧ ds.length ≤ 3 ∧ ∀ d ∈ ds, d < 10)
    (c : Nat) (hc : endsNumber c) (rest : Bytes) (st : List Frame) (res : Option Value)
    (sv : Bool) :
    run limit ⟨m, st, res, sv⟩
        (((if frac = [] then [] else 0x2E :: digitChars frac) ++ renderExp e) ++ c :: rest) =
      ((endNumber (raw ++ ((if frac = [] then [] else 0x2E :: digitChars frac) ++ renderExp e))
        ⟨.endValue, st, res, sv⟩).bind (stepEndValue · c)).bind (run limit · rest) := by
  by_cases h : frac = []
  · simp only [h, if_true, List.nil_append]
    exact run_number_exp limit m raw (by rcases hm with h | h <;> simp [pastMantissa, h]) e he
      c hc rest st res sv
  · simp only [h, if_false]
    cases frac with
    | nil => exact absurd rfl h
    | cons d ds =>
      have hd := isDigit_digit d (hf d (by simp))
      have hds : ∀ x ∈ ds, x < 10 := fun x hx => hf x (by simp [hx])
      have e1 : run limit ⟨m, st, res, sv⟩
          (((0x2E :: digitChars (d :: ds)) ++ renderExp e) ++ c :: rest)
          = run limit ⟨.dot0 (raw ++ [0x2E] ++ [0x30 + d]), st, res, sv⟩
              (digitChars ds ++ (renderExp e ++ c :: rest)) := by
        have hd2 : 48 + d ≤ 57 := by have := hf d (by simp); omega
        rcases hm with rfl | rfl
        · simp [digitChars, run_cons, step, step0, hd]
        · simp [digitChars, run_cons, step, step0, hd2, isDigit]
      rw [e1, run_dot0_digits limit ds hds,
        run_number_exp limit _ _ (Or.inr (Or.inr rfl)) e he c hc rest st res sv]
      simp [digitChars]

theorem stepBeginValue_digit (limit : Option Nat) (m : Mode) (d : Nat) (h1 : 1 ≤ d)
    (h2 : d < 10) (st : List Frame) (res : Option Value) (sv : Bool) :
    stepBeginValue limit ⟨m, st, res, sv⟩ (0x30 + d) = some ⟨.s1 [0x30 + d], st, res, sv⟩ := by
  have a0 : isSpace (0x30 + d) = false := by simp [isSpace]; omega
  have a1 : ¬ (0x30 + d = 0x7B) := by omega
  have a2 : ¬ (0x30 + d = 0x5B) := by omega
  have a3 : ¬ (0x30 + d = 0x22) := by omega
  have a4 : ¬ (0x30 + d = 0x2D) := by omega
  have a5 : ¬ (0x30 + d = 0x30) := by omega
  have a6 : ¬ (0x30 + d = 0x74) := by omega
  have a7 : ¬ (0x30 + d = 0x66) := by omega
  have a8 : ¬ (0x30 + d = 0x6E) := by omega
  have a9 : 0x31 ≤ 0x30 + d ∧ 0x30 + d ≤ 0x39 := by omega
  simp only [stepBeginValue, a0, a1, a2, a3, a4, a5, a6, a7, a8, a9, if_false, if_true,
    Bool.false_eq_true, and_self]

/-- The scanner over a whole number literal and the byte that ends it. -/
theorem run_number (limit : Option Nat) (p : NumParts) (hp : p.wf) (m : Mode)
    (hm : beginsValue m) (c : Nat) (hc : endsNumber c) (rest : Bytes) (st : List Frame)
    (res : Option Value) (sv : Bool) :
    run limit ⟨m, st, res, sv⟩ (renderNum p ++ c :: rest) =
      ((endNumber (renderNum p) ⟨.endValue, st, res, sv⟩).bind (stepEndValue · c)).bind
        (run limit · rest) := by
  obtain ⟨h1, h2, h3, h4, h5⟩ := hp
  -- the integer part, from the state after the sign
  have intPart : ∀ (m' : Mode) (sign : Bytes),
      (m' = .neg sign ∨ (beginsValue m' ∧ sign = [])) →
      run limit ⟨m', st, res, sv⟩ (renderUnsigned p ++ c :: rest) =
        ((endNumber (sign ++ renderUnsigned p) ⟨.endValue, st, res, sv⟩).bind
          (stepEndValue · c)).bind (run limit · rest) := by
    intro m' sign hm'
    unfold renderUnsigned
    cases hi : p.int with
    | nil => exact absurd hi h1
    | cons d ds =>
      rw [hi] at h2 h3
      have hd : d < 10 := h2 d (by simp)
      have hds : ∀ x ∈ ds, x < 10 := fun x hx => h2 x (by simp [hx])
      by_cases hz : d = 0
      · -- the integer part is the single digit 0
        subst hz
        have hnil : ds = [] := by
          rcases h3 with h | h
          · simpa using h
          · simp at h
        subst hnil
        have e1 : run limit ⟨m', st, res, sv⟩
            ((digitChars [0] ++ ((if p.frac = [] then [] else 0x2E :: digitChars p.frac) ++
              renderExp p.exp)) ++ c :: rest) =
            run limit ⟨.s0 (sign ++ [0x30]), st, res, sv⟩
              (((if p.frac = [] then [] else 0x2E :: digitChars p.frac) ++ renderExp p.exp) ++
                c :: rest) := by
          rcases hm' with rfl | ⟨hb | hb, rfl⟩
          · simp [digitChars, run_cons, step]
          · subst hb; simp [digitChars, run_cons, step, stepBeginValue, isSpace]
          · subst hb; simp [digitChars, run_cons, step, stepBeginValue, isSpace]
        rw [e1, run_number_frac limit _ _ (Or.inl rfl) p.frac h4 p.exp h5 c hc rest st res sv]
        simp [digitChars]
      · have hd1 : 0x31 ≤ 0x30 + d ∧ 0x30 + d ≤ 0x39 := by omega
        have e1 : run limit ⟨m', st, res, sv⟩
            ((digitChars (d :: ds) ++ ((if p.frac = [] then [] else 0x2E :: digitChars p.frac) ++
              renderExp p.exp)) ++ c :: rest) =
            run limit ⟨.s1 (sign ++ [0x30 + d]), st, res, sv⟩
              (digitChars ds ++ (((if p.frac = [] then [] else 0x2E :: digitChars p.frac) ++
                renderExp p.exp) ++ c :: rest)) := by
          have n1 : ¬ (0x30 + d = 0x30) := by omega
          rcases hm' with rfl | ⟨hb | hb, rfl⟩
          · simp [digitChars, run_cons, step, hd1, n1]
          · subst hb
            simp [digitChars, run_cons, step, stepBeginValue_digit limit _ d (by omega) hd]
          · subst hb
            have : isSpace (0x30 + d) = false := by simp [isSpace]; omega
            have n2 : ¬ (0x30 + d = 0x5D) := by omega
            simp [digitChars, run_cons, step, stepBeginValue_digit limit _ d (by omega) hd,
              this, n2]
        rw [e1, run_s1_digits limit ds hds,
          run_number_frac limit _ _ (Or.inr rfl) p.frac h4 p.exp h5 c hc rest st res sv]
        simp [digitChars]
  cases hn : p.neg with
  | true =>
    have er : renderNum p = 0x2D :: renderUnsigned p := by simp [renderNum, hn]
    rw [er]
    have e1 : run limit ⟨m, st, res, sv⟩ ((0x2D :: renderUnsigned p) ++ c :: rest) =
        run limit ⟨.neg [0x2D], st, res, sv⟩ (renderUnsigned p ++ c :: rest) := by
      rcases hm with rfl | rfl
      · simp [run_cons, step, stepBeginValue, isSpace]
      · simp [run_cons, step, stepBeginValue, isSpace]
    rw [e1, intPart _ [0x2D] (Or.inl rfl)]
    rfl
  | false =>
    have er : renderNum p = renderUnsigned p := by simp [renderNum, hn]
    rw [er, intPart m [] (Or.inr ⟨hm, rfl⟩)]
    rfl

/-! ## Decoding what the encoder wrote -/

theorem complete_mode (v : Value) (m1 m2 : Mode) (st : List Frame) (res : Option Value)
    (sv : Bool) : complete v ⟨m1, st, res, sv⟩ = complete v ⟨m2, st, res, sv⟩ := by
  unfold complete; rfl

theorem complete_endValue (v : Value) (d d1 : Decoder) (h : complete v d = some d1) :
    d1.mode = .endValue := by
  unfold complete at h
  split at h
  · injection h with h; subst h; rfl
  · injection h with h; subst h; rfl
  · injection h with h; subst h; rfl
  · simp at h

theorem step_endValue (limit : Option Nat) (d : Decoder) (c : Nat) (h : d.mode = .endValue) :
    step limit d c = stepEndValue d c := by
  unfold step; rw [h]

/-- After a value is complete the next byte is read by `stateEndValue`. -/
theorem complete_then (limit : Option Nat) (v : Value) (d : Decoder) (c : Nat) (rest : Bytes) :
    ((complete v d).bind (stepEndValue · c)).bind (run limit · rest) =
      (complete v d).bind (run limit · (c :: rest)) := by
  cases h : complete v d with
  | none => rfl
  | some d1 =>
    simp only [Option.some_bind, run_cons]
    rw [step_endValue limit d1 c (complete_endValue v d d1 h)]

theorem endsNumber_comma : endsNumber 0x2C := by unfold endsNumber; decide

theorem endsNumber_bracket : endsNumber 0x5D := by unfold endsNumber; decide

theorem endsNumber_brace : endsNumber 0x7D := by unfold endsNumber; decide

theorem endsNumber_space : endsNumber 0x20 := by unfold endsNumber; decide

/-- The scanner over the literal `null`, `true` or `false`. -/
theorem run_null (limit : Option Nat) (m : Mode) (hm : beginsValue m) (st : List Frame)
    (res : Option Value) (sv : Bool) (rest : Bytes) :
    run limit ⟨m, st, res, sv⟩ ([0x6E, 0x75, 0x6C, 0x6C] ++ rest) =
      (complete .null ⟨.endValue, st, res, sv⟩).bind (run limit · rest) := by
  rcases hm with rfl | rfl
  · simp only [List.cons_append, List.nil_append, run_cons, step, stepBeginValue]
    simp [isSpace]
    rw [complete_mode]
  · simp only [List.cons_append, List.nil_append, run_cons, step, stepBeginValue]
    simp [isSpace]
    rw [complete_mode]

theorem run_true (limit : Option Nat) (m : Mode) (hm : beginsValue m) (st : List Frame)
    (res : Option Value) (sv : Bool) (rest : Bytes) :
    run limit ⟨m, st, res, sv⟩ ([0x74, 0x72, 0x75, 0x65] ++ rest) =
      (complete (.bool true) ⟨.endValue, st, res, sv⟩).bind (run limit · rest) := by
  rcases hm with rfl | rfl
  · simp only [List.cons_append, List.nil_append, run_cons, step, stepBeginValue]
    simp [isSpace]
    rw [complete_mode]
  · simp only [List.cons_append, List.nil_append, run_cons, step, stepBeginValue]
    simp [isSpace]
    rw [complete_mode]

theorem run_false (limit : Option Nat) (m : Mode) (hm : beginsValue m) (st : List Frame)
    (res : Option Value) (sv : Bool) (rest : Bytes) :
    run limit ⟨m, st, res, sv⟩ ([0x66, 0x61, 0x6C, 0x73, 0x65] ++ rest) =
      (complete (.bool false) ⟨.endValue, st, res, sv⟩).bind (run limit · rest) := by
  rcases hm with rfl | rfl
  · simp only [List.cons_append, List.nil_append, run_cons, step, stepBeginValue]
    simp [isSpace]
    rw [complete_mode]
  · simp only [List.cons_append, List.nil_append, run_cons, step, stepBeginValue]
    simp [isSpace]
    rw [complete_mode]

/-- The scanner over a string literal written by `appendString`, in value position: the
value is the string with invalid UTF-8 replaced. -/
theorem run_appendString (limit : Option Nat) (m : Mode) (hm : beginsValue m) (s : Bytes)
    (st : List Frame) (hst : notKeyPos st) (res : Option Value) (sv : Bool) (rest : Bytes) :
    run limit ⟨m, st, res, sv⟩ (appendString s ++ rest) =
      (complete (.string (toValidUTF8 s 0)) ⟨.endValue, st, res, sv⟩).bind (run limit · rest) := by
  have e1 : run limit ⟨m, st, res, sv⟩ (appendString s ++ rest) =
      run limit ⟨.inString [], st, res, sv⟩ (appendStringLoop s 0 true ++ 0x22 :: rest) := by
    rcases hm with rfl | rfl
    · simp [appendString, run_cons, step, stepBeginValue, isSpace]
    · simp [appendString, run_cons, step, stepBeginValue, isSpace]
  rw [e1, run_string_body]
  have e2 : endString (appendStringLoop s 0 true)
      ⟨.inString (appendStringLoop s 0 true), st, res, sv⟩ =
      complete (.string (toValidUTF8 s 0)) ⟨.endValue, st, res, sv⟩ := by
    unfold endString
    rw [unquote_appendString]
    simp only
    split
    · exact absurd rfl (hst _ _)
    · exact complete_mode _ _ _ _ _ _
  rw [e2]

/-- The scanner over a string literal written by `appendString`, in key position. -/
theorem run_key (limit : Option Nat) (m : Mode) (hm : m = .beginString ∨ m = .beginStringOrEmpty)
    (s : Bytes) (acc : List (Bytes × Value)) (st : List Frame) (res : Option Value) (sv : Bool)
    (rest : Bytes) :
    run limit ⟨m, .objKey acc none :: st, res, sv⟩ (appendString s ++ rest) =
      run limit ⟨.endValue, .objKey acc (some (toValidUTF8 s 0)) :: st, res, sv⟩ rest := by
  have e1 : run limit ⟨m, .objKey acc none :: st, res, sv⟩ (appendString s ++ rest) =
      run limit ⟨.inString [], .objKey acc none :: st, res, sv⟩
        (appendStringLoop s 0 true ++ 0x22 :: rest) := by
    rcases hm with rfl | rfl
    · simp [appendString, run_cons, step, stepBeginString, isSpace]
    · simp [appendString, run_cons, step, stepBeginString, isSpace]
  rw [e1, run_string_body]
  simp [endString, unquote_appendString]

/-! ## Decoding what the encoder wrote: arrays and maps -/

theorem encodeList_cons_some (v : Value) (vs : List Value) (sep : Bool) (b : Bytes)
    (h : encodeList (v :: vs) sep = some b) :
    ∃ a b', encodeValue v = some a ∧ encodeList vs true = some b' ∧
      b = (if sep then [0x2C] else []) ++ a ++ b' := by
  rw [encodeList] at h
  cases h1 : encodeValue v with
  | none => simp [h1] at h
  | some a =>
    cases h2 : encodeList vs true with
    | none => simp [h1, h2] at h
    | some b' =>
      simp only [h1, h2, Option.some.injEq] at h
      exact ⟨a, b', rfl, rfl, h.symm⟩

theorem encodeFields_cons_some (k : Bytes) (v : Value) (m : List (Bytes × Value)) (sep : Bool)
    (b : Bytes) (h : encodeFields ((k, v) :: m) sep = some b) :
    ∃ a b', encodeValue v = some a ∧ encodeFields m true = some b' ∧
      b = (if sep then [0x2C] else []) ++ appendString k ++ [0x3A] ++ a ++ b' := by
  rw [encodeFields] at h
  cases h1 : encodeValue v with
  | none => simp [h1] at h
  | some a =>
    cases h2 : encodeFields m true with
    | none => simp [h1, h2] at h
    | some b' =>
      simp only [h1, h2, Option.some.injEq] at h
      exact ⟨a, b', rfl, rfl, h.symm⟩

theorem encodeList_nil (sep : Bool) : encodeList [] sep = some [] := by
  rw [encodeList]

theorem encodeFields_nil (sep : Bool) : encodeFields [] sep = some [] := by
  rw [encodeFields]

/-- What follows an array element starts with a comma or the closing bracket. -/
theorem list_tail_head (xs : List Value) (b rest : Bytes) (h : encodeList xs true = some b) :
    ∃ c r, b ++ 0x5D :: rest = c :: r ∧ endsNumber c := by
  cases xs with
  | nil =>
    rw [encodeList_nil] at h
    injection h with h; subst h
    exact ⟨0x5D, rest, rfl, endsNumber_bracket⟩
  | cons x xs =>
    obtain ⟨a, b', _, _, rfl⟩ := encodeList_cons_some x xs true b h
    exact ⟨0x2C, a ++ b' ++ 0x5D :: rest, by simp, endsNumber_comma⟩

/-- What follows a map entry starts with a comma or the closing brace. -/
theorem fields_tail_head (m : List (Bytes × Value)) (b rest : Bytes)
    (h : encodeFields m true = some b) :
    ∃ c r, b ++ 0x7D :: rest = c :: r ∧ endsNumber c := by
  cases m with
  | nil =>
    rw [encodeFields_nil] at h
    injection h with h; subst h
    exact ⟨0x7D, rest, rfl, endsNumber_brace⟩
  | cons e m =>
    obtain ⟨k, v⟩ := e
    obtain ⟨a, b', _, _, rfl⟩ := encodeFields_cons_some k v m true b h
    exact ⟨0x2C, appendString k ++ [0x3A] ++ a ++ b' ++ 0x7D :: rest, by simp, endsNumber_comma⟩

theorem keysSorted_append_below : ∀ (acc : List (Bytes × Value)) (e : Bytes × Value)
    (fs : List (Bytes × Value)), keysSorted (acc ++ e :: fs) = true →
    ∀ a ∈ acc, bytesLt a.1 e.1 = true := by
  intro acc
  induction acc with
  | nil => intro e fs _ a ha; cases ha
  | cons x acc ih =>
    intro e fs h a ha
    rw [List.cons_append, keysSorted_cons_iff] at h
    rcases List.mem_cons.mp ha with rfl | ha
    · exact h.1 e (by simp)
    · exact ih e fs h.2 a ha

theorem fits_push (limit : Option Nat) (f : Frame) (m : Mode) (d : Decoder)
    (h : fits limit (d.stack.length + 1)) :
    push limit f m d = some { d with mode := m, stack := f :: d.stack } := by
  unfold push
  cases limit with
  | none => rfl
  | some l => simp only [fits] at h; simp [h]

theorem notKeyPos_arr (xs : List Value) (st : List Frame) : notKeyPos (Frame.arr xs :: st) := by
  intro m s h; cases h

theorem notKeyPos_objVal (acc : List (Bytes × Value)) (k : Option Bytes) (st : List Frame) :
    notKeyPos (Frame.objVal acc k :: st) := by
  intro m s h; cases h

mutual
/-- The scanner over the encoding of a decoded value, followed by a byte that ends it: the
value is completed as it was. -/
theorem run_value : ∀ (v : Value), v.decoded = true →
    ∀ (limit : Option Nat) (m : Mode) (st : List Frame) (res : Option Value) (sv : Bool)
      (c : Nat) (rest b : Bytes), encodeValue v = some b → beginsValue m →
      fits limit (v.depth + st.length) → endsNumber c → notKeyPos st →
      run limit ⟨m, st, res, sv⟩ (b ++ c :: rest) =
        (complete v ⟨.endValue, st, res, sv⟩).bind (run limit · (c :: rest))
  | .null => by
    intro _ limit m st res sv c rest b hb hm _ _ _
    simp only [encodeValue, Option.some.injEq] at hb
    subst hb
    exact run_null limit m hm st res sv (c :: rest)
  | .bool true => by
    intro _ limit m st res sv c rest b hb hm _ _ _
    simp only [encodeValue, Option.some.injEq] at hb
    subst hb
    exact run_true limit m hm st res sv (c :: rest)
  | .bool false => by
    intro _ limit m st res sv c rest b hb hm _ _ _
    simp only [encodeValue, Option.some.injEq] at hb
    subst hb
    exact run_false limit m hm st res sv (c :: rest)
  | .number (.finite neg k) => by
    intro hd limit m st res sv c rest b hb hm _ hc _
    simp only [encodeValue, Option.some.injEq] at hb
    subst hb
    have hfin : k < infOrd := by simpa [Value.decoded] using hd
    obtain ⟨p, hp, he, _, _⟩ := formatFloat_parts neg k hfin
    have hpf := ParseFloat_formatFloat neg k hfin
    rw [he] at hpf ⊢
    rw [run_number limit p hp m hm c hc rest st res sv]
    have : endNumber (renderNum p) ⟨.endValue, st, res, sv⟩ =
        complete (.number (.finite neg k)) ⟨.endValue, st, res, sv⟩ := by
      unfold endNumber; rw [hpf]
    rw [this, complete_then]
  | .number (.inf _) => by
    intro hd; simp [Value.decoded] at hd
  | .number .nan => by
    intro hd; simp [Value.decoded] at hd
  | .string s => by
    intro hd limit m st res sv c rest b hb hm _ _ hst
    simp only [encodeValue, Option.some.injEq] at hb
    subst hb
    have hv : utf8Valid s = true := by simpa [Value.decoded] using hd
    rw [run_appendString limit m hm s st hst res sv (c :: rest), toValidUTF8_eq_self s hv]
  | .array xs => by
    intro hd limit m st res sv c rest b hb hm hf _ _
    simp only [encodeValue, Option.map_eq_some'] at hb
    obtain ⟨b', hb', rfl⟩ := hb
    have hdl : Value.decodedList xs = true := by simpa [Value.decoded] using hd
    have hfl : fits limit (Value.depthList xs + (st.length + 1)) := by
      simp only [Value.depth] at hf
      exact fits_mono limit _ _ (by omega) hf
    have hpush : fits limit (st.length + 1) := fits_mono limit _ _ (by omega) hfl
    have e1 : run limit ⟨m, st, res, sv⟩ ((0x5B :: (b' ++ [0x5D])) ++ c :: rest) =
        run limit ⟨.beginValueOrEmpty, .arr [] :: st, res, sv⟩ (b' ++ 0x5D :: (c :: rest)) := by
      have hp := fits_push limit (.arr []) .beginValueOrEmpty ⟨m, st, res, sv⟩ hpush
      rcases hm with rfl | rfl
      · simp only [List.cons_append, run_cons, step, stepBeginValue]
        simp [isSpace, hp]
      · simp only [List.cons_append, run_cons, step, stepBeginValue]
        simp [isSpace, hp]
    rw [e1, run_elems0 xs hdl limit st res sv (c :: rest) b' hb' hfl]
  | .object fs => by
    intro hd limit m st res sv c rest b hb hm hf _ _
    simp only [encodeValue, Option.map_eq_some'] at hb
    obtain ⟨b', hb', rfl⟩ := hb
    have hdl : keysSorted fs = true ∧ Value.decodedFields fs = true := by
      simpa [Value.decoded] using hd
    have hfl : fits limit (Value.depthFields fs + (st.length + 1)) := by
      simp only [Value.depth] at hf
      exact fits_mono limit _ _ (by omega) hf
    have hpush : fits limit (st.length + 1) := fits_mono limit _ _ (by omega) hfl
    have e1 : run limit ⟨m, st, res, sv⟩ ((0x7B :: (b' ++ [0x7D])) ++ c :: rest) =
        run limit ⟨.beginStringOrEmpty, .objKey [] none :: st, res, sv⟩
          (b' ++ 0x7D :: (c :: rest)) := by
      have hp := fits_push limit (.objKey [] none) .beginStringOrEmpty ⟨m, st, res, sv⟩ hpush
      rcases hm with rfl | rfl
      · simp only [List.cons_append, run_cons, step, stepBeginValue]
        simp [isSpace, hp]
      · simp only [List.cons_append, run_cons, step, stepBeginValue]
        simp [isSpace, hp]
    rw [e1, run_fields0 fs hdl.2 hdl.1 limit st res sv (c :: rest) b' hb' hfl]
/-- The scanner over the elements of an array, from its opening bracket on. -/
theorem run_elems0 : ∀ (xs : List Value), Value.decodedList xs = true →
    ∀ (limit : Option Nat) (st : List Frame) (res : Option Value) (sv : Bool) (rest b : Bytes),
      encodeList xs false = some b → fits limit (Value.depthList xs + (st.length + 1)) →
      run limit ⟨.beginValueOrEmpty, .arr [] :: st, res, sv⟩ (b ++ 0x5D :: rest) =
        (complete (.array xs) ⟨.endValue, st, res, sv⟩).bind (run limit · rest)
  | [] => by
    intro _ limit st res sv rest b hb _
    rw [encodeList_nil] at hb
    injection hb with hb; subst hb
    simp [run_cons, step, stepEndValue, isSpace]
    rw [complete_mode _ _ Mode.endValue]
  | x :: xs => by
    intro hd limit st res sv rest b hb hf
    obtain ⟨a, b', ha, hb', rfl⟩ := encodeList_cons_some x xs false b hb
    simp only [Value.decodedList, Bool.and_eq_true] at hd
    simp only [Value.depthList] at hf
    obtain ⟨c, r, hcr, hc⟩ := list_tail_head xs b' rest hb'
    have hfx : fits limit (x.depth + (Frame.arr [] :: st).length) :=
      fits_mono limit _ _ (by simp only [List.length_cons]; omega) hf
    have hfxs : fits limit (Value.depthList xs + (st.length + 1)) :=
      fits_mono limit _ _ (by omega) hf
    have := run_value x hd.1 limit .beginValueOrEmpty (.arr [] :: st) res sv c r a ha
      (Or.inr rfl) hfx hc (notKeyPos_arr _ _)
    have hcx : complete x ⟨.endValue, .arr [] :: st, res, sv⟩ =
        some ⟨.endValue, .arr ([] ++ [x]) :: st, res, sv⟩ := rfl
    simp only [Bool.false_eq_true, if_false, List.nil_append, List.append_assoc]
    rw [hcr, this, ← hcr, hcx, Option.some_bind]
    exact run_elems xs hd.2 limit [x] st res sv rest b' hb' hfxs
/-- The scanner over the further elements of an array. -/
theorem run_elems : ∀ (xs : List Value), Value.decodedList xs = true →
    ∀ (limit : Option Nat) (acc : List Value) (st : List Frame) (res : Option Value) (sv : Bool)
      (rest b : Bytes),
      encodeList xs true = some b → fits limit (Value.depthList xs + (st.length + 1)) →
      run limit ⟨.endValue, .arr acc :: st, res, sv⟩ (b ++ 0x5D :: rest) =
        (complete (.array (acc ++ xs)) ⟨.endValue, st, res, sv⟩).bind (run limit · rest)
  | [] => by
    intro _ limit acc st res sv rest b hb _
    rw [encodeList_nil] at hb
    injection hb with hb; subst hb
    simp [run_cons, step, stepEndValue, isSpace]
  | x :: xs => by
    intro hd limit acc st res sv rest b hb hf
    obtain ⟨a, b', ha, hb', rfl⟩ := encodeList_cons_some x xs true b hb
    simp only [Value.decodedList, Bool.and_eq_true] at hd
    simp only [Value.depthList] at hf
    obtain ⟨c, r, hcr, hc⟩ := list_tail_head xs b' rest hb'
    have hfx : fits limit (x.depth + (Frame.arr acc :: st).length) :=
      fits_mono limit _ _ (by simp only [List.length_cons]; omega) hf
    have hfxs : fits limit (Value.depthList xs + (st.length + 1)) :=
      fits_mono limit _ _ (by omega) hf
    have := run_value x hd.1 limit .beginValue (.arr acc :: st) res sv c r a ha
      (Or.inl rfl) hfx hc (notKeyPos_arr _ _)
    have e1 : run limit ⟨.endValue, .arr acc :: st, res, sv⟩
        (((if true = true then [0x2C] else []) ++ a ++ b') ++ 0x5D :: rest) =
        run limit ⟨.beginValue, .arr acc :: st, res, sv⟩ (a ++ (b' ++ 0x5D :: rest)) := by
      simp [run_cons, step, stepEndValue, isSpace]
    have hcx : complete x ⟨.endValue, .arr acc :: st, res, sv⟩ =
        some ⟨.endValue, .arr (acc ++ [x]) :: st, res, sv⟩ := rfl
    rw [e1, hcr, this, ← hcr, hcx, Option.some_bind,
      run_elems xs hd.2 limit (acc ++ [x]) st res sv rest b' hb' hfxs]
    simp
/-- The scanner over the entries of a map, from its opening brace on. -/
theorem run_fields0 : ∀ (fs : List (Bytes × Value)), Value.decodedFields fs = true →
    keysSorted fs = true →
    ∀ (limit : Option Nat) (st : List Frame) (res : Option Value) (sv : Bool) (rest b : Bytes),
      encodeFields fs false = some b → fits limit (Value.depthFields fs + (st.length + 1)) →
      run limit ⟨.beginStringOrEmpty, .objKey [] none :: st, res, sv⟩ (b ++ 0x7D :: rest) =
        (complete (.object fs) ⟨.endValue, st, res, sv⟩).bind (run limit · rest)
  | [] => by
    intro _ _ limit st res sv rest b hb _
    rw [encodeFields_nil] at hb
    injection hb with hb; subst hb
    simp [run_cons, step, stepEndValue, isSpace]
    rw [complete_mode _ _ Mode.endValue]
  | (k, v) :: fs => by
    intro hd hs limit st res sv rest b hb hf
    obtain ⟨a, b', ha, hb', rfl⟩ := encodeFields_cons_some k v fs false b hb
    simp only [Value.decodedFields, Bool.and_eq_true] at hd
    simp only [Value.depthFields] at hf
    obtain ⟨c, r, hcr, hc⟩ := fields_tail_head fs b' rest hb'
    have hfx : fits limit (v.depth + (Frame.objVal [] (some k) :: st).length) :=
      fits_mono limit _ _ (by simp only [List.length_cons]; omega) hf
    have hfxs : fits limit (Value.depthFields fs + (st.length + 1)) :=
      fits_mono limit _ _ (by omega) hf
    have := run_value v hd.1.2 limit .beginValue (.objVal [] (some k) :: st) res sv c r a ha
      (Or.inl rfl) hfx hc (notKeyPos_objVal _ _ _)
    have e1 : run limit ⟨.beginStringOrEmpty, .objKey [] none :: st, res, sv⟩
        (((if false = true then [0x2C] else []) ++ appendString k ++ [0x3A] ++ a ++ b') ++
          0x7D :: rest) =
        run limit ⟨.beginValue, .objVal [] (some k) :: st, res, sv⟩
          (a ++ (b' ++ 0x7D :: rest)) := by
      have hk := run_key limit .beginStringOrEmpty (Or.inr rfl) k [] st res sv
        (0x3A :: (a ++ (b' ++ 0x7D :: rest)))
      have hl : ((if false = true then [0x2C] else []) ++ appendString k ++ [0x3A] ++ a ++ b') ++
          0x7D :: rest = appendString k ++ 0x3A :: (a ++ (b' ++ 0x7D :: rest)) := by simp
      rw [hl, hk, toValidUTF8_eq_self k hd.1.1]
      simp [run_cons, step, stepEndValue, isSpace]
    have hcx : complete v ⟨.endValue, .objVal [] (some k) :: st, res, sv⟩ =
        some ⟨.endValue, .objVal [(k, v)] none :: st, res, sv⟩ := rfl
    rw [e1, hcr, this, ← hcr, hcx, Option.some_bind]
    exact run_fields fs hd.2 limit [(k, v)] st res sv rest b' hb' hfxs (by simpa using hs)
/-- The scanner over the further entries of a map. -/
theorem run_fields : ∀ (fs : List (Bytes × Value)), Value.decodedFields fs = true →
    ∀ (limit : Option Nat) (acc : List (Bytes × Value)) (st : List Frame) (res : Option Value)
      (sv : Bool) (rest b : Bytes),
      encodeFields fs true = some b → fits limit (Value.depthFields fs + (st.length + 1)) →
      keysSorted (acc ++ fs) = true →
      run limit ⟨.endValue, .objVal acc none :: st, res, sv⟩ (b ++ 0x7D :: rest) =
        (complete (.object (acc ++ fs)) ⟨.endValue, st, res, sv⟩).bind (run limit · rest)
  | [] => by
    intro _ limit acc st res sv rest b hb _ _
    rw [encodeFields_nil] at hb
    injection hb with hb; subst hb
    simp [run_cons, step, stepEndValue, isSpace]
  | (k, v) :: fs => by
    intro hd limit acc st res sv rest b hb hf hs
    obtain ⟨a, b', ha, hb', rfl⟩ := encodeFields_cons_some k v fs true b hb
    simp only [Value.decodedFields, Bool.and_eq_true] at hd
    simp only [Value.depthFields] at hf
    obtain ⟨c, r, hcr, hc⟩ := fields_tail_head fs b' rest hb'
    have hfx : fits limit (v.depth + (Frame.objVal acc (some k) :: st).length) :=
      fits_mono limit _ _ (by simp only [List.length_cons]; omega) hf
    have hfxs : fits limit (Value.depthFields fs + (st.length + 1)) :=
      fits_mono limit _ _ (by omega) hf
    have := run_value v hd.1.2 limit .beginValue (.objVal acc (some k) :: st) res sv c r a ha
      (Or.inl rfl) hfx hc (notKeyPos_objVal _ _ _)
    have e1 : run limit ⟨.endValue, .objVal acc none :: st, res, sv⟩
        (((if true = true then [0x2C] else []) ++ appendString k ++ [0x3A] ++ a ++ b') ++
          0x7D :: rest) =
        run limit ⟨.beginValue, .objVal acc (some k) :: st, res, sv⟩
          (a ++ (b' ++ 0x7D :: rest)) := by
      have hk := run_key limit .beginString (Or.inl rfl) k acc st res sv
        (0x3A :: (a ++ (b' ++ 0x7D :: rest)))
      have hl : ((if true = true then [0x2C] else []) ++ appendString k ++ [0x3A] ++ a ++ b') ++
          0x7D :: rest = 0x2C :: (appendString k ++ 0x3A :: (a ++ (b' ++ 0x7D :: rest))) := by
        simp
      rw [hl, run_cons]
      have s1 : step limit ⟨.endValue, .objVal acc none :: st, res, sv⟩ 0x2C =
          some ⟨.beginString, .objKey acc none :: st, res, sv⟩ := by
        simp [step, stepEndValue, isSpace]
      rw [s1, Option.some_bind, hk, toValidUTF8_eq_self k hd.1.1]
      simp [run_cons, step, stepEndValue, isSpace]
    have hcx : complete v ⟨.endValue, .objVal acc (some k) :: st, res, sv⟩ =
        some ⟨.endValue, .objVal (mapInsert k v acc) none :: st, res, sv⟩ := rfl
    rw [e1, hcr, this, ← hcr, hcx, Option.some_bind,
      mapInsert_above k v acc (keysSorted_append_below acc (k, v) fs hs),
      run_fields fs hd.2 limit (acc ++ [(k, v)]) st res sv rest b' hb' hfxs (by simpa using hs)]
    simp
end

/-! ## Unmarshal of Marshal -/

/-- A run that ends, after one more space, with the top-level value complete is a successful
decode. -/
theorem unmarshalWith_of_run (limit : Option Nat) (b : Bytes) (v : Value)
    (h : run limit Decoder.init (b ++ [0x20]) = some ⟨.endValue, [], some v, false⟩) :
    unmarshalWith limit b = .ok v := by
  rw [run_append] at h
  cases h1 : run limit Decoder.init b with
  | none => rw [h1] at h; simp at h
  | some d1 =>
    rw [h1] at h
    simp only [Option.some_bind, run_cons, run_nil] at h
    have hs : (step limit d1 0x20) = some ⟨.endValue, [], some v, false⟩ := by
      cases h2 : step limit d1 0x20 with
      | none => rw [h2] at h; simp at h
      | some d2 => rw [h2] at h; simpa using h
    have he : eof limit d1 = some ⟨.endValue, [], some v, false⟩ := by
      unfold eof
      by_cases ha : d1.atEnd = true
      · rw [if_pos ha]
        obtain ⟨m, st, res, sv⟩ := d1
        cases m <;> cases st <;> simp [Decoder.atEnd] at ha
        simp [step, stepEndValue, isSpace] at hs
        simp [hs]
      · rw [if_neg ha, hs]
        simp [Decoder.atEnd]
    unfold unmarshalWith
    rw [h1]
    simp only [Option.some_bind, he]
    simp

/-- Decoding the encoding of a decoded value gives the value back. -/
theorem unmarshalWith_encodeValue (limit : Option Nat) (v : Value) (hd : v.decoded = true)
    (hf : fits limit v.depth) (b : Bytes) (hb : encodeValue v = some b) :
    unmarshalWith limit b = .ok v := by
  apply unmarshalWith_of_run
  have := run_value v hd limit .beginValue [] none false 0x20 [] b hb (Or.inl rfl)
    (by simpa using hf) endsNumber_space (by intro m s h; cases h)
  unfold Decoder.init
  rw [this]
  simp [complete, run_cons, step, stepEndValue, isSpace, run_nil]

/-- Decoding the encoding of any string gives the string with invalid UTF-8 replaced. -/
theorem unmarshalWith_appendString (limit : Option Nat) (s : Bytes) :
    unmarshalWith limit (appendString s) = .ok (.string (toValidUTF8 s 0)) := by
  apply unmarshalWith_of_run
  unfold Decoder.init
  rw [run_appendString limit .beginValue (Or.inl rfl) s [] (by intro m s h; cases h) none false]
  simp [complete, run_cons, step, stepEndValue, isSpace, run_nil]

mutual
/-- The encoder does not fail on a value of the decoded shape. -/
theorem encodeValue_isSome : ∀ v : Value, v.decoded = true → (encodeValue v).isSome = true
  | .null => by intro _; rfl
  | .bool true => by intro _; rfl
  | .bool false => by intro _; rfl
  | .number (.finite _ _) => by intro _; rfl
  | .number (.inf _) => by intro h; simp [Value.decoded] at h
  | .number .nan => by intro h; simp [Value.decoded] at h
  | .string _ => by intro _; rfl
  | .array xs => by
    intro h
    have := encodeList_isSome xs (by simpa [Value.decoded] using h) false
    simp only [encodeValue, Option.isSome_map']
    exact this
  | .object m => by
    intro h
    have hh : keysSorted m = true ∧ Value.decodedFields m = true := by
      simpa [Value.decoded] using h
    have := encodeFields_isSome m hh.2 false
    simp only [encodeValue, Option.isSome_map']
    exact this
/-- The encoder does not fail on a list of values of the decoded shape. -/
theorem encodeList_isSome : ∀ xs : List Value, Value.decodedList xs = true →
    ∀ sep : Bool, (encodeList xs sep).isSome = true
  | [] => by intro _ sep; rw [encodeList_nil]; rfl
  | x :: xs => by
    intro h sep
    simp only [Value.decodedList, Bool.and_eq_true] at h
    have h1 := encodeValue_isSome x h.1
    have h2 := encodeList_isSome xs h.2 true
    rw [encodeList]
    cases e1 : encodeValue x with
    | none => rw [e1] at h1; simp at h1
    | some a =>
      cases e2 : encodeList xs true with
      | none => rw [e2] at h2; simp at h2
      | some b => rfl
/-- The encoder does not fail on map entries of the decoded shape. -/
theorem encodeFields_isSome : ∀ m : List (Bytes × Value), Value.decodedFields m = true →
    ∀ sep : Bool, (encodeFields m sep).isSome = true
  | [] => by intro _ sep; rw [encodeFields_nil]; rfl
  | (k, v) :: m => by
    intro h sep
    simp only [Value.decodedFields, Bool.and_eq_true] at h
    have h1 := encodeValue_isSome v h.1.2
    have h2 := encodeFields_isSome m h.2 true
    rw [encodeFields]
    cases e1 : encodeValue v with
    | none => rw [e1] at h1; simp at h1
    | some a =>
      cases e2 : encodeFields m true with
      | none => rw [e2] at h2; simp at h2
      | some b => rfl
end

/-! ## No line break in an encoding -/

theorem appendString_no_newline (s : Bytes) : ∀ x ∈ appendString s, x ≠ 0x0A := by
  intro x hx
  simp only [appendString, List.mem_cons, List.mem_append, List.mem_singleton,
    List.not_mem_nil, or_false] at hx
  rcases hx with rfl | hx | rfl
  · decide
  · exact encoded_no_newline _ (encoded_appendStringLoop s 0 true (by simp)) x hx
  · decide

theorem digitChars_no_newline (ds : List Nat) : ∀ x ∈ digitChars ds, x ≠ 0x0A := by
  intro x hx
  simp only [digitChars, List.mem_map] at hx
  obtain ⟨d, _, rfl⟩ := hx
  omega

theorem renderNum_no_newline (p : NumParts) : ∀ x ∈ renderNum p, x ≠ 0x0A := by
  intro x hx
  have hexp : ∀ y ∈ renderExp p.exp, y ≠ 0x0A := by
    intro y hy
    cases he : p.exp with
    | none => rw [he] at hy; simp [renderExp] at hy
    | some e =>
      obtain ⟨en, ds⟩ := e
      rw [he] at hy
      simp only [renderExp, List.mem_cons] at hy
      rcases hy with rfl | rfl | hy
      · decide
      · split_ifs <;> decide
      · exact digitChars_no_newline ds y hy
  simp only [renderNum, renderUnsigned, List.mem_append] at hx
  rcases hx with hx | hx | hx | hx
  · split_ifs at hx
    · simp at hx; omega
    · simp at hx
  · exact digitChars_no_newline _ x hx
  · split_ifs at hx
    · simp at hx
    · simp only [List.mem_cons] at hx
      rcases hx with rfl | hx
      · decide
      · exact digitChars_no_newline _ x hx
  · exact hexp x hx

theorem formatFloat_no_newline (neg : Bool) (k : Nat) (hfin : k < infOrd) :
    ∀ x ∈ formatFloat neg k, x ≠ 0x0A := by
  obtain ⟨p, _, he, _, _⟩ := formatFloat_parts neg k hfin
  rw [he]
  exact renderNum_no_newline p

mutual
/-- The encoding of a value of the decoded shape holds no line break. -/
theorem encodeValue_no_newline : ∀ v : Value, v.decoded = true → ∀ b, encodeValue v = some b →
    ∀ x ∈ b, x ≠ 0x0A
  | .null => by
    intro _ b hb x hx
    simp only [encodeValue, Option.some.injEq] at hb; subst hb
    simp at hx; omega
  | .bool true => by
    intro _ b hb x hx
    simp only [encodeValue, Option.some.injEq] at hb; subst hb
    simp at hx; omega
  | .bool false => by
    intro _ b hb x hx
    simp only [encodeValue, Option.some.injEq] at hb; subst hb
    simp at hx; omega
  | .number (.finite neg k) => by
    intro hd b hb x hx
    simp only [encodeValue, Option.some.injEq] at hb; subst hb
    exact formatFloat_no_newline neg k (by simpa [Value.decoded] using hd) x hx
  | .number (.inf _) => by intro h; simp [Value.decoded] at h
  | .number .nan => by intro h; simp [Value.decoded] at h
  | .string s => by
    intro _ b hb x hx
    simp only [encodeValue, Option.some.injEq] at hb; subst hb
    exact appendString_no_newline s x hx
  | .array xs => by
    intro hd b hb x hx
    simp only [encodeValue, Option.map_eq_some'] at hb
    obtain ⟨b', hb', rfl⟩ := hb
    simp only [List.mem_cons, List.mem_append, List.mem_singleton, List.not_mem_nil,
      or_false] at hx
    rcases hx with rfl | hx | rfl
    · decide
    · exact encodeList_no_newline xs (by simpa [Value.decoded] using hd) false b' hb' x hx
    · decide
  | .object m => by
    intro hd b hb x hx
    simp only [encodeValue, Option.map_eq_some'] at hb
    obtain ⟨b', hb', rfl⟩ := hb
    have hh : keysSorted m = true ∧ Value.decodedFields m = true := by
      simpa [Value.decoded] using hd
    simp only [List.mem_cons, List.mem_append, List.mem_singleton, List.not_mem_nil,
      or_false] at hx
    rcases hx with rfl | hx | rfl
    · decide
    · exact encodeFields_no_newline m hh.2 false b' hb' x hx
    · decide
/-- The encoding of a list of values holds no line break. -/
theorem encodeList_no_newline : ∀ xs : List Value, Value.decodedList xs = true →
    ∀ (sep : Bool) (b : Bytes), encodeList xs sep = some b → ∀ x ∈ b, x ≠ 0x0A
  | [] => by
    intro _ sep b hb x hx
    rw [encodeList_nil] at hb
    injection hb with hb; subst hb; cases hx
  | v :: vs => by
    intro hd sep b hb x hx
    simp only [Value.decodedList, Bool.and_eq_true] at hd
    obtain ⟨a, b', ha, hb', rfl⟩ := encodeList_cons_some v vs sep b hb
    simp only [List.mem_append] at hx
    rcases hx with (hx | hx) | hx
    · split_ifs at hx
      · simp at hx; omega
      · simp at hx
    · exact encodeValue_no_newline v hd.1 a ha x hx
    · exact encodeList_no_newline vs hd.2 true b' hb' x hx
/-- The encoding of map entries holds no line break. -/
theorem encodeFields_no_newline : ∀ m : List (Bytes × Value), Value.decodedFields m = true →
    ∀ (sep : Bool) (b : Bytes), encodeFields m sep = some b → ∀ x ∈ b, x ≠ 0x0A
  | [] => by
    intro _ sep b hb x hx
    rw [encodeFields_nil] at hb
    injection hb with hb; subst hb; cases hx
  | (k, v) :: m => by
    intro hd sep b hb x hx
    simp only [Value.decodedFields, Bool.and_eq_true] at hd
    obtain ⟨a, b', ha, hb', rfl⟩ := encodeFields_cons_some k v m sep b hb
    simp only [List.mem_append] at hx
    rcases hx with (((hx | hx) | hx) | hx) | hx
    · split_ifs at hx
      · simp at hx; omega
      · simp at hx
    · exact appendString_no_newline k x hx
    · simp at hx; omega
    · exact encodeValue_no_newline v hd.1.2 a ha x hx
    · exact encodeFields_no_newline m hd.2 true b' hb' x hx
end

/-! ## The log line as a JSON text -/

theorem readsAs_decoded (v : Value) (hv : v.decoded = true) (d : Bytes)
    (hd : encodeValue v = some d) : ReadsAs d v := by
  intro st res sv c rest hc hst
  exact run_value v hv none .beginValue st res sv c rest d hd (Or.inl rfl) trivial hc hst

theorem readsAs_string (s : Bytes) : ReadsAs (appendString s) (.string (toValidUTF8 s 0)) := by
  intro st res sv c rest _ hst
  exact run_appendString none .beginValue (Or.inl rfl) s st hst res sv (c :: rest)

theorem logPrefix_eq (m u : Bytes) :
    logPrefix m u = 0x7B :: (appendString (ascii "method") ++ 0x3A :: (appendString m ++
      0x2C :: (appendString (ascii "url") ++ 0x3A :: (appendString u ++
      0x2C :: (appendString (ascii "data") ++ [0x3A]))))) := by
  have h1 : ascii "\x7b\"method\":" = 0x7B :: (appendString (ascii "method") ++ [0x3A]) := by
    decide
  have h2 : ascii ",\"url\":" = 0x2C :: (appendString (ascii "url") ++ [0x3A]) := by decide
  have h3 : ascii ",\"data\":" = 0x2C :: (appendString (ascii "data") ++ [0x3A]) := by decide
  unfold logPrefix
  rw [h1, h2, h3]
  simp

/-- The log line is a JSON object of three members: decoding it gives the map of `data`,
`method` and `url`, the two strings with invalid UTF-8 replaced. -/
theorem unmarshal_logLine (m u d : Bytes) (v : Value) (hd : ReadsAs d v) :
    unmarshalWith none (logPrefix m u ++ d ++ ascii "\x7d") =
      .ok (.object [(ascii "data", v), (ascii "method", .string (toValidUTF8 m 0)),
        (ascii "url", .string (toValidUTF8 u 0))]) := by
  apply unmarshalWith_of_run
  have hk1 : toValidUTF8 (ascii "method") 0 = ascii "method" := by decide
  have hk2 : toValidUTF8 (ascii "url") 0 = ascii "url" := by decide
  have hk3 : toValidUTF8 (ascii "data") 0 = ascii "data" := by decide
  have hb : ascii "\x7d" = [0x7D] := by decide
  have hin : (logPrefix m u ++ d ++ ascii "\x7d") ++ [0x20] =
      0x7B :: (appendString (ascii "method") ++ 0x3A :: (appendString m ++
      0x2C :: (appendString (ascii "url") ++ 0x3A :: (appendString u ++
      0x2C :: (appendString (ascii "data") ++ 0x3A :: (d ++ 0x7D :: [0x20])))))) := by
    rw [logPrefix_eq, hb]; simp
  rw [hin]
  -- the opening brace and the key `method`
  have s1 : step none Decoder.init 0x7B =
      some ⟨.beginStringOrEmpty, [.objKey [] none], none, false⟩ := by
    simp [step, stepBeginValue, push, isSpace, Decoder.init]
  rw [run_cons, s1, Option.some_bind, run_key none _ (Or.inr rfl), hk1]
  have s2 : step none ⟨.endValue, [.objKey [] (some (ascii "method"))], none, false⟩ 0x3A =
      some ⟨.beginValue, [.objVal [] (some (ascii "method"))], none, false⟩ := by
    simp [step, stepEndValue, isSpace]
  rw [run_cons, s2, Option.some_bind,
    run_appendString none _ (Or.inl rfl) m _ (notKeyPos_objVal _ _ _)]
  have c1 : complete (.string (toValidUTF8 m 0))
      ⟨.endValue, [.objVal [] (some (ascii "method"))], none, false⟩ =
      some ⟨.endValue, [.objVal [(ascii "method", .string (toValidUTF8 m 0))] none], none,
        false⟩ := rfl
  rw [c1, Option.some_bind]
  -- the key `url`
  have s3 : step none
      ⟨.endValue, [.objVal [(ascii "method", .string (toValidUTF8 m 0))] none], none, false⟩
      0x2C =
      some ⟨.beginString, [.objKey [(ascii "method", .string (toValidUTF8 m 0))] none], none,
        false⟩ := by
    simp [step, stepEndValue, isSpace]
  rw [run_cons, s3, Option.some_bind, run_key none _ (Or.inl rfl), hk2]
  have s4 : step none
      ⟨.endValue, [.objKey [(ascii "method", .string (toValidUTF8 m 0))] (some (ascii "url"))],
        none, false⟩ 0x3A =
      some ⟨.beginValue,
        [.objVal [(ascii "method", .string (toValidUTF8 m 0))] (some (ascii "url"))], none,
        false⟩ := by
    simp [step, stepEndValue, isSpace]
  rw [run_cons, s4, Option.some_bind,
    run_appendString none _ (Or.inl rfl) u _ (notKeyPos_objVal _ _ _)]
  have i2 : mapInsert (ascii "url") (.string (toValidUTF8 u 0))
      [(ascii "method", .string (toValidUTF8 m 0))] =
      [(ascii "method", .string (toValidUTF8 m 0)), (ascii "url", .string (toValidUTF8 u 0))] := by
    have a1 : bytesLt (ascii "url") (ascii "method") = false := by decide
    have a2 : ascii "url" ≠ ascii "method" := by decide
    simp [mapInsert, a1, a2]
  have c2 : complete (.string (toValidUTF8 u 0))
      ⟨.endValue, [.objVal [(ascii "method", .string (toValidUTF8 m 0))] (some (ascii "url"))],
        none, false⟩ =
      some ⟨.endValue, [.objVal [(ascii "method", .string (toValidUTF8 m 0)),
        (ascii "url", .string (toValidUTF8 u 0))] none], none, false⟩ := by
    simp only [complete, i2]
  rw [c2, Option.some_bind]
  -- the key `data` and its value
  have s5 : step none
      ⟨.endValue, [.objVal [(ascii "method", .string (toValidUTF8 m 0)),
        (ascii "url", .string (toValidUTF8 u 0))] none], none, false⟩ 0x2C =
      some ⟨.beginString, [.objKey [(ascii "method", .string (toValidUTF8 m 0)),
        (ascii "url", .string (toValidUTF8 u 0))] none], none, false⟩ := by
    simp [step, stepEndValue, isSpace]
  rw [run_cons, s5, Option.some_bind, run_key none _ (Or.inl rfl), hk3]
  have s6 : step none
      ⟨.endValue, [.objKey [(ascii "method", .string (toValidUTF8 m 0)),
        (ascii "url", .string (toValidUTF8 u 0))] (some (ascii "data"))], none, false⟩ 0x3A =
      some ⟨.beginValue, [.objVal [(ascii "method", .string (toValidUTF8 m 0)),
        (ascii "url", .string (toValidUTF8 u 0))] (some (ascii "data"))], none, false⟩ := by
    simp [step, stepEndValue, isSpace]
  rw [run_cons, s6, Option.some_bind, hd _ _ _ _ _ endsNumber_brace (notKeyPos_objVal _ _ _)]
  have i3 : mapInsert (ascii "data") v
      [(ascii "method", .string (toValidUTF8 m 0)), (ascii "url", .string (toValidUTF8 u 0))] =
      [(ascii "data", v), (ascii "method", .string (toValidUTF8 m 0)),
        (ascii "url", .string (toValidUTF8 u 0))] := by
    have a1 : bytesLt (ascii "data") (ascii "method") = true := by decide
    simp [mapInsert, a1]
  have c3 : complete v
      ⟨.endValue, [.objVal [(ascii "method", .string (toValidUTF8 m 0)),
        (ascii "url", .string (toValidUTF8 u 0))] (some (ascii "data"))], none, false⟩ =
      some ⟨.endValue, [.objVal [(ascii "data", v), (ascii "method", .string (toValidUTF8 m 0)),
        (ascii "url", .string (toValidUTF8 u 0))] none], none, false⟩ := by
    simp only [complete, i3]
  rw [c3, Option.some_bind]
  simp [run_cons, run_nil, step, stepEndValue, isSpace, complete]

/-! ## The nesting limit of the encoder -/

mutual
/-- Whenever the encoder gives a text, it is the text of the value. -/
theorem marshalValue_some : ∀ (v : Value) (d : Nat) (b : Bytes),
    marshalValue d v = some b → encodeValue v = some b
  | .null, _, _ => by intro h; simpa [marshalValue, encodeValue] using h
  | .bool true, _, _ => by intro h; simpa [marshalValue, encodeValue] using h
  | .bool false, _, _ => by intro h; simpa [marshalValue, encodeValue] using h
  | .number (.finite _ _), _, _ => by intro h; simpa [marshalValue, encodeValue] using h
  | .number (.inf _), _, _ => by intro h; simp [marshalValue] at h
  | .number .nan, _, _ => by intro h; simp [marshalValue] at h
  | .string _, _, _ => by intro h; simpa [marshalValue, encodeValue] using h
  | .array xs, d, b => by
    intro h
    simp only [marshalValue] at h
    split_ifs at h
    cases hl : marshalList (d + 1) xs false with
    | none => rw [hl] at h; simp at h
    | some l =>
      rw [hl] at h
      simp only [encodeValue, marshalList_some xs (d + 1) false l hl]
      exact h
  | .object m, d, b => by
    intro h
    simp only [marshalValue] at h
    split_ifs at h
    cases hl : marshalFields (d + 1) m false with
    | none => rw [hl] at h; simp at h
    | some l =>
      rw [hl] at h
      simp only [encodeValue, marshalFields_some m (d + 1) false l hl]
      exact h
theorem marshalList_some : ∀ (xs : List Value) (d : Nat) (sep : Bool) (b : Bytes),
    marshalList d xs sep = some b → encodeList xs sep = some b
  | [], _, _, _ => by intro h; simpa [marshalList, encodeList] using h
  | x :: xs, d, sep, b => by
    intro h
    simp only [marshalList] at h
    cases hx : marshalValue d x with
    | none => rw [hx] at h; simp at h
    | some a =>
      cases hl : marshalList d xs true with
      | none => rw [hx, hl] at h; simp at h
      | some l =>
        rw [hx, hl] at h
        simp only [encodeList, marshalValue_some x d a hx, marshalList_some xs d true l hl]
        exact h
theorem marshalFields_some : ∀ (m : List (Bytes × Value)) (d : Nat) (sep : Bool) (b : Bytes),
    marshalFields d m sep = some b → encodeFields m sep = some b
  | [], _, _, _ => by intro h; simpa [marshalFields, encodeFields] using h
  | (k, x) :: m, d, sep, b => by
    intro h
    simp only [marshalFields] at h
    cases hx : marshalValue d x with
    | none => rw [hx] at h; simp at h
    | some a =>
      cases hl : marshalFields d m true with
      | none => rw [hx, hl] at h; simp at h
      | some l =>
        rw [hx, hl] at h
        simp only [encodeFields, marshalValue_some x d a hx, marshalFields_some m d true l hl]
        exact h
end

mutual
/-- Within the limit the encoder gives the text of the value. -/
theorem marshalValue_eq : ∀ (v : Value) (d : Nat), d + v.depth ≤ maxNestingDepth →
    marshalValue d v = encodeValue v
  | .null, _ => by intro _; simp [marshalValue, encodeValue]
  | .bool true, _ => by intro _; simp [marshalValue, encodeValue]
  | .bool false, _ => by intro _; simp [marshalValue, encodeValue]
  | .number (.finite _ _), _ => by intro _; simp [marshalValue, encodeValue]
  | .number (.inf _), _ => by intro _; simp [marshalValue, encodeValue]
  | .number .nan, _ => by intro _; simp [marshalValue, encodeValue]
  | .string _, _ => by intro _; simp [marshalValue, encodeValue]
  | .array xs, d => by
    intro h
    simp only [Value.depth] at h
    have hd : d < maxNestingDepth := by omega
    simp only [marshalValue, encodeValue, if_pos hd]
    rw [marshalList_eq xs (d + 1) false (by omega)]
  | .object m, d => by
    intro h
    simp only [Value.depth] at h
    have hd : d < maxNestingDepth := by omega
    simp only [marshalValue, encodeValue, if_pos hd]
    rw [marshalFields_eq m (d + 1) false (by omega)]
theorem marshalList_eq : ∀ (xs : List Value) (d : Nat) (sep : Bool),
    d + Value.depthList xs ≤ maxNestingDepth → marshalList d xs sep = encodeList xs sep
  | [], _, _ => by intro _; simp [marshalList, encodeList]
  | x :: xs, d, sep => by
    intro h
    simp only [Value.depthList] at h
    simp only [marshalList, encodeList]
    rw [marshalValue_eq x d (by omega), marshalList_eq xs d true (by omega)]
theorem marshalFields_eq : ∀ (m : List (Bytes × Value)) (d : Nat) (sep : Bool),
    d + Value.depthFields m ≤ maxNestingDepth → marshalFields d m sep = encodeFields m sep
  | [], _, _ => by intro _; simp [marshalFields, encodeFields]
  | (k, x) :: m, d, sep => by
    intro h
    simp only [Value.depthFields] at h
    simp only [marshalFields, encodeFields]
    rw [marshalValue_eq x d (by omega), marshalFields_eq m d true (by omega)]
end

mutual
/-- Beyond the limit the encoder gives no text. -/
theorem marshalValue_none : ∀ (v : Value) (d : Nat), d ≤ maxNestingDepth →
    maxNestingDepth < d + v.depth → marshalValue d v = none
  | .null, _ => by intro h1 h2; simp only [Value.depth] at h2; omega
  | .bool _, _ => by intro h1 h2; simp only [Value.depth] at h2; omega
  | .number _, _ => by intro h1 h2; simp only [Value.depth] at h2; omega
  | .string _, _ => by intro h1 h2; simp only [Value.depth] at h2; omega
  | .array xs, d => by
    intro h1 h2
    simp only [Value.depth] at h2
    simp only [marshalValue]
    split_ifs with hd
    · rw [marshalList_none xs (d + 1) false (by omega) (by omega)]; rfl
    · rfl
  | .object m, d => by
    intro h1 h2
    simp only [Value.depth] at h2
    simp only [marshalValue]
    split_ifs with hd
    · rw [marshalFields_none m (d + 1) false (by omega) (by omega)]; rfl
    · rfl
theorem marshalList_none : ∀ (xs : List Value) (d : Nat) (sep : Bool), d ≤ maxNestingDepth →
    maxNestingDepth < d + Value.depthList xs → marshalList d xs sep = none
  | [], _, _ => by intro h1 h2; simp only [Value.depthList] at h2; omega
  | x :: xs, d, sep => by
    intro h1 h2
    simp only [Value.depthList] at h2
    simp only [marshalList]
    by_cases hx : maxNestingDepth < d + x.depth
    · rw [marshalValue_none x d h1 hx]
    · have hl : maxNestingDepth < d + Value.depthList xs := by omega
      rw [marshalList_none xs d true h1 hl]
      cases marshalValue d x <;> rfl
theorem marshalFields_none : ∀ (m : List (Bytes × Value)) (d : Nat) (sep : Bool),
    d ≤ maxNestingDepth → maxNestingDepth < d + Value.depthFields m →
    marshalFields d m sep = none
  | [], _, _ => by intro h1 h2; simp only [Value.depthFields] at h2; omega
  | (k, x) :: m, d, sep => by
    intro h1 h2
    simp only [Value.depthFields] at h2
    simp only [marshalFields]
    by_cases hx : maxNestingDepth < d + x.depth
    · rw [marshalValue_none x d h1 hx]
    · have hl : maxNestingDepth < d + Value.depthFields m := by omega
      rw [marshalFields_none m d true h1 hl]
      cases marshalValue d x <;> rfl
end

/-! ## Arrays nested around a value -/

theorem nestedArrays_succ (n : Nat) (inner : Bytes) :
    nestedArrays (n + 1) inner = 0x5B :: (nestedArrays n inner ++ [0x5D]) := by
  unfold nestedArrays
  rw [List.replicate_succ, List.replicate_succ']
  simp

theorem depth_nestedValue (v : Value) : ∀ n : Nat, (nestedValue n v).depth = n + v.depth
  | 0 => by simp [nestedValue]
  | n + 1 => by
    simp only [nestedValue, Value.depth, Value.depthList, depth_nestedValue v n]
    omega

theorem decoded_nestedValue (v : Value) (hv : v.decoded = true) :
    ∀ n : Nat, (nestedValue n v).decoded = true
  | 0 => by simpa [nestedValue] using hv
  | n + 1 => by
    simp [nestedValue, Value.decoded, Value.decodedList, decoded_nestedValue v hv n]

theorem encodeValue_nestedValue (v : Value) (inner : Bytes) (hv : encodeValue v = some inner) :
    ∀ n : Nat, encodeValue (nestedValue n v) = some (nestedArrays n inner)
  | 0 => by simpa [nestedValue, nestedArrays] using hv
  | n + 1 => by
    simp only [nestedValue, encodeValue, encodeList, encodeValue_nestedValue v inner hv n,
      nestedArrays_succ]
    simp

/-- The text of `n` arrays around a decoded value decodes, within a limit of at least the
nesting, to the nested value. -/
theorem unmarshalWith_nestedArrays (limit : Option Nat) (v : Value) (inner : Bytes)
    (hd : v.decoded = true) (he : encodeValue v = some inner) (n : Nat)
    (hf : fits limit (n + v.depth)) :
    unmarshalWith limit (nestedArrays n inner) = .ok (nestedValue n v) :=
  unmarshalWith_encodeValue limit _ (decoded_nestedValue v hd n)
    (by rw [depth_nestedValue]; exact hf) _ (encodeValue_nestedValue v inner he n)

/-! ## A larger nesting limit accepts more -/

theorem push_mono (l k : Nat) (hl : l ≤ k) (f : Frame) (m : Mode) (d d1 : Decoder)
    (h : push (some l) f m d = some d1) : push (some k) f m d = some d1 := by
  unfold push at h ⊢
  simp only at h ⊢
  split_ifs at h with c
  rw [if_pos (by omega)]
  exact h

theorem stepBeginValue_mono (l k : Nat) (hl : l ≤ k) (d d1 : Decoder) (c : Nat)
    (h : stepBeginValue (some l) d c = some d1) : stepBeginValue (some k) d c = some d1 := by
  unfold stepBeginValue at h ⊢
  by_cases c0 : isSpace c = true
  · rw [if_pos c0] at h ⊢; exact h
  rw [if_neg c0] at h ⊢
  by_cases c1 : c = 0x7B
  · rw [if_pos c1] at h ⊢; exact push_mono l k hl _ _ d d1 h
  rw [if_neg c1] at h ⊢
  by_cases c2 : c = 0x5B
  · rw [if_pos c2] at h ⊢; exact push_mono l k hl _ _ d d1 h
  rw [if_neg c2] at h ⊢
  exact h

theorem step_mono (l k : Nat) (hl : l ≤ k) (d d1 : Decoder) (c : Nat)
    (h : step (some l) d c = some d1) : step (some k) d c = some d1 := by
  unfold step at h ⊢
  cases hmode : d.mode with
  | beginValueOrEmpty =>
    simp only [hmode] at h ⊢
    split_ifs at h ⊢
    · exact h
    · exact h
    · exact stepBeginValue_mono l k hl d d1 c h
  | beginValue =>
    simp only [hmode] at h ⊢
    exact stepBeginValue_mono l k hl d d1 c h
  | _ => simp only [hmode] at h ⊢; exact h

theorem run_mono (l k : Nat) (hl : l ≤ k) : ∀ (bs : Bytes) (d d1 : Decoder),
    run (some l) d bs = some d1 → run (some k) d bs = some d1 := by
  intro bs
  induction bs with
  | nil => intro d d1 h; exact h
  | cons c t ih =>
    intro d d1 h
    rw [run_cons] at h ⊢
    cases h1 : step (some l) d c with
    | none => simp [h1] at h
    | some d2 =>
      rw [h1] at h
      rw [step_mono l k hl d d2 c h1]
      exact ih d2 d1 h

theorem eof_mono (l k : Nat) (hl : l ≤ k) (d d1 : Decoder) (h : eof (some l) d = some d1) :
    eof (some k) d = some d1 := by
  unfold eof at h ⊢
  split_ifs at h ⊢
  · exact h
  · cases h1 : step (some l) d 0x20 with
    | none => simp [h1] at h
    | some d2 =>
      rw [h1] at h
      rw [step_mono l k hl d d2 _ h1]
      exact h

/-- What the scanner accepts within a limit, the decoder with a larger limit decodes the
same way. -/
theorem unmarshalWith_mono (l k : Nat) (hl : l ≤ k) (data : Bytes)
    (h : validWithin l data = true) :
    unmarshalWith (some k) data = unmarshalWith (some l) data := by
  unfold validWithin at h
  unfold unmarshalWith
  cases h1 : run (some l) Decoder.init data with
  | none => simp [h1] at h
  | some d2 =>
    rw [h1] at h
    simp only [Option.some_bind] at h ⊢
    rw [run_mono l k hl data _ d2 h1]
    simp only [Option.some_bind]
    cases h2 : eof (some l) d2 with
    | none => simp [h2] at h
    | some d3 => rw [eof_mono l k hl d2 d3 h2]

theorem validWithin_of_unmarshal (l : Nat) (data : Bytes) (v : Value)
    (h : unmarshalWith (some l) data = .ok v) : validWithin l data = true := by
  unfold unmarshalWith at h
  unfold validWithin
  cases hr : (run (some l) Decoder.init data).bind (eof (some l)) with
  | none => rw [hr] at h; simp at h
  | some d => rfl

/-! ## The number literals the decoder meets -/

theorem numbersFitFrom_nil (s : NumScan) : numbersFitFrom s [] = !rangeError s 0x20 := by
  unfold numbersFitFrom rangeError
  cases s.ended 0x20 <;> simp

theorem numbersFitFrom_cons (s : NumScan) (c : Nat) (t : Bytes) :
    numbersFitFrom s (c :: t) = (!rangeError s c && numbersFitFrom (s.next c) t) := by
  rw [numbersFitFrom]
  unfold rangeError
  cases s.ended c <;> simp

theorem settled_endValue (d : Decoder) (hm : d.mode = .endValue)
    (hr : d.stack = [] → d.result.isSome = true) : Settled d :=
  ⟨fun _ => hr, fun rest v e => by rw [hm] at e; cases e⟩

theorem settled_mode (d : Decoder) (h1 : d.mode ≠ .endValue)
    (h2 : ∀ rest v, d.mode ≠ .literal rest v) : Settled d :=
  ⟨fun e => absurd e h1, fun rest v e => absurd e (h2 rest v)⟩

theorem complete_facts (v : Value) (d d1 : Decoder) (h : complete v d = some d1) :
    d1.mode = .endValue ∧ d1.saved = d.saved ∧ (d1.stack = [] → d1.result.isSome = true) := by
  unfold complete at h
  split at h
  · injection h with h; subst h; simp
  · injection h with h; subst h; simp
  · injection h with h; subst h; simp
  · simp at h

theorem endString_facts (raw : Bytes) (d d1 : Decoder) (h : endString raw d = some d1) :
    d1.mode = .endValue ∧ d1.saved = d.saved ∧ (d1.stack = [] → d1.result.isSome = true) := by
  unfold endString at h
  split at h
  · simp at h
  · split at h
    · injection h with h; subst h; simp
    · exact complete_facts _ _ _ h

theorem endNumber_facts (raw : Bytes) (d d1 : Decoder) (h : endNumber raw d = some d1) :
    d1.mode = .endValue ∧ d1.saved = (d.saved || !fitsFloat64 raw) ∧
      (d1.stack = [] → d1.result.isSome = true) := by
  unfold endNumber at h
  unfold fitsFloat64
  generalize ParseFloat raw = r at h ⊢
  cases r with
  | none =>
    obtain ⟨h1, h2, h3⟩ := complete_facts _ _ _ h
    exact ⟨h1, by simpa using h2, h3⟩
  | some f =>
    obtain ⟨h1, h2, h3⟩ := complete_facts _ _ _ h
    exact ⟨h1, by simpa using h2, h3⟩

theorem space_not_number (c : Nat) (h : isSpace c = true) :
    isNumberByte c = false ∧ c ≠ 0x22 ∧ isDigit c = false ∧ c ≠ 0x2D ∧ c ≠ 0x5C := by
  simp only [isSpace, Bool.or_eq_true, decide_eq_true_eq] at h
  rcases h with ((h | h) | h) | h <;> subst h <;> decide

/-- A step in the state after a value: the scan is outside, no error is saved, and the byte
is one that ends a number literal. -/
theorem stepEndValue_facts (d d1 : Decoder) (c : Nat) (h : stepEndValue d c = some d1)
    (hpre : isSpace c = true → d.stack = [] → d.result.isSome = true) :
    scanOf d1.mode = .outside ∧ d1.saved = d.saved ∧ Settled d1 ∧
      isNumberByte c = false ∧ c ≠ 0x22 ∧ isDigit c = false ∧ c ≠ 0x2D := by
  unfold stepEndValue at h
  split at h
  · rename_i e
    split_ifs at h with hsp
    injection h with h; subst h
    obtain ⟨a1, a2, a3, a4, _⟩ := space_not_number c hsp
    exact ⟨rfl, rfl, settled_endValue _ rfl (fun _ => hpre hsp e), a1, a2, a3, a4⟩
  · rename_i top s e
    by_cases hsp : isSpace c = true
    · rw [if_pos hsp] at h
      injection h with h; subst h
      obtain ⟨a1, a2, a3, a4, _⟩ := space_not_number c hsp
      exact ⟨rfl, rfl, settled_endValue _ rfl (fun e2 => by simp [e] at e2), a1, a2, a3, a4⟩
    · rw [if_neg hsp] at h
      split at h
      · by_cases hc : c = 0x3A
        · rw [if_pos hc] at h
          injection h with h; subst h; subst hc
          exact ⟨rfl, rfl, settled_mode _ (by simp) (by simp), by decide, by decide,
            by decide, by decide⟩
        · rw [if_neg hc] at h; simp at h
      · by_cases hc : c = 0x2C
        · rw [if_pos hc] at h
          injection h with h; subst h; subst hc
          exact ⟨rfl, rfl, settled_mode _ (by simp) (by simp), by decide, by decide,
            by decide, by decide⟩
        · rw [if_neg hc] at h
          by_cases hc2 : c = 0x7D
          · rw [if_pos hc2] at h
            obtain ⟨h1, h2, h3⟩ := complete_facts _ _ _ h
            subst hc2
            exact ⟨by rw [h1]; rfl, h2, settled_endValue _ h1 h3, by decide, by decide,
              by decide, by decide⟩
          · rw [if_neg hc2] at h; simp at h
      · by_cases hc : c = 0x2C
        · rw [if_pos hc] at h
          injection h with h; subst h; subst hc
          exact ⟨rfl, rfl, settled_mode _ (by simp) (by simp), by decide, by decide,
            by decide, by decide⟩
        · rw [if_neg hc] at h
          by_cases hc2 : c = 0x5D
          · rw [if_pos hc2] at h
            obtain ⟨h1, h2, h3⟩ := complete_facts _ _ _ h
            subst hc2
            exact ⟨by rw [h1]; rfl, h2, settled_endValue _ h1 h3, by decide, by decide,
              by decide, by decide⟩
          · rw [if_neg hc2] at h; simp at h
      · simp at h

theorem follows_endValue (d d1 : Decoder) (c : Nat) (hm : scanOf d.mode = .outside)
    (h : stepEndValue d c = some d1)
    (hpre : isSpace c = true → d.stack = [] → d.result.isSome = true) : Follows d c d1 := by
  obtain ⟨a1, a2, a3, a4, a5, a6, a7⟩ := stepEndValue_facts d d1 c h hpre
  refine ⟨?_, ?_, a3⟩
  · rw [a1, hm]; simp [NumScan.next, a5, a6, a7]
  · rw [a2, hm]; simp [rangeError, NumScan.ended]

/-- The end of a number literal at the byte `c`. -/
theorem follows_numberEnd (raw : Bytes) (d d1 : Decoder) (c : Nat)
    (hm : scanOf d.mode = .inNumber raw)
    (h : (endNumber raw d).bind (stepEndValue · c) = some d1) : Follows d c d1 := by
  cases h1 : endNumber raw d with
  | none => rw [h1] at h; simp at h
  | some d2 =>
    rw [h1] at h
    simp only [Option.some_bind] at h
    obtain ⟨b1, b2, b3⟩ := endNumber_facts raw d d2 h1
    obtain ⟨a1, a2, a3, a4, a5, _, _⟩ := stepEndValue_facts d2 d1 c h (fun _ => b3)
    refine ⟨?_, ?_, a3⟩
    · rw [a1, hm]; simp [NumScan.next, a4, a5]
    · rw [a2, b2, hm]; simp [rangeError, NumScan.ended, a4]

/-- A number literal goes on with the byte `c`. -/
theorem follows_numberOn (raw : Bytes) (d : Decoder) (c : Nat) (m : Mode)
    (hm : scanOf d.mode = .inNumber raw) (hm1 : scanOf m = .inNumber (raw ++ [c]))
    (hc : isNumberByte c = true) : Follows d c { d with mode := m } := by
  refine ⟨?_, ?_, ?_, ?_⟩
  · show scanOf m = _
    rw [hm1, hm]; simp [NumScan.next, hc]
  · show d.saved = _
    rw [hm]; simp [rangeError, NumScan.ended, hc]
  · intro e
    have e' : m = .endValue := e
    rw [e'] at hm1; cases hm1
  · intro rest v e
    have e' : m = .literal rest v := e
    rw [e'] at hm1; cases hm1

theorem digit_numberByte (c : Nat) (h : isDigit c = true) : isNumberByte c = true := by
  simp [isNumberByte, h]

theorem push_eq (limit : Option Nat) (f : Frame) (m : Mode) (d d1 : Decoder)
    (h : push limit f m d = some d1) : d1 = { d with mode := m, stack := f :: d.stack } := by
  unfold push at h
  split at h
  · split_ifs at h
    injection h with h; exact h.symm
  · injection h with h; exact h.symm

theorem follows_beginValue (limit : Option Nat) (d d1 : Decoder) (c : Nat)
    (hm : scanOf d.mode = .outside) (hs : Settled d)
    (h : stepBeginValue limit d c = some d1) : Follows d c d1 := by
  unfold stepBeginValue at h
  by_cases c0 : isSpace c = true
  · rw [if_pos c0] at h
    injection h with h; subst h
    obtain ⟨_, a2, a3, a4, _⟩ := space_not_number c c0
    exact ⟨by rw [hm]; simp [NumScan.next, a2, a3, a4], by rw [hm]; simp [rangeError, NumScan.ended],
      hs⟩
  rw [if_neg c0] at h
  by_cases c1 : c = 0x7B
  · rw [if_pos c1] at h
    have := push_eq _ _ _ _ _ h
    subst this; subst c1
    exact ⟨by rw [hm]; rfl, by rw [hm]; simp [rangeError, NumScan.ended],
      settled_mode _ (by simp) (by simp)⟩
  rw [if_neg c1] at h
  by_cases c2 : c = 0x5B
  · rw [if_pos c2] at h
    have := push_eq _ _ _ _ _ h
    subst this; subst c2
    exact ⟨by rw [hm]; rfl, by rw [hm]; simp [rangeError, NumScan.ended],
      settled_mode _ (by simp) (by simp)⟩
  rw [if_neg c2] at h
  by_cases c3 : c = 0x22
  · rw [if_pos c3] at h
    injection h with h; subst h; subst c3
    exact ⟨by rw [hm]; rfl, by rw [hm]; simp [rangeError, NumScan.ended],
      settled_mode _ (by simp) (by simp)⟩
  rw [if_neg c3] at h
  by_cases c4 : c = 0x2D
  · rw [if_pos c4] at h
    injection h with h; subst h; subst c4
    exact ⟨by rw [hm]; rfl, by rw [hm]; simp [rangeError, NumScan.ended],
      settled_mode _ (by simp) (by simp)⟩
  rw [if_neg c4] at h
  by_cases c5 : c = 0x30
  · rw [if_pos c5] at h
    injection h with h; subst h; subst c5
    exact ⟨by rw [hm]; rfl, by rw [hm]; simp [rangeError, NumScan.ended],
      settled_mode _ (by simp) (by simp)⟩
  rw [if_neg c5] at h
  by_cases c6 : c = 0x74
  · rw [if_pos c6] at h
    injection h with h; subst h; subst c6
    refine ⟨by rw [hm]; rfl, by rw [hm]; simp [rangeError, NumScan.ended],
      ⟨(fun e => nomatch e), fun rest v e => ?_⟩⟩
    injection e with e1 e2; subst e1; decide
  rw [if_neg c6] at h
  by_cases c7 : c = 0x66
  · rw [if_pos c7] at h
    injection h with h; subst h; subst c7
    refine ⟨by rw [hm]; rfl, by rw [hm]; simp [rangeError, NumScan.ended],
      ⟨(fun e => nomatch e), fun rest v e => ?_⟩⟩
    injection e with e1 e2; subst e1; decide
  rw [if_neg c7] at h
  by_cases c8 : c = 0x6E
  · rw [if_pos c8] at h
    injection h with h; subst h; subst c8
    refine ⟨by rw [hm]; rfl, by rw [hm]; simp [rangeError, NumScan.ended],
      ⟨(fun e => nomatch e), fun rest v e => ?_⟩⟩
    injection e with e1 e2; subst e1; decide
  rw [if_neg c8] at h
  by_cases c9 : 0x31 ≤ c ∧ c ≤ 0x39
  · rw [if_pos c9] at h
    injection h with h; subst h
    have hd : isDigit c = true := by simp [isDigit]; omega
    exact ⟨by rw [hm]; simp [NumScan.next, c3, hd, scanOf],
      by rw [hm]; simp [rangeError, NumScan.ended],
      settled_mode _ (by simp) (by simp)⟩
  rw [if_neg c9] at h
  simp at h

theorem follows_beginString (d d1 : Decoder) (c : Nat)
    (hm : scanOf d.mode = .outside) (hs : Settled d)
    (h : stepBeginString d c = some d1) : Follows d c d1 := by
  unfold stepBeginString at h
  by_cases c0 : isSpace c = true
  · rw [if_pos c0] at h
    injection h with h; subst h
    obtain ⟨_, a2, a3, a4, _⟩ := space_not_number c c0
    exact ⟨by rw [hm]; simp [NumScan.next, a2, a3, a4], by rw [hm]; simp [rangeError, NumScan.ended],
      hs⟩
  rw [if_neg c0] at h
  by_cases c3 : c = 0x22
  · rw [if_pos c3] at h
    injection h with h; subst h; subst c3
    exact ⟨by rw [hm]; rfl, by rw [hm]; simp [rangeError, NumScan.ended],
      settled_mode _ (by simp) (by simp)⟩
  rw [if_neg c3] at h
  simp at h

theorem follows_step0 (raw : Bytes) (d d1 : Decoder) (c : Nat)
    (hm : scanOf d.mode = .inNumber raw) (h : step0 raw d c = some d1) : Follows d c d1 := by
  unfold step0 at h
  by_cases c1 : c = 0x2E
  · rw [if_pos c1] at h
    injection h with h; subst h
    exact follows_numberOn raw d c _ hm rfl (by subst c1; decide)
  rw [if_neg c1] at h
  by_cases c2 : c = 0x65 ∨ c = 0x45
  · rw [if_pos c2] at h
    injection h with h; subst h
    exact follows_numberOn raw d c _ hm rfl (by rcases c2 with rfl | rfl <;> decide)
  rw [if_neg c2] at h
  exact follows_numberEnd raw d d1 c hm h

theorem follows_stepESign (raw : Bytes) (d d1 : Decoder) (c : Nat)
    (hm : scanOf d.mode = .inNumber raw) (h : stepESign raw d c = some d1) : Follows d c d1 := by
  unfold stepESign at h
  by_cases c1 : isDigit c = true
  · rw [if_pos c1] at h
    injection h with h; subst h
    exact follows_numberOn raw d c _ hm rfl (digit_numberByte c c1)
  · rw [if_neg c1] at h; simp at h

/-- Every step of the decoder follows the scan for number literals. -/
theorem step_follows (limit : Option Nat) (d d1 : Decoder) (c : Nat) (hs : Settled d)
    (h : step limit d c = some d1) : Follows d c d1 := by
  unfold step at h
  cases hmode : d.mode with
  | beginValueOrEmpty =>
    simp only [hmode] at h
    have hm : scanOf d.mode = .outside := by rw [hmode]; rfl
    by_cases c0 : isSpace c = true
    · rw [if_pos c0] at h
      injection h with h; subst h
      obtain ⟨_, a2, a3, a4, _⟩ := space_not_number c c0
      exact ⟨by rw [hm]; simp [NumScan.next, a2, a3, a4],
        by rw [hm]; simp [rangeError, NumScan.ended], hs⟩
    rw [if_neg c0] at h
    by_cases c1 : c = 0x5D
    · rw [if_pos c1] at h
      exact follows_endValue d d1 c hm h (fun e => absurd e c0)
    · rw [if_neg c1] at h
      exact follows_beginValue limit d d1 c hm hs h
  | beginValue =>
    simp only [hmode] at h
    exact follows_beginValue limit d d1 c (by rw [hmode]; rfl) hs h
  | beginStringOrEmpty =>
    simp only [hmode] at h
    have hm : scanOf d.mode = .outside := by rw [hmode]; rfl
    by_cases c0 : isSpace c = true
    · rw [if_pos c0] at h
      injection h with h; subst h
      obtain ⟨_, a2, a3, a4, _⟩ := space_not_number c c0
      exact ⟨by rw [hm]; simp [NumScan.next, a2, a3, a4],
        by rw [hm]; simp [rangeError, NumScan.ended], hs⟩
    rw [if_neg c0] at h
    by_cases c1 : c = 0x7D
    · rw [if_pos c1] at h
      split at h
      · obtain ⟨f1, f2, f3⟩ := follows_endValue _ d1 c (by rfl) h (fun e => absurd e c0)
        exact ⟨by rw [hm]; exact f1, by rw [hm]; exact f2, f3⟩
      · simp at h
    · rw [if_neg c1] at h
      exact follows_beginString d d1 c hm hs h
  | beginString =>
    simp only [hmode] at h
    exact follows_beginString d d1 c (by rw [hmode]; rfl) hs h
  | endValue =>
    simp only [hmode] at h
    exact follows_endValue d d1 c (by rw [hmode]; rfl) h (fun _ => hs.1 hmode)
  | inString raw =>
    simp only [hmode] at h
    by_cases c1 : c = 0x22
    · rw [if_pos c1] at h
      obtain ⟨a1, a2, a3⟩ := endString_facts _ _ _ h
      exact ⟨by rw [a1, hmode]; simp [scanOf, NumScan.next, c1],
        by rw [a2, hmode]; simp [scanOf, rangeError, NumScan.ended], settled_endValue _ a1 a3⟩
    rw [if_neg c1] at h
    by_cases c2 : c = 0x5C
    · rw [if_pos c2] at h
      injection h with h; subst h
      exact ⟨by rw [hmode]; simp [scanOf, NumScan.next, c1, c2],
        by rw [hmode]; simp [scanOf, rangeError, NumScan.ended],
        settled_mode _ (by simp) (by simp)⟩
    rw [if_neg c2] at h
    split_ifs at h
    injection h with h; subst h
    exact ⟨by rw [hmode]; simp [scanOf, NumScan.next, c1, c2],
      by rw [hmode]; simp [scanOf, rangeError, NumScan.ended],
      settled_mode _ (by simp) (by simp)⟩
  | inStringEsc raw =>
    simp only [hmode] at h
    split_ifs at h
    · injection h with h; subst h
      exact ⟨by rw [hmode]; simp [scanOf, NumScan.next],
        by rw [hmode]; simp [scanOf, rangeError, NumScan.ended],
        settled_mode _ (by simp) (by simp)⟩
    · injection h with h; subst h
      exact ⟨by rw [hmode]; simp [scanOf, NumScan.next],
        by rw [hmode]; simp [scanOf, rangeError, NumScan.ended],
        settled_mode _ (by simp) (by simp)⟩
  | inStringEscU raw left =>
    simp only [hmode] at h
    by_cases c0 : isHex c = true
    · rw [if_pos c0] at h
      injection h with h; subst h
      have hq : c ≠ 0x22 ∧ c ≠ 0x5C := by
        simp only [isHex, Bool.or_eq_true, Bool.and_eq_true, decide_eq_true_eq] at c0
        omega
      refine ⟨?_, by rw [hmode]; simp [scanOf, rangeError, NumScan.ended], ?_, ?_⟩
      · rw [hmode]
        show scanOf (if left ≤ 1 then _ else _) = _
        split_ifs <;> simp [scanOf, NumScan.next, hq.1, hq.2]
      · intro e
        have e' : (if left ≤ 1 then Mode.inString (raw ++ [c])
            else Mode.inStringEscU (raw ++ [c]) (left - 1)) = .endValue := e
        split_ifs at e'
      · intro rest v e
        have e' : (if left ≤ 1 then Mode.inString (raw ++ [c])
            else Mode.inStringEscU (raw ++ [c]) (left - 1)) = .literal rest v := e
        split_ifs at e'
    · rw [if_neg c0] at h; simp at h
  | neg raw =>
    simp only [hmode] at h
    have hm : scanOf d.mode = .inNumber raw := by rw [hmode]; rfl
    by_cases c1 : c = 0x30
    · rw [if_pos c1] at h
      injection h with h; subst h
      exact follows_numberOn raw d c _ hm rfl (by subst c1; decide)
    rw [if_neg c1] at h
    by_cases c2 : 0x31 ≤ c ∧ c ≤ 0x39
    · rw [if_pos c2] at h
      injection h with h; subst h
      exact follows_numberOn raw d c _ hm rfl (digit_numberByte c (by simp [isDigit]; omega))
    · rw [if_neg c2] at h; simp at h
  | s1 raw =>
    simp only [hmode] at h
    have hm : scanOf d.mode = .inNumber raw := by rw [hmode]; rfl
    by_cases c1 : isDigit c = true
    · rw [if_pos c1] at h
      injection h with h; subst h
      exact follows_numberOn raw d c _ hm rfl (digit_numberByte c c1)
    · rw [if_neg c1] at h
      exact follows_step0 raw d d1 c hm h
  | s0 raw =>
    simp only [hmode] at h
    exact follows_step0 raw d d1 c (by rw [hmode]; rfl) h
  | dot raw =>
    simp only [hmode] at h
    have hm : scanOf d.mode = .inNumber raw := by rw [hmode]; rfl
    by_cases c1 : isDigit c = true
    · rw [if_pos c1] at h
      injection h with h; subst h
      exact follows_numberOn raw d c _ hm rfl (digit_numberByte c c1)
    · rw [if_neg c1] at h; simp at h
  | dot0 raw =>
    simp only [hmode] at h
    have hm : scanOf d.mode = .inNumber raw := by rw [hmode]; rfl
    by_cases c1 : isDigit c = true
    · rw [if_pos c1] at h
      injection h with h; subst h
      exact follows_numberOn raw d c _ hm rfl (digit_numberByte c c1)
    rw [if_neg c1] at h
    by_cases c2 : c = 0x65 ∨ c = 0x45
    · rw [if_pos c2] at h
      injection h with h; subst h
      exact follows_numberOn raw d c _ hm rfl (by rcases c2 with rfl | rfl <;> decide)
    rw [if_neg c2] at h
    exact follows_numberEnd raw d d1 c hm h
  | e raw =>
    simp only [hmode] at h
    have hm : scanOf d.mode = .inNumber raw := by rw [hmode]; rfl
    by_cases c1 : c = 0x2B ∨ c = 0x2D
    · rw [if_pos c1] at h
      injection h with h; subst h
      exact follows_numberOn raw d c _ hm rfl (by rcases c1 with rfl | rfl <;> decide)
    · rw [if_neg c1] at h
      exact follows_stepESign raw d d1 c hm h
  | eSign raw =>
    simp only [hmode] at h
    exact follows_stepESign raw d d1 c (by rw [hmode]; rfl) h
  | e0 raw =>
    simp only [hmode] at h
    have hm : scanOf d.mode = .inNumber raw := by rw [hmode]; rfl
    by_cases c1 : isDigit c = true
    · rw [if_pos c1] at h
      injection h with h; subst h
      exact follows_numberOn raw d c _ hm rfl (digit_numberByte c c1)
    · rw [if_neg c1] at h
      exact follows_numberEnd raw d d1 c hm h
  | literal rest v =>
    simp only [hmode] at h
    have hm : scanOf d.mode = .outside := by rw [hmode]; rfl
    have hl := hs.2 rest v hmode
    cases rest with
    | nil => simp at h
    | cons x r =>
      simp only at h
      by_cases c1 : c = x
      · rw [if_pos c1] at h
        have hx := hl x (by simp)
        have hc : c ≠ 0x22 ∧ isDigit c = false ∧ c ≠ 0x2D := by
          subst c1
          refine ⟨by omega, ?_, by omega⟩
          simp [isDigit]; omega
        by_cases c2 : r = []
        · rw [if_pos c2] at h
          obtain ⟨a1, a2, a3⟩ := complete_facts _ _ _ h
          exact ⟨by rw [a1, hm]; simp [scanOf, NumScan.next, hc.1, hc.2.1, hc.2.2],
            by rw [a2, hm]; simp [rangeError, NumScan.ended], settled_endValue _ a1 a3⟩
        · rw [if_neg c2] at h
          injection h with h; subst h
          refine ⟨by rw [hm]; simp [scanOf, NumScan.next, hc.1, hc.2.1, hc.2.2],
            by rw [hm]; simp [rangeError, NumScan.ended], (fun e => nomatch e), ?_⟩
          intro rest' v' e y hy
          injection e with e1 e2
          subst e1
          exact hl y (by simp [hy])
      · rw [if_neg c1] at h; simp at h

theorem settled_init : Settled Decoder.init :=
  settled_mode _ (by simp [Decoder.init]) (by simp [Decoder.init])

/-- The saved error at the end of a decode: it is there exactly when some number literal
met on the way is out of range; and the top-level value is there. -/
theorem run_eof_saved (limit : Option Nat) : ∀ (bs : Bytes) (d d1 d2 : Decoder), Settled d →
    run limit d bs = some d1 → eof limit d1 = some d2 →
    d2.saved = (d.saved || !numbersFitFrom (scanOf d.mode) bs) ∧ d2.result.isSome = true := by
  intro bs
  induction bs with
  | nil =>
    intro d d1 d2 hs h1 h2
    rw [run_nil] at h1
    injection h1 with h1; subst h1
    rw [numbersFitFrom_nil]
    unfold eof at h2
    by_cases ha : d.atEnd = true
    · rw [if_pos ha] at h2
      injection h2 with h2; subst h2
      have hme : d.mode = .endValue ∧ d.stack = [] := by
        unfold Decoder.atEnd at ha
        split at ha
        · rename_i e1 e2; exact ⟨e1, e2⟩
        · cases ha
      refine ⟨?_, hs.1 hme.1 hme.2⟩
      rw [hme.1]; simp [scanOf, rangeError, NumScan.ended]
    · rw [if_neg ha] at h2
      cases h3 : step limit d 0x20 with
      | none => rw [h3] at h2; simp at h2
      | some d3 =>
        rw [h3] at h2
        simp only [Option.some_bind] at h2
        split_ifs at h2 with ha3
        injection h2 with h2; subst h2
        obtain ⟨_, f2, f3⟩ := step_follows limit d d3 0x20 hs h3
        have hme : d3.mode = .endValue ∧ d3.stack = [] := by
          unfold Decoder.atEnd at ha3
          split at ha3
          · rename_i e1 e2; exact ⟨e1, e2⟩
          · cases ha3
        exact ⟨by rw [f2]; simp, f3.1 hme.1 hme.2⟩
  | cons c t ih =>
    intro d d1 d2 hs h1 h2
    rw [run_cons] at h1
    cases h3 : step limit d c with
    | none => rw [h3] at h1; simp at h1
    | some d3 =>
      rw [h3] at h1
      simp only [Option.some_bind] at h1
      obtain ⟨f1, f2, f3⟩ := step_follows limit d d3 c hs h3
      obtain ⟨g1, g2⟩ := ih d3 d1 d2 f3 h1 h2
      refine ⟨?_, g2⟩
      rw [g1, f2, f1, numbersFitFrom_cons]
      cases d.saved <;> cases rangeError (scanOf d.mode) c <;> simp

/-- A JSON text within the nesting limit is decoded exactly when all its number literals are
within the range of float64; otherwise the decode reports the number out of range. -/
theorem unmarshalWith_of_valid (l : Nat) (data : Bytes) (h : validWithin l data = true) :
    ∃ v, unmarshalWith (some l) data =
      if numbersFit data = true then .ok v else .error .numberRange := by
  unfold validWithin at h
  unfold unmarshalWith
  cases h1 : run (some l) Decoder.init data with
  | none => rw [h1] at h; simp at h
  | some d1 =>
    rw [h1] at h
    simp only [Option.some_bind] at h ⊢
    cases h2 : eof (some l) d1 with
    | none => rw [h2] at h; simp at h
    | some d2 =>
      obtain ⟨g1, g2⟩ := run_eof_saved (some l) data Decoder.init d1 d2 settled_init h1 h2
      obtain ⟨v, hv⟩ := Option.isSome_iff_exists.mp g2
      refine ⟨v, ?_⟩
      simp only [hv]
      have g1' : d2.saved = !numbersFit data := by
        rw [g1]; simp [Decoder.init, scanOf, numbersFit]
      rw [g1']
      cases numbersFit data <;> simp

/-! ## Strings that are logged verbatim -/

/-- The coercion to valid UTF-8 gives valid UTF-8. -/
theorem utf8Valid_toValidUTF8 (s : Bytes) : utf8Valid (toValidUTF8 s 0) = true :=
  unquote_valid _ _ (unquote_appendString s)

/-- The coercion leaves a string as it is exactly when the string is valid UTF-8. -/
theorem toValidUTF8_eq_iff (s : Bytes) : toValidUTF8 s 0 = s ↔ utf8Valid s = true := by
  constructor
  · intro h
    have := utf8Valid_toValidUTF8 s
    rw [h] at this
    exact this
  · exact toValidUTF8_eq_self s

theorem validLoop_ascii : ∀ s : Bytes, (∀ x ∈ s, x < 0x80) → validLoop s 0 = true
  | [] => by intro _; rfl
  | b :: t => by
    intro h
    have hb : b < 0x80 := h b (by simp)
    have hne : b ≠ RuneError := by simp [RuneError]; omega
    simp only [validLoop, decodeRune_ascii b t hb]
    simp only [hne, false_and, if_false]
    exact validLoop_ascii t (fun x hx => h x (by simp [hx]))

theorem utf8Valid_ascii (s : Bytes) (h : ∀ x ∈ s, x < 0x80) : utf8Valid s = true :=
  validLoop_ascii s h

theorem isTokenByte_ascii (c : Nat) (h : isTokenByte c = true) : c < 0x80 := by
  simp only [isTokenByte, Bool.or_eq_true, Bool.and_eq_true, decide_eq_true_eq] at h
  omega

/-- A method that the server admits is ASCII, hence valid UTF-8. -/
theorem utf8Valid_of_validMethod (m : Bytes) (h : validMethod m = true) :
    utf8Valid m = true := by
  apply utf8Valid_ascii
  intro x hx
  simp only [validMethod, Bool.and_eq_true, List.all_eq_true] at h
  exact isTokenByte_ascii x (h.2 x hx)

/-! ## The URL of a request and its target -/

/-- For a target in origin form whose path holds only bytes that `validEncoded` accepts,
`request.URL.String()` is the target as received. -/
theorem requestURL_verbatim (t u : Bytes) (h : requestURL t = some u)
    (hv : validEncodedPath (t.takeWhile (· ≠ 0x3F)) = true) : u = t := by
  unfold requestURL at h
  split_ifs at h with hctl
  split at h
  · rename_i t'
    have hp : ∃ p', List.takeWhile (· ≠ 0x3F) (0x2F :: t') = 0x2F :: p' := by
      simp [List.takeWhile]
    obtain ⟨p', hp'⟩ := hp
    cases he : escapedPath (List.takeWhile (· ≠ 0x3F) (0x2F :: t')) with
    | none => rw [he] at h; simp at h
    | some ep =>
      rw [he] at h
      simp only [Option.map_some', Option.some.injEq] at h
      have hep : ep = List.takeWhile (· ≠ 0x3F) (0x2F :: t') := by
        unfold escapedPath at he
        cases hu : unescapePath (List.takeWhile (· ≠ 0x3F) (0x2F :: t')) with
        | none => rw [hu] at he; simp at he
        | some path =>
          rw [hu] at he
          simp only at he
          by_cases heq : escapePath path = List.takeWhile (· ≠ 0x3F) (0x2F :: t')
          · rw [if_pos heq] at he
            simp only [ne_eq, not_true_eq_false, false_and, if_false] at he
            by_cases hs : path = [0x2A]
            · subst hs
              rw [hp'] at heq
              simp [escapePath, shouldEscapePath] at heq
            · rw [if_neg hs] at he
              injection he with he
              rw [← he, heq]
          · rw [if_neg heq] at he
            rw [if_pos ⟨by rw [hp']; simp, hv, hu⟩] at he
            injection he with he
            exact he.symm
      rw [← h, hep]
      exact List.takeWhile_append_dropWhile _ _
  · simp at h

/-! ## No white space between the tokens of an encoding -/

theorem tok_nil : Tok [] := fun _ => rfl

theorem tok_append (a b : Bytes) (ha : Tok a) (hb : Tok b) : Tok (a ++ b) := by
  intro rest
  rw [List.append_assoc, ha, hb]

theorem tok_byte (c : Nat) (h : 0x23 ≤ c) : Tok [c] := by
  intro rest
  have h1 : isSpace c = false := by
    simp only [isSpace, Bool.or_eq_false_iff, decide_eq_false_iff_not]
    omega
  have h2 : ¬ c = 0x22 := by omega
  simp [compactFrom, h1, h2]

theorem tok_cons (c : Nat) (a : Bytes) (h : 0x23 ≤ c) (ha : Tok a) : Tok (c :: a) :=
  tok_append [c] a (tok_byte c h) ha

theorem tok_plain : ∀ a : Bytes, (∀ x ∈ a, 0x23 ≤ x) → Tok a
  | [] => fun _ => tok_nil
  | c :: t => fun h =>
    tok_cons c t (h c (by simp)) (tok_plain t (fun x hx => h x (by simp [hx])))

theorem compactFrom_encoded (e : Bytes) (h : Encoded e) :
    ∀ rest : Bytes, compactFrom true false (e ++ rest) = compactFrom true false rest := by
  induction h with
  | nil => intro rest; rfl
  | plain c e h1 h2 h3 _ ih =>
    intro rest
    simp only [List.cons_append, compactFrom, h2, h3, if_false, decide_False]
    exact ih rest
  | esc x e hx _ ih =>
    intro rest
    simp only [List.cons_append, compactFrom, if_false, decide_True,
      show ¬ (0x5C : Nat) = 0x22 by decide]
    exact ih rest
  | escU a b c d e ha hb hc hd _ ih =>
    intro rest
    have q : ∀ y, isHex y = true → ¬ y = 0x22 ∧ ¬ y = 0x5C := by
      intro y hy
      simp only [isHex, Bool.or_eq_true, Bool.and_eq_true, decide_eq_true_eq] at hy
      omega
    simp only [List.cons_append, compactFrom, if_false, decide_True, decide_False,
      show ¬ (0x5C : Nat) = 0x22 by decide, (q a ha).1, (q a ha).2, (q b hb).1, (q b hb).2,
      (q c hc).1, (q c hc).2, (q d hd).1, (q d hd).2]
    exact ih rest

theorem tok_appendString (s : Bytes) : Tok (appendString s) := by
  intro rest
  have e : appendString s ++ rest = 0x22 :: (appendStringLoop s 0 true ++ 0x22 :: rest) := by
    simp [appendString]
  have h1 : compactFrom false false (0x22 :: (appendStringLoop s 0 true ++ 0x22 :: rest)) =
      compactFrom true false (appendStringLoop s 0 true ++ 0x22 :: rest) := by
    simp [compactFrom, isSpace]
  have h2 : compactFrom true false (0x22 :: rest) = compactFrom false false rest := by
    simp [compactFrom]
  rw [e, h1, compactFrom_encoded _ (encoded_appendStringLoop s 0 true (by simp)), h2]

theorem digitChars_above (ds : List Nat) : ∀ x ∈ digitChars ds, 0x23 ≤ x := by
  intro x hx
  simp only [digitChars, List.mem_map] at hx
  obtain ⟨d, _, rfl⟩ := hx
  omega

theorem renderNum_above (p : NumParts) : ∀ x ∈ renderNum p, 0x23 ≤ x := by
  intro x hx
  have hexp : ∀ y ∈ renderExp p.exp, 0x23 ≤ y := by
    intro y hy
    cases he : p.exp with
    | none => rw [he] at hy; simp [renderExp] at hy
    | some e =>
      obtain ⟨en, ds⟩ := e
      rw [he] at hy
      simp only [renderExp, List.mem_cons] at hy
      rcases hy with rfl | rfl | hy
      · decide
      · split_ifs <;> decide
      · exact digitChars_above ds y hy
  simp only [renderNum, renderUnsigned, List.mem_append] at hx
  rcases hx with hx | hx | hx | hx
  · split_ifs at hx
    · simp at hx; omega
    · simp at hx
  · exact digitChars_above _ x hx
  · split_ifs at hx
    · simp at hx
    · simp only [List.mem_cons] at hx
      rcases hx with rfl | hx
      · decide
      · exact digitChars_above _ x hx
  · exact hexp x hx

theorem tok_formatFloat (neg : Bool) (k : Nat) (hfin : k < infOrd) : Tok (formatFloat neg k) := by
  obtain ⟨p, _, he, _, _⟩ := formatFloat_parts neg k hfin
  rw [he]
  exact tok_plain _ (renderNum_above p)

mutual
/-- The encoding of a value of the decoded shape has no white space between its tokens. -/
theorem tok_encodeValue : ∀ v : Value, v.decoded = true → ∀ b, encodeValue v = some b → Tok b
  | .null => by
    intro _ b hb
    simp only [encodeValue, Option.some.injEq] at hb; subst hb
    exact tok_plain _ (by decide)
  | .bool true => by
    intro _ b hb
    simp only [encodeValue, Option.some.injEq] at hb; subst hb
    exact tok_plain _ (by decide)
  | .bool false => by
    intro _ b hb
    simp only [encodeValue, Option.some.injEq] at hb; subst hb
    exact tok_plain _ (by decide)
  | .number (.finite neg k) => by
    intro hd b hb
    simp only [encodeValue, Option.some.injEq] at hb; subst hb
    exact tok_formatFloat neg k (by simpa [Value.decoded] using hd)
  | .number (.inf _) => by intro hd; simp [Value.decoded] at hd
  | .number .nan => by intro hd; simp [Value.decoded] at hd
  | .string s => by
    intro _ b hb
    simp only [encodeValue, Option.some.injEq] at hb; subst hb
    exact tok_appendString s
  | .array xs => by
    intro hd b hb
    simp only [encodeValue] at hb
    cases hl : encodeList xs false with
    | none => rw [hl] at hb; simp at hb
    | some l =>
      rw [hl] at hb
      simp only [Option.map_some', Option.some.injEq] at hb; subst hb
      have := tok_encodeList xs (by simpa [Value.decoded] using hd) false l hl
      exact tok_cons _ _ (by decide) (tok_append _ _ this (tok_byte _ (by decide)))
  | .object m => by
    intro hd b hb
    simp only [encodeValue] at hb
    cases hl : encodeFields m false with
    | none => rw [hl] at hb; simp at hb
    | some l =>
      rw [hl] at hb
      simp only [Option.map_some', Option.some.injEq] at hb; subst hb
      have hd2 : Value.decodedFields m = true := by
        simp only [Value.decoded, Bool.and_eq_true] at hd; exact hd.2
      have := tok_encodeFields m hd2 false l hl
      exact tok_cons _ _ (by decide) (tok_append _ _ this (tok_byte _ (by decide)))
theorem tok_encodeList : ∀ xs : List Value, Value.decodedList xs = true →
    ∀ (sep : Bool) (b : Bytes), encodeList xs sep = some b → Tok b
  | [] => by
    intro _ sep b hb
    simp only [encodeList, Option.some.injEq] at hb; subst hb
    exact tok_nil
  | x :: xs => by
    intro hd sep b hb
    simp only [Value.decodedList, Bool.and_eq_true] at hd
    simp only [encodeList] at hb
    cases hx : encodeValue x with
    | none => rw [hx] at hb; simp at hb
    | some a =>
      cases hl : encodeList xs true with
      | none => rw [hx, hl] at hb; simp at hb
      | some l =>
        rw [hx, hl] at hb
        simp only [Option.some.injEq] at hb; subst hb
        have h1 := tok_encodeValue x hd.1 a hx
        have h2 := tok_encodeList xs hd.2 true l hl
        have h0 : Tok (if sep = true then [0x2C] else []) := by
          split_ifs
          · exact tok_byte _ (by decide)
          · exact tok_nil
        exact tok_append _ _ (tok_append _ _ h0 h1) h2
theorem tok_encodeFields : ∀ m : List (Bytes × Value), Value.decodedFields m = true →
    ∀ (sep : Bool) (b : Bytes), encodeFields m sep = some b → Tok b
  | [] => by
    intro _ sep b hb
    simp only [encodeFields, Option.some.injEq] at hb; subst hb
    exact tok_nil
  | (k, x) :: m => by
    intro hd sep b hb
    simp only [Value.decodedFields, Bool.and_eq_true] at hd
    simp only [encodeFields] at hb
    cases hx : encodeValue x with
    | none => rw [hx] at hb; simp at hb
    | some a =>
      cases hl : encodeFields m true with
      | none => rw [hx, hl] at hb; simp at hb
      | some l =>
        rw [hx, hl] at hb
        simp only [Option.some.injEq] at hb; subst hb
        have h1 := tok_encodeValue x hd.1.2 a hx
        have h2 := tok_encodeFields m hd.2 true l hl
        have h0 : Tok (if sep = true then [0x2C] else []) := by
          split_ifs
          · exact tok_byte _ (by decide)
          · exact tok_nil
        exact tok_append _ _ (tok_append _ _ (tok_append _ _
          (tok_append _ _ h0 (tok_appendString k)) (tok_byte _ (by decide))) h1) h2
end

/-- The log line around a compact data member is compact. -/
theorem compact_logLine (m u d : Bytes) (hd : Tok d) :
    compact (logPrefix m u ++ d ++ ascii "\x7d") = true := by
  have hb : ascii "\x7d" = [0x7D] := by decide
  have hp : Tok (logPrefix m u) := by
    rw [logPrefix_eq]
    refine tok_cons _ _ (by decide) (tok_append _ _ (tok_appendString _) (tok_cons _ _ (by decide)
      (tok_append _ _ (tok_appendString _) (tok_cons _ _ (by decide)
        (tok_append _ _ (tok_appendString _) (tok_cons _ _ (by decide)
          (tok_append _ _ (tok_appendString _) (tok_cons _ _ (by decide)
            (tok_append _ _ (tok_appendString _) (tok_byte _ (by decide)))))))))))
  have h := tok_append _ _ (tok_append _ _ hp hd) (tok_byte 0x7D (by decide)) []
  rw [hb]
  unfold compact
  simpa using h

/-! ## The handler: shared lemmas -/

theorem logRecord_ok (r : Request) (v : Value) (h : Unmarshal r.Body = .ok v) :
    (logRecord r).Data = v := by
  show (match Unmarshal r.Body with
    | .ok parsedBody => parsedBody
    | .error _ => Value.string r.Body) = v
  rw [h]

theorem logRecord_error (r : Request) (e : UnmarshalError) (h : Unmarshal r.Body = .error e) :
    (logRecord r).Data = .string r.Body := by
  show (match Unmarshal r.Body with
    | .ok parsedBody => parsedBody
    | .error _ => Value.string r.Body) = _
  rw [h]

theorem loggedData_ok (r : Request) (v : Value) (h : Unmarshal r.Body = .ok v) :
    loggedData r = v := by
  unfold loggedData
  rw [h]

theorem loggedData_error (r : Request) (e : UnmarshalError)
    (h : Unmarshal r.Body = .error e) : loggedData r = .string (toValidUTF8 r.Body 0) := by
  unfold loggedData
  rw [h]

theorem handle_stdout (r : Request) (d : Bytes)
    (h : marshalValue 1 (logRecord r).Data = some d) :
    (handle r).stdout = [logPrefix r.Method r.URL ++ d ++ ascii "\x7d" ++ [0x0A]] := by
  have hm : Marshal (logRecord r) = some (logPrefix r.Method r.URL ++ d ++ ascii "\x7d") := by
    unfold Marshal; rw [h]; rfl
  show [(Marshal (logRecord r)).getD [] ++ [0x0A]] = _
  rw [hm]; rfl

theorem handle_stdout_none (r : Request) (h : Marshal (logRecord r) = none) :
    (handle r).stdout = [[0x0A]] := by
  show [(Marshal (logRecord r)).getD [] ++ [0x0A]] = _
  rw [h]; rfl

theorem marshal_cases (r : Request) :
    Marshal (logRecord r) = none ∨ ∃ d, marshalValue 1 (logRecord r).Data = some d := by
  cases h : marshalValue 1 (logRecord r).Data with
  | none => left; unfold Marshal; rw [h]; rfl
  | some d => right; exact ⟨d, rfl⟩

theorem validJSON_of_unmarshalWith (data : Bytes) (v : Value)
    (h : unmarshalWith none data = .ok v) : validJSON data = true := by
  unfold unmarshalWith at h
  unfold validJSON
  cases hr : (run none Decoder.init data).bind (eof none) with
  | none => rw [hr] at h; simp at h
  | some d => rfl

theorem valid_of_unmarshal (data : Bytes) (v : Value) (h : Unmarshal data = .ok v) :
    Valid data = true :=
  validWithin_of_unmarshal maxNestingDepth data v h

theorem unmarshal_error_of_invalid (data : Bytes) (h : Valid data = false) :
    ∃ e, Unmarshal data = .error e := by
  cases hu : Unmarshal data with
  | error e => exact ⟨e, rfl⟩
  | ok v =>
    have := valid_of_unmarshal data v hu
    rw [h] at this; cases this

/-- What a JSON text is decoded to by `Unmarshal`, by the range of its number literals. -/
theorem unmarshal_of_valid (data : Bytes) (h : Valid data = true) :
    ∃ v, Unmarshal data = if numbersFit data = true then .ok v else .error .numberRange :=
  unmarshalWith_of_valid maxNestingDepth data h

/-- A JSON text nested at most `l` deep, within the limit, with all numbers in range is
decoded to a value nested at most `l` deep. -/
theorem unmarshal_within (l : Nat) (hl : l ≤ maxNestingDepth) (data : Bytes)
    (hv : validWithin l data = true) (hn : numbersFit data = true) :
    ∃ v, Unmarshal data = .ok v ∧ v.decoded = true ∧ v.depth ≤ l := by
  obtain ⟨v, hu⟩ := unmarshalWith_of_valid l data hv
  rw [if_pos hn] at hu
  have hd := unmarshalWith_decoded (some l) data v hu
  refine ⟨v, ?_, hd.1, hd.2⟩
  show unmarshalWith (some maxNestingDepth) data = .ok v
  rw [unmarshalWith_mono l maxNestingDepth hl data hv, hu]

theorem logPrefix_no_newline (m u : Bytes) : ∀ x ∈ logPrefix m u, x ≠ 0x0A := by
  intro x hx
  have h1 : ∀ x ∈ ascii "\x7b\"method\":", x ≠ 0x0A := by decide
  have h2 : ∀ x ∈ ascii ",\"url\":", x ≠ 0x0A := by decide
  have h3 : ∀ x ∈ ascii ",\"data\":", x ≠ 0x0A := by decide
  simp only [logPrefix, List.mem_append] at hx
  rcases hx with ((((hx | hx) | hx) | hx) | hx)
  · exact h1 x hx
  · exact appendString_no_newline m x hx
  · exact h2 x hx
  · exact appendString_no_newline u x hx
  · exact h3 x hx

/-- The data member of a log line: its text is read as the logged value of the request and
holds no line break. -/
theorem logData_reads (r : Request) (d : Bytes)
    (hm : marshalValue 1 (logRecord r).Data = some d) :
    ReadsAs d (loggedData r) ∧ ∀ x ∈ d, x ≠ 0x0A := by
  cases hu : Unmarshal r.Body with
  | ok v =>
    have hv := (unmarshalWith_decoded _ _ _ hu).1
    rw [logRecord_ok r v hu] at hm
    have he := marshalValue_some v 1 d hm
    rw [loggedData_ok r v hu]
    exact ⟨readsAs_decoded v hv d he, encodeValue_no_newline v hv d he⟩
  | error e =>
    rw [logRecord_error r e hu] at hm
    have hd : d = appendString r.Body := by
      simp only [marshalValue, Option.some.injEq] at hm
      exact hm.symm
    subst hd
    rw [loggedData_error r e hu]
    exact ⟨readsAs_string _, appendString_no_newline _⟩

/-- The data member of a log line has no white space between its tokens. -/
theorem logData_tok (r : Request) (d : Bytes)
    (hm : marshalValue 1 (logRecord r).Data = some d) : Tok d := by
  cases hu : Unmarshal r.Body with
  | ok v =>
    have hv := (unmarshalWith_decoded _ _ _ hu).1
    rw [logRecord_ok r v hu] at hm
    exact tok_encodeValue v hv d (marshalValue_some v 1 d hm)
  | error e =>
    rw [logRecord_error r e hu] at hm
    have hd : d = appendString r.Body := by
      simp only [marshalValue, Option.some.injEq] at hm
      exact hm.symm
    subst hd
    exact tok_appendString _

/-- A method that the server admits is logged as a string literal that decodes to it. -/
theorem unmarshal_method (m : Bytes) (h : validMethod m = true) :
    Unmarshal (appendString m) = .ok (.string m) := by
  have e := unmarshalWith_appendString (some maxNestingDepth) m
  rw [toValidUTF8_eq_self m (utf8Valid_of_validMethod m h)] at e
  exact e

/-- A URL that is the target as received, in valid UTF-8, is logged as a string literal that
decodes to the target. -/
theorem unmarshal_url (t u : Bytes) (h : requestURL t = some u)
    (hv : validEncodedPath (t.takeWhile (· ≠ 0x3F)) = true) (hu : utf8Valid t = true) :
    Unmarshal (appendString u) = .ok (.string t) := by
  have e := unmarshalWith_appendString (some maxNestingDepth) u
  rw [requestURL_verbatim t u h hv, toValidUTF8_eq_self t hu] at e
  rw [requestURL_verbatim t u h hv]
  exact e

/-- The encoder succeeds on the record of a request whose body is not decoded or is decoded
to a value nested less deep than the limit. -/
theorem marshal_of_shallow (r : Request)
    (h : ∀ v, Unmarshal r.Body = .ok v → v.depth < maxNestingDepth) :
    ∃ d, marshalValue 1 (logRecord r).Data = some d := by
  cases hu : Unmarshal r.Body with
  | ok v =>
    have hv := (unmarshalWith_decoded _ _ _ hu).1
    have hd := h v hu
    rw [logRecord_ok r v hu, marshalValue_eq v 1 (by omega)]
    exact Option.isSome_iff_exists.mp (encodeValue_isSome v hv)
  | error e =>
    rw [logRecord_error r e hu]
    exact ⟨appendString r.Body, rfl⟩

/-! ## The request with the deepest body -/

theorem encodeValue_zero : encodeValue (.number (.finite false 0)) = some (ascii "0") := by
  decide

theorem deep_unmarshal :
    Unmarshal deepRequest.Body = .ok (nestedValue maxNestingDepth (.number (.finite false 0))) :=
  unmarshalWith_nestedArrays (some maxNestingDepth) (.number (.finite false 0)) (ascii "0")
    (by decide) encodeValue_zero maxNestingDepth (by simp [fits, Value.depth])

theorem deep_marshal : Marshal (logRecord deepRequest) = none := by
  have hm : marshalValue 1 (logRecord deepRequest).Data = none := by
    rw [logRecord_ok deepRequest _ deep_unmarshal]
    apply marshalValue_none _ 1 (by decide)
    rw [depth_nestedValue]
    omega
  unfold Marshal
  rw [hm]; rfl

theorem deep_stdout : (handle deepRequest).stdout = [[0x0A]] :=
  handle_stdout_none deepRequest deep_marshal

theorem deep_valid : Valid deepRequest.Body = true :=
  valid_of_unmarshal _ _ deep_unmarshal

theorem deep_numbersFit : numbersFit deepRequest.Body = true := by
  obtain ⟨v, hv⟩ := unmarshal_of_valid deepRequest.Body deep_valid
  rw [deep_unmarshal] at hv
  by_cases hn : numbersFit deepRequest.Body = true
  · exact hn
  · rw [if_neg hn] at hv; cases hv

/-! ## A body nested deeper than the decoder allows -/

theorem unmarshalWith_unlimited_eq (l : Nat) (data : Bytes) (h : validWithin l data = true) :
    unmarshalWith none data = unmarshalWith (some l) data := by
  unfold validWithin at h
  unfold unmarshalWith
  cases h1 : run (some l) Decoder.init data with
  | none => simp [h1] at h
  | some d2 =>
    rw [h1] at h
    simp only [Option.some_bind] at h ⊢
    rw [run_unlimited l data _ d2 h1]
    simp only [Option.some_bind]
    cases h2 : eof (some l) d2 with
    | none => simp [h2] at h
    | some d3 => rw [eof_unlimited l d2 d3 h2]

theorem tooDeep_unlimited :
    unmarshalWith none (nestedArrays (maxNestingDepth + 1) (ascii "0")) =
      .ok (nestedValue (maxNestingDepth + 1) (.number (.finite false 0))) :=
  unmarshalWith_nestedArrays none (.number (.finite false 0)) (ascii "0")
    (by decide) encodeValue_zero (maxNestingDepth + 1) trivial

theorem tooDeep_invalid : Valid (nestedArrays (maxNestingDepth + 1) (ascii "0")) = false := by
  by_cases h : Valid (nestedArrays (maxNestingDepth + 1) (ascii "0")) = true
  · have e := unmarshalWith_unlimited_eq maxNestingDepth _ h
    rw [tooDeep_unlimited] at e
    have hd := (unmarshalWith_decoded (some maxNestingDepth) _ _ e.symm).2
    rw [depth_nestedValue] at hd
    simp [fits, Value.depth] at hd
  · simpa using h

/-! ## The scenarios of the specification, evaluated -/

theorem postHello_line : (handle postHello).stdout =
    [ascii "\x7b\"method\":\"POST\",\"url\":\"/hello\",\"data\":\x7b\"a\":1\x7d\x7d\n"] := by
  decide!

theorem getRoot_line : (handle getRoot).stdout =
    [ascii "\x7b\"method\":\"GET\",\"url\":\"/\",\"data\":\"\"\x7d\n"] := by
  decide!

theorem putNotJson_line : (handle putNotJson).stdout =
    [ascii "\x7b\"method\":\"PUT\",\"url\":\"/x?y=1\",\"data\":\"not json\"\x7d\n"] := by
  decide!

theorem postArr_line : (handle postArr).stdout =
    [ascii "\x7b\"method\":\"POST\",\"url\":\"/arr\",\"data\":[1,2,3]\x7d\n"] := by
  decide!

/-! ## The claims -/

/-- C1 (amended): for every request whose body is valid JSON as `json.Valid` decides (the
grammar of JSON, nested at most 10000 deep), the `data` field of the log record is the parsed
JSON value whenever every number literal of the body is within the range of float64; when
some number literal is out of range, `json.Unmarshal` returns an error and `data` is the raw
body text. -/
theorem C1_valid_body_takes_priority (r : Request) (hv : Valid r.Body = true) :
    (numbersFit r.Body = true → ∃ v, Unmarshal r.Body = .ok v ∧ (logRecord r).Data = v) ∧
    (numbersFit r.Body = false →
      Unmarshal r.Body = .error .numberRange ∧ (logRecord r).Data = .string r.Body) := by
  obtain ⟨v, hu⟩ := unmarshal_of_valid r.Body hv
  constructor
  · intro hn
    rw [if_pos hn] at hu
    exact ⟨v, hu, logRecord_ok r v hu⟩
  · intro hn
    rw [if_neg (by simp [hn])] at hu
    exact ⟨hu, logRecord_error r _ hu⟩

/-- C1 witness: the body `{"a":1}` of `POST /hello`, valid JSON with its number in range,
decoded to the map `a ↦ 1`. -/
theorem C1_valid_body_takes_priority_witness :
    (Valid postHello.Body = true ∧ numbersFit postHello.Body = true ∧
      Unmarshal postHello.Body = .ok (.object [(ascii "a", .number one64)])) ∧
    ((numbersFit postHello.Body = true →
      ∃ v, Unmarshal postHello.Body = .ok v ∧ (logRecord postHello).Data = v) ∧
    (numbersFit postHello.Body = false →
      Unmarshal postHello.Body = .error .numberRange ∧
        (logRecord postHello).Data = .string postHello.Body)) :=
  ⟨by decide!, C1_valid_body_takes_priority postHello (by decide!)⟩

/-- C1 counterexample: the body `1e999` is valid JSON (a number), yet `json.Unmarshal` rejects
it as out of the float64 range, so `data` is the raw text and the line logs it as a string.
And the body of 10001 nested arrays around `0` is valid by the grammar of JSON, yet
`json.Valid` and `json.Unmarshal` refuse it, so `data` is the raw text again. -/
theorem C1_counterexample :
    (validJSON (ascii "1e999") = true ∧ Valid (ascii "1e999") = true ∧
      numbersFit (ascii "1e999") = false ∧
      Unmarshal (ascii "1e999") = .error .numberRange ∧
      (logRecord ⟨ascii "POST", ascii "/", ascii "1e999", none⟩).Data = .string (ascii "1e999") ∧
      (handle ⟨ascii "POST", ascii "/", ascii "1e999", none⟩).stdout =
        [ascii "\x7b\"method\":\"POST\",\"url\":\"/\",\"data\":\"1e999\"\x7d\n"]) ∧
    (validJSON (nestedArrays (maxNestingDepth + 1) (ascii "0")) = true ∧
      Valid (nestedArrays (maxNestingDepth + 1) (ascii "0")) = false ∧
      (logRecord ⟨ascii "POST", ascii "/", nestedArrays (maxNestingDepth + 1) (ascii "0"),
        none⟩).Data = .string (nestedArrays (maxNestingDepth + 1) (ascii "0"))) := by
  refine ⟨by decide!, validJSON_of_unmarshalWith _ _ tooDeep_unlimited, tooDeep_invalid, ?_⟩
  obtain ⟨e, he⟩ := unmarshal_error_of_invalid _ tooDeep_invalid
  exact logRecord_error ⟨_, _, _, _⟩ e he

/-- C2 (amended): for every request whose body is not valid JSON (`json.Valid` refuses it),
including the empty body, the data member of the log line is the JSON string literal of the
body; that literal, and the data member of the decoded line, decode to the body with every
byte that is not part of a valid UTF-8 encoding replaced by U+FFFD, which is the body itself
exactly when the body is valid UTF-8. -/
theorem C2_raw_text_fallback (r : Request) (h : Valid r.Body = false) :
    (logRecord r).Data = .string r.Body ∧
    (handle r).stdout =
      [ascii "\x7b\"method\":" ++ appendString r.Method ++ ascii ",\"url\":" ++
        appendString r.URL ++ ascii ",\"data\":" ++ appendString r.Body ++ ascii "\x7d" ++
        [0x0A]] ∧
    Unmarshal (appendString r.Body) = .ok (.string (toValidUTF8 r.Body 0)) ∧
    unmarshalWith none (ascii "\x7b\"method\":" ++ appendString r.Method ++ ascii ",\"url\":" ++
        appendString r.URL ++ ascii ",\"data\":" ++ appendString r.Body ++ ascii "\x7d") =
      .ok (.object [(ascii "data", .string (toValidUTF8 r.Body 0)),
        (ascii "method", .string (toValidUTF8 r.Method 0)),
        (ascii "url", .string (toValidUTF8 r.URL 0))]) ∧
    (toValidUTF8 r.Body 0 = r.Body ↔ utf8Valid r.Body = true) := by
  obtain ⟨e, he⟩ := unmarshal_error_of_invalid r.Body h
  have hd := logRecord_error r e he
  refine ⟨hd, ?_, unmarshalWith_appendString _ _,
    unmarshal_logLine _ _ _ _ (readsAs_string _), toValidUTF8_eq_iff _⟩
  apply handle_stdout
  rw [hd]; rfl

/-- C2 witness: `PUT /x?y=1` with body `not json`; its line and the line of `GET /` with an
empty body are those of the specification. -/
theorem C2_raw_text_fallback_witness :
    Valid putNotJson.Body = false ∧
    ((logRecord putNotJson).Data = .string putNotJson.Body ∧
    (handle putNotJson).stdout =
      [ascii "\x7b\"method\":" ++ appendString putNotJson.Method ++ ascii ",\"url\":" ++
        appendString putNotJson.URL ++ ascii ",\"data\":" ++ appendString putNotJson.Body ++
        ascii "\x7d" ++ [0x0A]] ∧
    Unmarshal (appendString putNotJson.Body) = .ok (.string (toValidUTF8 putNotJson.Body 0)) ∧
    unmarshalWith none (ascii "\x7b\"method\":" ++ appendString putNotJson.Method ++
        ascii ",\"url\":" ++ appendString putNotJson.URL ++ ascii ",\"data\":" ++
        appendString putNotJson.Body ++ ascii "\x7d") =
      .ok (.object [(ascii "data", .string (toValidUTF8 putNotJson.Body 0)),
        (ascii "method", .string (toValidUTF8 putNotJson.Method 0)),
        (ascii "url", .string (toValidUTF8 putNotJson.URL 0))]) ∧
    (toValidUTF8 putNotJson.Body 0 = putNotJson.Body ↔ utf8Valid putNotJson.Body = true)) ∧
    (handle putNotJson).stdout =
      [ascii "\x7b\"method\":\"PUT\",\"url\":\"/x?y=1\",\"data\":\"not json\"\x7d\n"] ∧
    Valid getRoot.Body = false ∧
    (handle getRoot).stdout =
      [ascii "\x7b\"method\":\"GET\",\"url\":\"/\",\"data\":\"\"\x7d\n"] :=
  ⟨by decide, C2_raw_text_fallback putNotJson (by decide), putNotJson_line, by decide,
    getRoot_line⟩

/-- C2 counterexample: the one-byte body `0xFF` is not valid JSON; the data member of the line
is a string literal holding the three bytes of U+FFFD, which decodes to those three bytes and
not to the body. -/
theorem C2_counterexample :
    validJSON [0xFF] = false ∧ Valid [0xFF] = false ∧
    (handle ⟨ascii "POST", ascii "/", [0xFF], none⟩).stdout =
      [ascii "\x7b\"method\":\"POST\",\"url\":\"/\",\"data\":\"" ++ [0xEF, 0xBF, 0xBD] ++
        ascii "\"\x7d\n"] ∧
    Unmarshal (ascii "\"" ++ [0xEF, 0xBF, 0xBD] ++ ascii "\"") =
      .ok (.string [0xEF, 0xBF, 0xBD]) ∧
    [0xEF, 0xBF, 0xBD] ≠ [0xFF] := by
  decide!

/-- C3 (amended): for every request whose body is valid JSON nested fewer than 10000 deep
(objects and arrays included) in which every number literal is within the range of float64,
the body is decoded, the data member of the log line is the encoding of the decoded body, and
parsing that member again gives the decoded body. -/
theorem C3_data_round_trip (r : Request)
    (hv : validWithin (maxNestingDepth - 1) r.Body = true) (hn : numbersFit r.Body = true) :
    ∃ (v : Value) (d : Bytes), Unmarshal r.Body = .ok v ∧ marshalValue 1 v = some d ∧
      (handle r).stdout =
        [ascii "\x7b\"method\":" ++ appendString r.Method ++ ascii ",\"url\":" ++
          appendString r.URL ++ ascii ",\"data\":" ++ d ++ ascii "\x7d" ++ [0x0A]] ∧
      Unmarshal d = .ok v := by
  obtain ⟨v, hu, hd, hdep⟩ := unmarshal_within (maxNestingDepth - 1) (by decide) r.Body hv hn
  have hM : 1 + v.depth ≤ maxNestingDepth := by
    have : maxNestingDepth - 1 + 1 = maxNestingDepth := by decide
    omega
  obtain ⟨d, he⟩ := Option.isSome_iff_exists.mp (encodeValue_isSome v hd)
  have hm : marshalValue 1 v = some d := by rw [marshalValue_eq v 1 hM]; exact he
  refine ⟨v, d, hu, hm, ?_, unmarshalWith_encodeValue _ v hd (by show v.depth ≤ _; omega) d he⟩
  apply handle_stdout
  rw [logRecord_ok r v hu]; exact hm

/-- C3 witness: `POST /arr` with body `[1,2,3]`; its line and the line of `POST /hello` with
body `{"a":1}` are those of the specification. -/
theorem C3_data_round_trip_witness :
    (validWithin (maxNestingDepth - 1) postArr.Body = true ∧ numbersFit postArr.Body = true) ∧
    (∃ (v : Value) (d : Bytes), Unmarshal postArr.Body = .ok v ∧ marshalValue 1 v = some d ∧
      (handle postArr).stdout =
        [ascii "\x7b\"method\":" ++ appendString postArr.Method ++ ascii ",\"url\":" ++
          appendString postArr.URL ++ ascii ",\"data\":" ++ d ++ ascii "\x7d" ++ [0x0A]] ∧
      Unmarshal d = .ok v) ∧
    (handle postArr).stdout =
      [ascii "\x7b\"method\":\"POST\",\"url\":\"/arr\",\"data\":[1,2,3]\x7d\n"] ∧
    (handle postHello).stdout =
      [ascii "\x7b\"method\":\"POST\",\"url\":\"/hello\",\"data\":\x7b\"a\":1\x7d\x7d\n"] :=
  ⟨by decide!, C3_data_round_trip postArr (by decide!) (by decide!), postArr_line,
    postHello_line⟩

/-- C3 counterexample: the body `[1e999]` is a JSON array, yet `json.Unmarshal` rejects it, so
the data member of the line is the string literal `"[1e999]"`, which parses to a string and
not to an array. And the body of 10000 arrays around `0` is a JSON array with its number in
range that `json.Unmarshal` decodes, yet `json.Marshal` fails on the record and the line is
empty: it has no data member. -/
theorem C3_counterexample :
    (validJSON (ascii "[1e999]") = true ∧
      Unmarshal (ascii "[1e999]") = .error .numberRange ∧
      (handle ⟨ascii "POST", ascii "/arr", ascii "[1e999]", none⟩).stdout =
        [ascii "\x7b\"method\":\"POST\",\"url\":\"/arr\",\"data\":\"[1e999]\"\x7d\n"] ∧
      Unmarshal (ascii "\"[1e999]\"") = .ok (.string (ascii "[1e999]"))) ∧
    (Valid deepRequest.Body = true ∧ numbersFit deepRequest.Body = true ∧
      Unmarshal deepRequest.Body =
        .ok (nestedValue maxNestingDepth (.number (.finite false 0))) ∧
      (handle deepRequest).stdout = [[0x0A]]) :=
  ⟨by decide!, deep_valid, deep_numbersFit, deep_unmarshal, deep_stdout⟩

/-- C4: for every request the calls made on the response writer are exactly one
`WriteHeader(200)` and no `Write`, whatever the method, URL, body or read error. -/
theorem C4_response_always_200_empty (r : Request) :
    (handle r).response = [ResponseCall.WriteHeader 200] :=
  rfl

/-- C5 (amended): for every request exactly one write goes to standard output, and it is one
line: a text without a newline byte followed by one newline. The text is a valid JSON
document, or it is empty, which it is when `json.Marshal` fails; it is a valid JSON document
whenever the body is not decoded by `json.Unmarshal` or is decoded to a value nested fewer
than 10000 deep. -/
theorem C5_one_line (r : Request) :
    ∃ doc : Bytes, (handle r).stdout = [doc ++ [0x0A]] ∧ (∀ x ∈ doc, x ≠ 0x0A) ∧
      (validJSON doc = true ∨ (doc = [] ∧ Marshal (logRecord r) = none)) ∧
      ((∀ v, Unmarshal r.Body = .ok v → v.depth < maxNestingDepth) → validJSON doc = true) := by
  have key : ∀ d, marshalValue 1 (logRecord r).Data = some d →
      (handle r).stdout = [logPrefix r.Method r.URL ++ d ++ ascii "\x7d" ++ [0x0A]] ∧
      (∀ x ∈ logPrefix r.Method r.URL ++ d ++ ascii "\x7d", x ≠ 0x0A) ∧
      validJSON (logPrefix r.Method r.URL ++ d ++ ascii "\x7d") = true := by
    intro d hd
    obtain ⟨hr, hn⟩ := logData_reads r d hd
    refine ⟨handle_stdout r d hd, ?_,
      validJSON_of_unmarshalWith _ _ (unmarshal_logLine r.Method r.URL d _ hr)⟩
    intro x hx
    have hb : ∀ x ∈ ascii "\x7d", x ≠ 0x0A := by decide
    simp only [List.mem_append] at hx
    rcases hx with ((hx | hx) | hx)
    · exact logPrefix_no_newline _ _ x hx
    · exact hn x hx
    · exact hb x hx
  rcases marshal_cases r with h | ⟨d, hd⟩
  · refine ⟨[], handle_stdout_none r h, by simp, Or.inr ⟨rfl, h⟩, ?_⟩
    intro hs
    obtain ⟨d, hd⟩ := marshal_of_shallow r hs
    unfold Marshal at h
    rw [hd] at h
    simp at h
  · obtain ⟨k1, k2, k3⟩ := key d hd
    exact ⟨_, k1, k2, Or.inl k3, fun _ => k3⟩

/-- C5 counterexample: for the body of 10000 arrays around `0` the one write to standard
output is a lone newline, and the empty text before it is not a JSON document. -/
theorem C5_counterexample :
    (handle deepRequest).stdout = [[] ++ [0x0A]] ∧ validJSON [] = false :=
  ⟨deep_stdout, by decide⟩

/-- C6 (amended): for every request on whose record `json.Marshal` succeeds, the log line is
the compact object text `{"method":M,"url":U,"data":D}` in that order, where `M` and `U` are
the JSON string literals of the method and of `request.URL.String()` and `D` is what the
encoder writes for the data: the line has no white space between its tokens, and decoding it
gives an object of exactly the three members. `json.Marshal` succeeds whenever the body is
not decoded or is decoded to a value nested fewer than 10000 deep; when it fails the line is
empty. The method and url members decode to the method and to `request.URL.String()` with
every byte that is not part of a valid UTF-8 encoding replaced by U+FFFD, that is verbatim
exactly when they are valid UTF-8. A method that the server admits decodes verbatim. The url
member decodes to the request target verbatim when the target is in origin form, its path
holds only bytes that `net/url` accepts unescaped, and it is valid UTF-8. For `POST /hello`
with body `{"a":1}` the line is the one of the specification, and the method and the target
`/hello` are of the kind that is logged verbatim. -/
theorem C6_log_line_shape :
    (∀ r : Request,
      (Marshal (logRecord r) = none ∧ (handle r).stdout = [[0x0A]]) ∨
      ∃ d : Bytes, marshalValue 1 (logRecord r).Data = some d ∧
        (handle r).stdout =
          [ascii "\x7b\"method\":" ++ appendString r.Method ++ ascii ",\"url\":" ++
            appendString r.URL ++ ascii ",\"data\":" ++ d ++ ascii "\x7d" ++ [0x0A]] ∧
        compact (ascii "\x7b\"method\":" ++ appendString r.Method ++ ascii ",\"url\":" ++
            appendString r.URL ++ ascii ",\"data\":" ++ d ++ ascii "\x7d") = true ∧
        unmarshalWith none (ascii "\x7b\"method\":" ++ appendString r.Method ++
            ascii ",\"url\":" ++ appendString r.URL ++ ascii ",\"data\":" ++ d ++ ascii "\x7d") =
          .ok (.object [(ascii "data", loggedData r),
            (ascii "method", .string (toValidUTF8 r.Method 0)),
            (ascii "url", .string (toValidUTF8 r.URL 0))])) ∧
    (∀ r : Request, (∀ v, Unmarshal r.Body = .ok v → v.depth < maxNestingDepth) →
      ∃ d : Bytes, marshalValue 1 (logRecord r).Data = some d) ∧
    (∀ r : Request,
      Unmarshal (appendString r.Method) = .ok (.string (toValidUTF8 r.Method 0)) ∧
      (toValidUTF8 r.Method 0 = r.Method ↔ utf8Valid r.Method = true) ∧
      (validMethod r.Method = true → Unmarshal (appendString r.Method) = .ok (.string r.Method))) ∧
    (∀ r : Request,
      Unmarshal (appendString r.URL) = .ok (.string (toValidUTF8 r.URL 0)) ∧
      (toValidUTF8 r.URL 0 = r.URL ↔ utf8Valid r.URL = true) ∧
      (∀ t : Bytes, requestURL t = some r.URL →
        validEncodedPath (t.takeWhile (· ≠ 0x3F)) = true → utf8Valid t = true →
        Unmarshal (appendString r.URL) = .ok (.string t))) ∧
    ((handle postHello).stdout =
        [ascii "\x7b\"method\":\"POST\",\"url\":\"/hello\",\"data\":\x7b\"a\":1\x7d\x7d\n"] ∧
      validMethod postHello.Method = true ∧
      requestURL (ascii "/hello") = some postHello.URL ∧
      validEncodedPath ((ascii "/hello").takeWhile (· ≠ 0x3F)) = true ∧
      utf8Valid (ascii "/hello") = true) := by
  refine ⟨?_, marshal_of_shallow, ?_, ?_, by decide!⟩
  · intro r
    rcases marshal_cases r with h | ⟨d, hd⟩
    · exact Or.inl ⟨h, handle_stdout_none r h⟩
    · exact Or.inr ⟨d, hd, handle_stdout r d hd, compact_logLine _ _ d (logData_tok r d hd),
        unmarshal_logLine r.Method r.URL d _ (logData_reads r d hd).1⟩
  · intro r
    exact ⟨unmarshalWith_appendString _ _, toValidUTF8_eq_iff _, unmarshal_method _⟩
  · intro r
    exact ⟨unmarshalWith_appendString _ _, toValidUTF8_eq_iff _,
      fun t h hv hu => unmarshal_url t r.URL h hv hu⟩

/-- C6 counterexample: for the request target `/a|b` the server's `request.URL.String()` is
`/a%7Cb`, and the url member of the line decodes to that and not to the target. For the
target `/?q=` followed by the byte `0xFF`, `request.URL.String()` is the target, and the url
member of the line holds the three bytes of U+FFFD in place of the byte `0xFF`. -/
theorem C6_counterexample :
    (requestURL (ascii "/a|b") = some (ascii "/a%7Cb") ∧
      (handle ⟨ascii "GET", ascii "/a%7Cb", [], none⟩).stdout =
        [ascii "\x7b\"method\":\"GET\",\"url\":\"/a%7Cb\",\"data\":\"\"\x7d\n"] ∧
      Unmarshal (ascii "\"/a%7Cb\"") = .ok (.string (ascii "/a%7Cb")) ∧
      ascii "/a%7Cb" ≠ ascii "/a|b") ∧
    (requestURL (ascii "/?q=" ++ [0xFF]) = some (ascii "/?q=" ++ [0xFF]) ∧
      (handle ⟨ascii "GET", ascii "/?q=" ++ [0xFF], [], none⟩).stdout =
        [ascii "\x7b\"method\":\"GET\",\"url\":\"/?q=" ++ [0xEF, 0xBF, 0xBD] ++
          ascii "\",\"data\":\"\"\x7d\n"] ∧
      Unmarshal (ascii "\"/?q=" ++ [0xEF, 0xBF, 0xBD] ++ ascii "\"") =
        .ok (.string (ascii "/?q=" ++ [0xEF, 0xBF, 0xBD])) ∧
      ascii "/?q=" ++ [0xEF, 0xBF, 0xBD] ≠ ascii "/?q=" ++ [0xFF]) := by
  decide!

/-- C7: when reading the body fails with error text `err` after the bytes `body`, the handler
makes one write to standard error, the line `Error: While reading requiest: %v err`, and its
response and its standard output are those of a successful read of `body`, which writes
nothing to standard error. -/
theorem C7_read_error_reported (m u body err : Bytes) :
    (handle ⟨m, u, body, some err⟩).stderr =
      [ascii "Error: While reading requiest: %v" ++ [0x20] ++ err ++ [0x0A]] ∧
    (handle ⟨m, u, body, none⟩).stderr = [] ∧
    (handle ⟨m, u, body, some err⟩).response = [ResponseCall.WriteHeader 200] ∧
    (handle ⟨m, u, body, some err⟩).response = (handle ⟨m, u, body, none⟩).response ∧
    (handle ⟨m, u, body, some err⟩).stdout = (handle ⟨m, u, body, none⟩).stdout :=
  ⟨rfl, rfl, rfl, rfl, rfl⟩

/-- C8 (amended): when `json.Marshal` fails on the record of a request, the error is dropped
and the write to standard output still happens: it is the empty line, a lone newline. The
response is the single `WriteHeader(200)` as for any request. -/
theorem C8_failed_marshal_prints_empty_line (r : Request) (h : Marshal (logRecord r) = none) :
    (handle r).stdout = [[0x0A]] ∧ (handle r).response = [ResponseCall.WriteHeader 200] :=
  ⟨handle_stdout_none r h, rfl⟩

/-- C8 witness: the request whose body is 10000 arrays around `0`. -/
theorem C8_failed_marshal_prints_empty_line_witness :
    Marshal (logRecord deepRequest) = none ∧
    ((handle deepRequest).stdout = [[0x0A]] ∧
      (handle deepRequest).response = [ResponseCall.WriteHeader 200]) :=
  ⟨deep_marshal, C8_failed_marshal_prints_empty_line deepRequest deep_marshal⟩

/-- C8 counterexample: for the request whose body is 10000 arrays around `0`, `json.Marshal`
fails on the record and the handler still writes one line, the empty one, to standard
output. -/
theorem C8_counterexample :
    Marshal (logRecord deepRequest) = none ∧ (handle deepRequest).stdout = [[0x0A]] ∧
    (handle deepRequest).stdout ≠ [] := by
  refine ⟨deep_marshal, deep_stdout, ?_⟩
  rw [deep_stdout]
  simp

/-- C9 (amended): `json.Marshal` succeeds on the record the handler builds for every request
whose body `json.Unmarshal` does not decode, or decodes to a value nested fewer than 10000
deep. -/
theorem C9_marshal_succeeds_below_max_depth (r : Request)
    (h : ∀ v, Unmarshal r.Body = .ok v → v.depth < maxNestingDepth) :
    (Marshal (logRecord r)).isSome = true := by
  obtain ⟨d, hd⟩ := marshal_of_shallow r h
  unfold Marshal
  rw [hd]; rfl

/-- C9 witness: `POST /hello` with body `{"a":1}`, decoded to a map nested one deep. -/
theorem C9_marshal_succeeds_below_max_depth_witness :
    (∀ v, Unmarshal postHello.Body = .ok v → v.depth < maxNestingDepth) ∧
    (Marshal (logRecord postHello)).isSome = true :=
  have h : ∀ v, Unmarshal postHello.Body = .ok v → v.depth < maxNestingDepth := by
    intro v hv
    have e : Unmarshal postHello.Body = .ok (.object [(ascii "a", .number one64)]) := by decide!
    rw [e] at hv
    injection hv with hv
    subst hv
    decide
  ⟨h, C9_marshal_succeeds_below_max_depth postHello h⟩

/-- C9 counterexample: the body of 10000 arrays around `0` is decoded by `json.Unmarshal`, and
`json.Marshal` fails on the record built from it: the value would be nested 10001 deep inside
the object of the record. -/
theorem C9_counterexample :
    Unmarshal deepRequest.Body = .ok (nestedValue maxNestingDepth (.number (.finite false 0))) ∧
    (logRecord deepRequest).Data = nestedValue maxNestingDepth (.number (.finite false 0)) ∧
    Marshal (logRecord deepRequest) = none :=
  ⟨deep_unmarshal, logRecord_ok deepRequest _ deep_unmarshal, deep_marshal⟩

/-- C10: the text `abc` is not a JSON text, and for every method, URL and read outcome the body
`abc` and the body `"abc"` give the same write to standard output; so the map from the body
to the log line is not injective. -/
theorem C10_fallback_indistinguishable :
    validJSON (ascii "abc") = false ∧
    (∀ (m u : Bytes) (e : Option Bytes),
      (handle ⟨m, u, ascii "abc", e⟩).stdout = (handle ⟨m, u, ascii "\"abc\"", e⟩).stdout) ∧
    ∀ (m u : Bytes) (e : Option Bytes),
      ¬ Function.Injective (fun body => (handle ⟨m, u, body, e⟩).stdout) := by
  have h1 : Unmarshal (ascii "abc") = .error .invalid := by decide!
  have h2 : Unmarshal (ascii "\"abc\"") = .ok (.string (ascii "abc")) := by decide!
  have key : ∀ (m u : Bytes) (e : Option Bytes),
      (handle ⟨m, u, ascii "abc", e⟩).stdout = (handle ⟨m, u, ascii "\"abc\"", e⟩).stdout := by
    intro m u e
    rw [handle_stdout ⟨m, u, ascii "abc", e⟩ (appendString (ascii "abc"))
        (by rw [logRecord_error _ _ h1]; rfl),
      handle_stdout ⟨m, u, ascii "\"abc\"", e⟩ (appendString (ascii "abc"))
        (by rw [logRecord_ok _ _ h2]; rfl)]
  refine ⟨by decide, key, ?_⟩
  intro m u e hinj
  have := hinj (key m u e)
  revert this
  decide

end TestServer
